import Mathlib

/-!
Shallow embedding of the CHOLMOD update/downdate numerical core of this
repository: the kernel template `t_cholmod_updown2_numkr.c`
(`NUMERIC(WDIM,RANK)`, its `SIMPLE` reference variant and the
`ALPHA_GAMMA` recurrence) and the driver `t_cholmod_updown2.c`
(the scatter stage and the path dispatcher `NUMERIC(WDIM,r)`).

Machine doubles are modelled as exact rationals.  All C arrays live in a
flat memory modelled as functions out of `Nat`; every read and write of
the C code is performed in the same serial order, so structural facts
(which cells are written, in which order, with which operand chains)
transfer directly.  `Int_max` sentinel values are modelled as `e + 1`,
which is observationally equivalent inside one kernel call: the C code
only ever compares those sentinels against the path end `e` with `<=`.
-/

namespace Updown

/-- Pointwise update of a memory cell, modelling an array store. -/
def upd {α : Type} (f : Nat → α) (i : Nat) (v : α) : Nat → α :=
  fun j => if j = i then v else f j

@[simp] theorem upd_same {α : Type} (f : Nat → α) (i : Nat) (v : α) :
    upd f i v i = v := by
  simp [upd]

theorem upd_other {α : Type} (f : Nat → α) {i j : Nat} (v : α) (h : j ≠ i) :
    upd f i v j = f j := by
  simp [upd, h]

/-- The mutable memory of one updown2 call: the factor arrays `Lp`, `Li`,
`Lnz` (the pattern) and `Lx` (the values, diagonal of D in slot
`Lx[Lp[j]]`), the dense row-major workspaces `WC` and `WD`, and the alpha
vectors `AlphaC` (`AC`) and `AlphaD` (`AD`). -/
@[ext] structure UpState where
  Lp : Nat → Nat
  Li : Nat → Nat
  Lnz : Nat → Nat
  Lx : Nat → ℚ
  WC : Nat → ℚ
  WD : Nat → ℚ
  AC : Nat → ℚ
  AD : Nat → ℚ

/-- The compile-time template parameters `WDIM` and `RANK`, the pointer
offset `wfirst` with which the dispatcher slices `W` and `Alpha` before
handing them to the kernel, and the option `Common->dbound`. -/
structure Ctx where
  wdim : Nat
  rank : Nat
  woff : Nat
  db : ℚ

/-- Address of `W (i, k)` as the kernel sees it: the kernel receives
`W + wfirst` and indexes `WDIM * i + k` off it. -/
def wcIdx (c : Ctx) (i k : Nat) : Nat := c.woff + c.wdim * i + k

/-- Address of `AlphaC [k]` as the kernel sees it (`AlphaC + wfirst`). -/
def acIdx (c : Ctx) (k : Nat) : Nat := c.woff + k

/-- One column's coefficient data for the sweep: the captured W row `z`
and the gamma vector `g`, for both polarities (ZC/GC and ZD/GD). -/
structure ZG where
  zc : Nat → ℚ
  gc : Nat → ℚ
  zd : Nat → ℚ
  gd : Nat → ℚ

/-- State of the `ALPHA_GAMMA` macro body: the running diagonal `dj`, the
alpha arrays and the gamma arrays being produced. -/
structure AGSt where
  dj : ℚ
  ac : Nat → ℚ
  gc : Nat → ℚ
  ad : Nat → ℚ
  gd : Nat → ℚ

/-- One `k`-iteration of the `ALPHA_GAMMA` macro: the update half
(polarity C) followed by the downdate half (polarity D), each multiplying
`dj` by the new alpha and dividing by the old one. -/
def agStep (c : Ctx) (zc zd : Nat → ℚ) (s : AGSt) (k : Nat) : AGSt :=
  let cv := zc k
  let alphaC := s.ac (acIdx c k)
  let aC := alphaC + cv * cv / s.dj
  let dj1 := s.dj * aC
  let ac2 := upd s.ac (acIdx c k) aC
  let gc2 := upd s.gc k (-cv / dj1)
  let dj2 := dj1 / alphaC
  let dv := zd k
  let alphaD := s.ad (acIdx c k)
  let aD := alphaD - dv * dv / dj2
  let dj3 := dj2 * aD
  let ad2 := upd s.ad (acIdx c k) aD
  let gd2 := upd s.gd k (dv / dj3)
  let dj4 := dj3 / alphaD
  ⟨dj4, ac2, gc2, ad2, gd2⟩

/-- The `k`-loop of `ALPHA_GAMMA`, for `k = 0 .. RANK-1`. -/
def alphaGammaCore (c : Ctx) (dj : ℚ) (zc zd ac ad : Nat → ℚ) : AGSt :=
  (List.range c.rank).foldl (agStep c zc zd) ⟨dj, ac, fun _ => 0, ad, fun _ => 0⟩

/-- Modelled from the spec: the clamp `CHOLMOD(dbound)` applied to the
recurrence result is not part of the sources under `src/`; the spec
states the write-back as `Dj = (dbound > 0) ? max (dj, dbound) : dj`. -/
def dboundSpec (db dj : ℚ) : ℚ := max dj db

/-- The complete `ALPHA_GAMMA (Lx[p], AlphaC, GC, ZC, AlphaD, GD, ZD)`
macro call: run the recurrence on `Lx p`, write the (possibly clamped)
result back into `Lx p`, commit the alpha arrays, return the two gamma
vectors. -/
def alphaGammaAt (c : Ctx) (p : Nat) (zc zd : Nat → ℚ) (st : UpState) :
    UpState × (Nat → ℚ) × (Nat → ℚ) :=
  let r := alphaGammaCore c (st.Lx p) zc zd st.AC st.AD
  let v := if 0 < c.db then dboundSpec c.db r.dj else r.dj
  ({ st with Lx := upd st.Lx p v, AC := r.ac, AD := r.ad }, r.gc, r.gd)

/-- Capture of row `j` of `WC` (the `ZC0 [k] = WC0 [k]` loop). -/
def zRowC (c : Ctx) (st : UpState) (j : Nat) : Nat → ℚ :=
  fun k => st.WC (wcIdx c j k)

/-- Capture of row `j` of `WD`. -/
def zRowD (c : Ctx) (st : UpState) (j : Nat) : Nat → ℚ :=
  fun k => st.WD (wcIdx c j k)

/-- The `WC0 [k] = 0 ; WD0 [k] = 0` loop clearing row `j` of both
workspaces, for `k = 0 .. RANK-1`. -/
def zeroWRow (c : Ctx) (j : Nat) (st : UpState) : UpState :=
  (List.range c.rank).foldl
    (fun s k =>
      { s with WC := upd s.WC (wcIdx c j k) 0, WD := upd s.WD (wcIdx c j k) 0 })
    st

/-- The `update L (j1,j)` chain: one L entry against the captured local
rows `ZC1`/`ZD1` of the fused column, which are modified in place. -/
def lchain1 (c : Ctx) (g0 : ZG) (lx : ℚ) (zc1 zd1 : Nat → ℚ) :
    ℚ × (Nat → ℚ) × (Nat → ℚ) :=
  (List.range c.rank).foldl
    (fun (s : ℚ × (Nat → ℚ) × (Nat → ℚ)) k =>
      let zc1 := upd s.2.1 k (s.2.1 k - g0.zc k * s.1)
      let lx := s.1 - g0.gc k * zc1 k
      let zd1 := upd s.2.2 k (s.2.2 k - g0.zd k * lx)
      let lx := lx - g0.gd k * zd1 k
      (lx, zc1, zd1))
    (lx, zc1, zd1)

/-- The `update L (j2,j)` and `update L (j2,j1)` chain of the quad case:
two L entries against the captured rows `ZC2`/`ZD2`. -/
def lchain2 (c : Ctx) (g0 g1 : ZG) (lx0 lx1 : ℚ) (zc2 zd2 : Nat → ℚ) :
    ℚ × ℚ × (Nat → ℚ) × (Nat → ℚ) :=
  (List.range c.rank).foldl
    (fun (s : ℚ × ℚ × (Nat → ℚ) × (Nat → ℚ)) k =>
      let zc2 := upd s.2.2.1 k (s.2.2.1 k - g0.zc k * s.1)
      let lx0 := s.1 - g0.gc k * zc2 k
      let zc2 := upd zc2 k (zc2 k - g1.zc k * s.2.1)
      let lx1 := s.2.1 - g1.gc k * zc2 k
      let zd2 := upd s.2.2.2 k (s.2.2.2 k - g0.zd k * lx0)
      let lx0 := lx0 - g0.gd k * zd2 k
      let zd2 := upd zd2 k (zd2 k - g1.zd k * lx1)
      let lx1 := lx1 - g1.gd k * zd2 k
      (lx0, lx1, zc2, zd2))
    (lx0, lx1, zc2, zd2)

/-- The `update L (j3,j)`, `L (j3,j1)`, `L (j3,j2)` chain of the quad
case: three L entries against the captured rows `ZC3`/`ZD3`. -/
def lchain3 (c : Ctx) (g0 g1 g2 : ZG) (lx0 lx1 lx2 : ℚ) (zc3 zd3 : Nat → ℚ) :
    ℚ × ℚ × ℚ × (Nat → ℚ) × (Nat → ℚ) :=
  (List.range c.rank).foldl
    (fun (s : ℚ × ℚ × ℚ × (Nat → ℚ) × (Nat → ℚ)) k =>
      let zc3 := upd s.2.2.2.1 k (s.2.2.2.1 k - g0.zc k * s.1)
      let lx0 := s.1 - g0.gc k * zc3 k
      let zc3 := upd zc3 k (zc3 k - g1.zc k * s.2.1)
      let lx1 := s.2.1 - g1.gc k * zc3 k
      let zc3 := upd zc3 k (zc3 k - g2.zc k * s.2.2.1)
      let lx2 := s.2.2.1 - g2.gc k * zc3 k
      let zd3 := upd s.2.2.2.2 k (s.2.2.2.2 k - g0.zd k * lx0)
      let lx0 := lx0 - g0.gd k * zd3 k
      let zd3 := upd zd3 k (zd3 k - g1.zd k * lx1)
      let lx1 := lx1 - g1.gd k * zd3 k
      let zd3 := upd zd3 k (zd3 k - g2.zd k * lx2)
      let lx2 := lx2 - g2.gd k * zd3 k
      (lx0, lx1, lx2, zc3, zd3))
    (lx0, lx1, lx2, zc3, zd3)

/-- Case 1 of the single-column cleanup switch: one off-diagonal row of
one column of L, the canonical per-row operation chain
`wc -= z*lx ; lx -= g*wc ; wd -= z*lx ; lx -= g*wd` for each `k`. -/
def case1Body (c : Ctx) (g0 : ZG) (p0 : Nat) (st : UpState) : UpState :=
  let i := st.Li p0
  let s :=
    (List.range c.rank).foldl
      (fun (s : ℚ × UpState) k =>
        let lx := s.1
        let st := s.2
        let st :=
          { st with WC := upd st.WC (wcIdx c i k) (st.WC (wcIdx c i k) - g0.zc k * lx) }
        let lx := lx - g0.gc k * st.WC (wcIdx c i k)
        let st :=
          { st with WD := upd st.WD (wcIdx c i k) (st.WD (wcIdx c i k) - g0.zd k * lx) }
        let lx := lx - g0.gd k * st.WD (wcIdx c i k)
        (lx, st))
      (st.Lx p0, st)
  { s.2 with Lx := upd s.2.Lx p0 s.1 }

/-- Case 2 of the single-column cleanup switch: two rows `Li p0`,
`Li (p0+1)` of column j, with the interleaved two-row order of the
source. -/
def case2Body (c : Ctx) (g0 : ZG) (p0 : Nat) (st : UpState) : UpState :=
  let i0 := st.Li p0
  let i1 := st.Li (p0 + 1)
  let s :=
    (List.range c.rank).foldl
      (fun (s : ℚ × ℚ × UpState) k =>
        let lx0 := s.1
        let lx1 := s.2.1
        let st := s.2.2
        let st :=
          { st with WC := upd st.WC (wcIdx c i0 k) (st.WC (wcIdx c i0 k) - g0.zc k * lx0) }
        let st :=
          { st with WC := upd st.WC (wcIdx c i1 k) (st.WC (wcIdx c i1 k) - g0.zc k * lx1) }
        let lx0 := lx0 - g0.gc k * st.WC (wcIdx c i0 k)
        let lx1 := lx1 - g0.gc k * st.WC (wcIdx c i1 k)
        let st :=
          { st with WD := upd st.WD (wcIdx c i0 k) (st.WD (wcIdx c i0 k) - g0.zd k * lx0) }
        let st :=
          { st with WD := upd st.WD (wcIdx c i1 k) (st.WD (wcIdx c i1 k) - g0.zd k * lx1) }
        let lx0 := lx0 - g0.gd k * st.WD (wcIdx c i0 k)
        let lx1 := lx1 - g0.gd k * st.WD (wcIdx c i1 k)
        (lx0, lx1, st))
      (st.Lx p0, st.Lx (p0 + 1), st)
  { s.2.2 with Lx := upd (upd s.2.2.Lx p0 s.1) (p0 + 1) s.2.1 }

/-- Case 3 of the single-column cleanup switch: three rows of column j. -/
def case3Body (c : Ctx) (g0 : ZG) (p0 : Nat) (st : UpState) : UpState :=
  let i0 := st.Li p0
  let i1 := st.Li (p0 + 1)
  let i2 := st.Li (p0 + 2)
  let s :=
    (List.range c.rank).foldl
      (fun (s : ℚ × ℚ × ℚ × UpState) k =>
        let lx0 := s.1
        let lx1 := s.2.1
        let lx2 := s.2.2.1
        let st := s.2.2.2
        let st :=
          { st with WC := upd st.WC (wcIdx c i0 k) (st.WC (wcIdx c i0 k) - g0.zc k * lx0) }
        let st :=
          { st with WC := upd st.WC (wcIdx c i1 k) (st.WC (wcIdx c i1 k) - g0.zc k * lx1) }
        let st :=
          { st with WC := upd st.WC (wcIdx c i2 k) (st.WC (wcIdx c i2 k) - g0.zc k * lx2) }
        let lx0 := lx0 - g0.gc k * st.WC (wcIdx c i0 k)
        let lx1 := lx1 - g0.gc k * st.WC (wcIdx c i1 k)
        let lx2 := lx2 - g0.gc k * st.WC (wcIdx c i2 k)
        let st :=
          { st with WD := upd st.WD (wcIdx c i0 k) (st.WD (wcIdx c i0 k) - g0.zd k * lx0) }
        let st :=
          { st with WD := upd st.WD (wcIdx c i1 k) (st.WD (wcIdx c i1 k) - g0.zd k * lx1) }
        let st :=
          { st with WD := upd st.WD (wcIdx c i2 k) (st.WD (wcIdx c i2 k) - g0.zd k * lx2) }
        let lx0 := lx0 - g0.gd k * st.WD (wcIdx c i0 k)
        let lx1 := lx1 - g0.gd k * st.WD (wcIdx c i1 k)
        let lx2 := lx2 - g0.gd k * st.WD (wcIdx c i2 k)
        (lx0, lx1, lx2, st))
      (st.Lx p0, st.Lx (p0 + 1), st.Lx (p0 + 2), st)
  { s.2.2.2 with
    Lx := upd (upd (upd s.2.2.2.Lx p0 s.1) (p0 + 1) s.2.1) (p0 + 2) s.2.2.1 }

/-- Body of the main single-column loop: four rows of column j per
iteration. -/
def case4Body (c : Ctx) (g0 : ZG) (p0 : Nat) (st : UpState) : UpState :=
  let i0 := st.Li p0
  let i1 := st.Li (p0 + 1)
  let i2 := st.Li (p0 + 2)
  let i3 := st.Li (p0 + 3)
  let s :=
    (List.range c.rank).foldl
      (fun (s : ℚ × ℚ × ℚ × ℚ × UpState) k =>
        let lx0 := s.1
        let lx1 := s.2.1
        let lx2 := s.2.2.1
        let lx3 := s.2.2.2.1
        let st := s.2.2.2.2
        let st :=
          { st with WC := upd st.WC (wcIdx c i0 k) (st.WC (wcIdx c i0 k) - g0.zc k * lx0) }
        let st :=
          { st with WC := upd st.WC (wcIdx c i1 k) (st.WC (wcIdx c i1 k) - g0.zc k * lx1) }
        let st :=
          { st with WC := upd st.WC (wcIdx c i2 k) (st.WC (wcIdx c i2 k) - g0.zc k * lx2) }
        let st :=
          { st with WC := upd st.WC (wcIdx c i3 k) (st.WC (wcIdx c i3 k) - g0.zc k * lx3) }
        let lx0 := lx0 - g0.gc k * st.WC (wcIdx c i0 k)
        let lx1 := lx1 - g0.gc k * st.WC (wcIdx c i1 k)
        let lx2 := lx2 - g0.gc k * st.WC (wcIdx c i2 k)
        let lx3 := lx3 - g0.gc k * st.WC (wcIdx c i3 k)
        let st :=
          { st with WD := upd st.WD (wcIdx c i0 k) (st.WD (wcIdx c i0 k) - g0.zd k * lx0) }
        let st :=
          { st with WD := upd st.WD (wcIdx c i1 k) (st.WD (wcIdx c i1 k) - g0.zd k * lx1) }
        let st :=
          { st with WD := upd st.WD (wcIdx c i2 k) (st.WD (wcIdx c i2 k) - g0.zd k * lx2) }
        let st :=
          { st with WD := upd st.WD (wcIdx c i3 k) (st.WD (wcIdx c i3 k) - g0.zd k * lx3) }
        let lx0 := lx0 - g0.gd k * st.WD (wcIdx c i0 k)
        let lx1 := lx1 - g0.gd k * st.WD (wcIdx c i1 k)
        let lx2 := lx2 - g0.gd k * st.WD (wcIdx c i2 k)
        let lx3 := lx3 - g0.gd k * st.WD (wcIdx c i3 k)
        (lx0, lx1, lx2, lx3, st))
      (st.Lx p0, st.Lx (p0 + 1), st.Lx (p0 + 2), st.Lx (p0 + 3), st)
  { s.2.2.2.2 with
    Lx := upd (upd (upd (upd s.2.2.2.2.Lx p0 s.1) (p0 + 1) s.2.1)
                (p0 + 2) s.2.2.1) (p0 + 3) s.2.2.2.1 }

/-- Main single-column loop: four rows per iteration until `pend`. -/
def singleLoop (c : Ctx) (g0 : ZG) (pend p0 : Nat) (st : UpState) : UpState :=
  if h : p0 < pend then singleLoop c g0 pend (p0 + 4) (case4Body c g0 p0 st) else st
termination_by pend - p0
decreasing_by omega

/-- The single-column codepath: cleanup switch on `(lnz - 1) % 4`
followed by the four-row main loop.  `p0` points at the first
off-diagonal entry, `pend` one past the column end. -/
def singleCase (c : Ctx) (g0 : ZG) (lnz pend p0 : Nat) (st : UpState) : UpState :=
  match (lnz - 1) % 4 with
  | 1 => singleLoop c g0 pend (p0 + 1) (case1Body c g0 p0 st)
  | 2 => singleLoop c g0 pend (p0 + 2) (case2Body c g0 p0 st)
  | 3 => singleLoop c g0 pend (p0 + 3) (case3Body c g0 p0 st)
  | _ => singleLoop c g0 pend p0 st

/-- Cleanup iteration of the dual codepath (odd length): one row
`Li p0` updated against both columns j (`g0`, at `p0`) and j1 (`g1`, at
`p1`). -/
def dualCleanupBody (c : Ctx) (g0 g1 : ZG) (p0 p1 : Nat) (st : UpState) : UpState :=
  let i0 := st.Li p0
  let s :=
    (List.range c.rank).foldl
      (fun (s : ℚ × ℚ × UpState) k =>
        let lx0 := s.1
        let lx1 := s.2.1
        let st := s.2.2
        let st :=
          { st with WC := upd st.WC (wcIdx c i0 k) (st.WC (wcIdx c i0 k) - g0.zc k * lx0) }
        let lx0 := lx0 - g0.gc k * st.WC (wcIdx c i0 k)
        let st :=
          { st with WC := upd st.WC (wcIdx c i0 k) (st.WC (wcIdx c i0 k) - g1.zc k * lx1) }
        let lx1 := lx1 - g1.gc k * st.WC (wcIdx c i0 k)
        let st :=
          { st with WD := upd st.WD (wcIdx c i0 k) (st.WD (wcIdx c i0 k) - g0.zd k * lx0) }
        let lx0 := lx0 - g0.gd k * st.WD (wcIdx c i0 k)
        let st :=
          { st with WD := upd st.WD (wcIdx c i0 k) (st.WD (wcIdx c i0 k) - g1.zd k * lx1) }
        let lx1 := lx1 - g1.gd k * st.WD (wcIdx c i0 k)
        (lx0, lx1, st))
      (st.Lx p0, st.Lx p1, st)
  { s.2.2 with Lx := upd (upd s.2.2.Lx p0 s.1) p1 s.2.1 }

/-- Body of the main dual loop: two rows of the two columns j and j1 per
iteration, with the register temporaries `wc [2]` / `wd [2]` of the
source (the W cell is only stored once per `k`, after the second
modification). -/
def dual2Body (c : Ctx) (g0 g1 : ZG) (p0 p1 : Nat) (st : UpState) : UpState :=
  let i0 := st.Li p0
  let i1 := st.Li (p0 + 1)
  let s :=
    (List.range c.rank).foldl
      (fun (s : ℚ × ℚ × ℚ × ℚ × UpState) k =>
        let lx00 := s.1
        let lx10 := s.2.1
        let lx01 := s.2.2.1
        let lx11 := s.2.2.2.1
        let st := s.2.2.2.2
        let w0 := st.WC (wcIdx c i0 k) - g0.zc k * lx00
        let w1 := st.WC (wcIdx c i1 k) - g0.zc k * lx10
        let lx00 := lx00 - g0.gc k * w0
        let lx10 := lx10 - g0.gc k * w1
        let w0 := w0 - g1.zc k * lx01
        let w1 := w1 - g1.zc k * lx11
        let st := { st with WC := upd (upd st.WC (wcIdx c i0 k) w0) (wcIdx c i1 k) w1 }
        let lx01 := lx01 - g1.gc k * w0
        let lx11 := lx11 - g1.gc k * w1
        let v0 := st.WD (wcIdx c i0 k) - g0.zd k * lx00
        let v1 := st.WD (wcIdx c i1 k) - g0.zd k * lx10
        let lx00 := lx00 - g0.gd k * v0
        let lx10 := lx10 - g0.gd k * v1
        let v0 := v0 - g1.zd k * lx01
        let v1 := v1 - g1.zd k * lx11
        let st := { st with WD := upd (upd st.WD (wcIdx c i0 k) v0) (wcIdx c i1 k) v1 }
        let lx01 := lx01 - g1.gd k * v0
        let lx11 := lx11 - g1.gd k * v1
        (lx00, lx10, lx01, lx11, st))
      (st.Lx p0, st.Lx (p0 + 1), st.Lx p1, st.Lx (p1 + 1), st)
  { s.2.2.2.2 with
    Lx := upd (upd (upd (upd s.2.2.2.2.Lx p0 s.1) (p0 + 1) s.2.1)
                p1 s.2.2.1) (p1 + 1) s.2.2.2.1 }

/-- Main dual loop: two rows of both columns per iteration. -/
def dualLoop (c : Ctx) (g0 g1 : ZG) (pend p0 p1 : Nat) (st : UpState) : UpState :=
  if h : p0 < pend then
    dualLoop c g0 g1 pend (p0 + 2) (p1 + 2) (dual2Body c g0 g1 p0 p1 st)
  else st
termination_by pend - p0
decreasing_by omega

/-- The tail of the dual codepath after `D (j1,j1)` has been updated:
optional odd-length cleanup, then the main dual loop. -/
def dualCase (c : Ctx) (g0 g1 : ZG) (lnz pend p0 p1 : Nat) (st : UpState) : UpState :=
  if (lnz - 2) % 2 = 1 then
    dualLoop c g0 g1 pend (p0 + 1) (p1 + 1) (dualCleanupBody c g0 g1 p0 p1 st)
  else
    dualLoop c g0 g1 pend p0 p1 st

/-- Body of the main quad loop: one row of all four columns j, j1, j2,
j3 per iteration (the CHOLMOD v1.2.0 layout of the source). -/
def quadMainBody (c : Ctx) (g0 g1 g2 g3 : ZG) (p0 p1 p2 p3 : Nat)
    (st : UpState) : UpState :=
  let i := st.Li p0
  let s :=
    (List.range c.rank).foldl
      (fun (s : ℚ × ℚ × ℚ × ℚ × UpState) k =>
        let lx0 := s.1
        let lx1 := s.2.1
        let lx2 := s.2.2.1
        let lx3 := s.2.2.2.1
        let st := s.2.2.2.2
        let st :=
          { st with WC := upd st.WC (wcIdx c i k) (st.WC (wcIdx c i k) - g0.zc k * lx0) }
        let lx0 := lx0 - g0.gc k * st.WC (wcIdx c i k)
        let st :=
          { st with WC := upd st.WC (wcIdx c i k) (st.WC (wcIdx c i k) - g1.zc k * lx1) }
        let lx1 := lx1 - g1.gc k * st.WC (wcIdx c i k)
        let st :=
          { st with WC := upd st.WC (wcIdx c i k) (st.WC (wcIdx c i k) - g2.zc k * lx2) }
        let lx2 := lx2 - g2.gc k * st.WC (wcIdx c i k)
        let st :=
          { st with WC := upd st.WC (wcIdx c i k) (st.WC (wcIdx c i k) - g3.zc k * lx3) }
        let lx3 := lx3 - g3.gc k * st.WC (wcIdx c i k)
        let st :=
          { st with WD := upd st.WD (wcIdx c i k) (st.WD (wcIdx c i k) - g0.zd k * lx0) }
        let lx0 := lx0 - g0.gd k * st.WD (wcIdx c i k)
        let st :=
          { st with WD := upd st.WD (wcIdx c i k) (st.WD (wcIdx c i k) - g1.zd k * lx1) }
        let lx1 := lx1 - g1.gd k * st.WD (wcIdx c i k)
        let st :=
          { st with WD := upd st.WD (wcIdx c i k) (st.WD (wcIdx c i k) - g2.zd k * lx2) }
        let lx2 := lx2 - g2.gd k * st.WD (wcIdx c i k)
        let st :=
          { st with WD := upd st.WD (wcIdx c i k) (st.WD (wcIdx c i k) - g3.zd k * lx3) }
        let lx3 := lx3 - g3.gd k * st.WD (wcIdx c i k)
        (lx0, lx1, lx2, lx3, st))
      (st.Lx p0, st.Lx p1, st.Lx p2, st.Lx p3, st)
  { s.2.2.2.2 with
    Lx := upd (upd (upd (upd s.2.2.2.2.Lx p0 s.1) p1 s.2.1)
                p2 s.2.2.1) p3 s.2.2.2.1 }

/-- Main quad loop: the four column pointers advance in lockstep. -/
def quadLoop (c : Ctx) (g0 g1 g2 g3 : ZG) (pend p0 p1 p2 p3 : Nat)
    (st : UpState) : UpState :=
  if h : p0 < pend then
    quadLoop c g0 g1 g2 g3 pend (p0 + 1) (p1 + 1) (p2 + 1) (p3 + 1)
      (quadMainBody c g0 g1 g2 g3 p0 p1 p2 p3 st)
  else st
termination_by pend - p0
decreasing_by omega

/-- The codepath classification of the source: dual when the parent j1
is in the path with `Lnz [j1] == lnz - 1`, quad when additionally j2 and
j3 are in the path with matching counts, single otherwise. -/
inductive Kind where
  | single : Kind
  | dual : Kind
  | quad : Kind
deriving DecidableEq

/-- Which codepath the kernel takes at column `j` of the path ending at
`e`, mirroring the tests of the source (the `Int_max` sentinel is
modelled as `e + 1`). -/
def stepKind (Lp Li Lnz : Nat → Nat) (e j : Nat) : Kind :=
  let p0 := Lp j + 1
  let lnz := Lnz j
  let parent := if lnz > 1 then Li p0 else e + 1
  if parent ≤ e ∧ lnz = Lnz parent + 1 then
    let j2 := if lnz > 2 then Li (p0 + 1) else e + 1
    let j3 := if lnz > 3 then Li (p0 + 2) else e + 1
    if j2 ≤ e ∧ j3 ≤ e ∧ lnz = Lnz j2 + 2 ∧ lnz = Lnz j3 + 3 then Kind.quad
    else Kind.dual
  else Kind.single

/-- The column the walk moves to after processing column `j`: the plain
parent for a single step, `j2` after a dual step, the fourth
off-diagonal row after a quad step; `e + 1` models `Int_max`. -/
def nextCol (Lp Li Lnz : Nat → Nat) (e j : Nat) : Nat :=
  let p0 := Lp j + 1
  let lnz := Lnz j
  match stepKind Lp Li Lnz e j with
  | Kind.single => if lnz > 1 then Li p0 else e + 1
  | Kind.dual => if lnz > 2 then Li (p0 + 1) else e + 1
  | Kind.quad => if lnz > 4 then Li (p0 + 3) else e + 1

/-- One full iteration of the kernel's walk loop at column `j`: capture
and clear the W row of j, update `D (j,j)`, then the single, dual or
quad sweep. -/
def columnStep (c : Ctx) (e j : Nat) (st : UpState) : UpState :=
  let p0 := st.Lp j
  let lnz := st.Lnz j
  let pend := p0 + lnz
  let zc0 := zRowC c st j
  let zd0 := zRowD c st j
  let st := zeroWRow c j st
  let ag0 := alphaGammaAt c p0 zc0 zd0 st
  let st := ag0.1
  let g0 : ZG := ⟨zc0, ag0.2.1, zd0, ag0.2.2⟩
  let p0 := p0 + 1
  let parent := if lnz > 1 then st.Li p0 else e + 1
  if parent ≤ e ∧ lnz = st.Lnz parent + 1 then
    let j1 := parent
    let j2 := if lnz > 2 then st.Li (p0 + 1) else e + 1
    let j3 := if lnz > 3 then st.Li (p0 + 2) else e + 1
    let p1 := st.Lp j1
    let zc1 := zRowC c st j1
    let zd1 := zRowD c st j1
    let st := zeroWRow c j1 st
    let r1 := lchain1 c g0 (st.Lx p0) zc1 zd1
    let st := { st with Lx := upd st.Lx p0 r1.1 }
    let p0 := p0 + 1
    let ag1 := alphaGammaAt c p1 r1.2.1 r1.2.2 st
    let st := ag1.1
    let g1 : ZG := ⟨r1.2.1, ag1.2.1, r1.2.2, ag1.2.2⟩
    let p1 := p1 + 1
    if j2 ≤ e ∧ j3 ≤ e ∧ lnz = st.Lnz j2 + 2 ∧ lnz = st.Lnz j3 + 3 then
      let p2 := st.Lp j2
      let p3 := st.Lp j3
      let zc2 := zRowC c st j2
      let zd2 := zRowD c st j2
      let zc3 := zRowC c st j3
      let zd3 := zRowD c st j3
      let st := zeroWRow c j2 st
      let st := zeroWRow c j3 st
      let r2 := lchain2 c g0 g1 (st.Lx p0) (st.Lx p1) zc2 zd2
      let st := { st with Lx := upd (upd st.Lx p0 r2.1) p1 r2.2.1 }
      let p0 := p0 + 1
      let p1 := p1 + 1
      let ag2 := alphaGammaAt c p2 r2.2.2.1 r2.2.2.2 st
      let st := ag2.1
      let g2 : ZG := ⟨r2.2.2.1, ag2.2.1, r2.2.2.2, ag2.2.2⟩
      let p2 := p2 + 1
      let r3 := lchain3 c g0 g1 g2 (st.Lx p0) (st.Lx p1) (st.Lx p2) zc3 zd3
      let st := { st with Lx := upd (upd (upd st.Lx p0 r3.1) p1 r3.2.1) p2 r3.2.2.1 }
      let p0 := p0 + 1
      let p1 := p1 + 1
      let p2 := p2 + 1
      let ag3 := alphaGammaAt c p3 r3.2.2.2.1 r3.2.2.2.2 st
      let st := ag3.1
      let g3 : ZG := ⟨r3.2.2.2.1, ag3.2.1, r3.2.2.2.2, ag3.2.2⟩
      let p3 := p3 + 1
      quadLoop c g0 g1 g2 g3 pend p0 p1 p2 p3 st
    else
      dualCase c g0 g1 lnz pend p0 p1 st
  else
    singleCase c g0 lnz pend p0 st

/-- The kernel's walk up the etree, from column `j` while `j <= e`.  The
fuel argument makes the walk total on arbitrary inputs; on well-formed
factors `e + 1 - j` units suffice (each step moves strictly upward). -/
def kernelLoop (c : Ctx) (e : Nat) : Nat → Nat → UpState → UpState
  | 0, _, st => st
  | fuel + 1, j, st =>
    if j ≤ e then
      kernelLoop c e fuel (nextCol st.Lp st.Li st.Lnz e j) (columnStep c e j st)
    else st

/-- The kernel `NUMERIC (WDIM, RANK) (j, e, AlphaC+wfirst, AlphaD+wfirst,
WC+wfirst, WD+wfirst, L, Common)` of `t_cholmod_updown2_numkr.c`. -/
def numkr (c : Ctx) (j e : Nat) (st : UpState) : UpState :=
  kernelLoop c e (e + 1 - j) j st

/-- The sequence of path columns the kernel visits (heads of dual and
quad steps included, fused columns not listed separately), with the
given fuel. -/
def visitChain (Lp Li Lnz : Nat → Nat) (e : Nat) : Nat → Nat → List Nat
  | 0, _ => []
  | fuel + 1, j =>
    if j ≤ e then j :: visitChain Lp Li Lnz e fuel (nextCol Lp Li Lnz e j)
    else []

/-- One row of the SIMPLE reference loop: the per-row chain with live
reads of W row j (`wc (i,k) -= wc (j,k) * Lxp` and so on). -/
def simpleRowBody (c : Ctx) (j : Nat) (gc gd : Nat → ℚ) (p : Nat)
    (st : UpState) : UpState :=
  let i := st.Li p
  let s :=
    (List.range c.rank).foldl
      (fun (s : ℚ × UpState) k =>
        let lx := s.1
        let st := s.2
        let st :=
          { st with
            WC := upd st.WC (wcIdx c i k)
              (st.WC (wcIdx c i k) - st.WC (wcIdx c j k) * lx) }
        let lx := lx - gc k * st.WC (wcIdx c i k)
        let st :=
          { st with
            WD := upd st.WD (wcIdx c i k)
              (st.WD (wcIdx c i k) - st.WD (wcIdx c j k) * lx) }
        let lx := lx - gd k * st.WD (wcIdx c i k)
        (lx, st))
      (st.Lx p, st)
  { s.2 with Lx := upd s.2.Lx p s.1 }

/-- The per-row loop of the SIMPLE variant over the off-diagonal entries
of column j. -/
def simpleRowLoop (c : Ctx) (j : Nat) (gc gd : Nat → ℚ) (pend p : Nat)
    (st : UpState) : UpState :=
  if h : p < pend then
    simpleRowLoop c j gc gd pend (p + 1) (simpleRowBody c j gc gd p st)
  else st
termination_by pend - p
decreasing_by omega

/-- One column of the SIMPLE reference variant: `ALPHA_GAMMA` on the live
W row of j (the macro only reads it), the per-row loop, then the
workspace clearing loop. -/
def simpleColumnStep (c : Ctx) (j : Nat) (st : UpState) : UpState :=
  let p0 := st.Lp j
  let lnz := st.Lnz j
  let ag := alphaGammaAt c p0 (zRowC c st j) (zRowD c st j) st
  let st2 := simpleRowLoop c j ag.2.1 ag.2.2 (p0 + lnz) (p0 + 1) ag.1
  zeroWRow c j st2

/-- A sparse matrix in CHOLMOD column-compressed form: `p` the column
pointers, `i` the row indices, `x` the values, `nz` the per-column
counts (used only when unpacked). -/
structure SpMat where
  p : Nat → Nat
  i : Nat → Nat
  x : Nat → ℚ
  nz : Nat → Nat
  packed : Bool

/-- A path descriptor `{start, end, wfirst, rank, ccol}` (`end` is named
`last` here). -/
structure PathT where
  start : Nat
  last : Nat
  wfirst : Nat
  rank : Nat
  ccol : Nat

/-- The scatter guard `mask == NULL || mask [i] < maskmark`. -/
def maskPass (mask : Option (Nat → ℤ)) (maskmark : ℤ) (i : Nat) : Bool :=
  match mask with
  | none => true
  | some m => decide (m i < maskmark)

/-- One past the last position of column `ccol` of a sparse matrix:
`Cp [ccol+1]` when packed, `Cp [ccol] + Cnz [ccol]` when unpacked. -/
def colEnd (Cm : SpMat) (ccol : Nat) : Nat :=
  if Cm.packed then Cm.p (ccol + 1) else Cm.p ccol + Cm.nz ccol

/-- The inner scatter loop over the entries of column `ccol` of C: write
`Cx [p]` and `Dx [p]` into column `path` of WC and WD for every
non-suppressed row. -/
def scatterColLoop (wdim : Nat) (Cm Dm : SpMat) (path : Nat)
    (mask : Option (Nat → ℤ)) (maskmark : ℤ) (pend p : Nat)
    (st : UpState) : UpState :=
  if h : p < pend then
    let i := Cm.i p
    let st :=
      if maskPass mask maskmark i then
        { st with
          WC := upd st.WC (wdim * i + path) (Cm.x p),
          WD := upd st.WD (wdim * i + path) (Dm.x p) }
      else st
    scatterColLoop wdim Cm Dm path mask maskmark pend (p + 1) st
  else st
termination_by pend - p
decreasing_by omega

/-- Scatter for one leaf path descriptor: the entries of column
`Path [path].ccol` of C (and D), then `AlphaC [path] = AlphaD [path] =
1`. -/
def scatterPath (wdim : Nat) (Cm Dm : SpMat) (Paths : Nat → PathT)
    (mask : Option (Nat → ℤ)) (maskmark : ℤ) (path : Nat) (st : UpState) :
    UpState :=
  let ccol := (Paths path).ccol
  let q := Cm.p ccol
  let qend := colEnd Cm ccol
  let st := scatterColLoop wdim Cm Dm path mask maskmark qend q st
  { st with AC := upd st.AC path 1, AD := upd st.AD path 1 }

/-- The scatter stage of `NUMERIC (WDIM, r)`: one pass per leaf path
descriptor `path` in `[0, rank)`. -/
def scatterStage (wdim : Nat) (Cm Dm : SpMat) (Paths : Nat → PathT)
    (rank : Nat) (mask : Option (Nat → ℤ)) (maskmark : ℤ) (st : UpState) :
    UpState :=
  (List.range rank).foldl
    (fun st path => scatterPath wdim Cm Dm Paths mask maskmark path st) st

/-- Dispatch of one interior path descriptor: for `WDIM == 1` the single
kernel is called unconditionally; otherwise the switch on
`Path [path].rank` selects the specialization `NUMERIC (WDIM, k)` for
`k` in `1 .. WDIM` (other values fall through the switch and do
nothing). -/
def dispatchPath (wdim : Nat) (db : ℚ) (P : PathT) (st : UpState) : UpState :=
  if wdim = 1 then numkr ⟨wdim, 1, P.wfirst, db⟩ P.start P.last st
  else if 1 ≤ P.rank ∧ P.rank ≤ wdim then
    numkr ⟨wdim, P.rank, P.wfirst, db⟩ P.start P.last st
  else st

/-- The driver `NUMERIC (WDIM, r)` of `t_cholmod_updown2.c`: scatter C
and D into the workspaces, then process each interior path descriptor
`path` in `[rank, npaths)` in order. -/
def updown2r (wdim : Nat) (Cm Dm : SpMat) (rank : Nat)
    (Paths : Nat → PathT) (npaths : Nat) (mask : Option (Nat → ℤ))
    (maskmark : ℤ) (db : ℚ) (st : UpState) : UpState :=
  let st := scatterStage wdim Cm Dm Paths rank mask maskmark st
  (List.range' rank (npaths - rank)).foldl
    (fun st path => dispatchPath wdim db (Paths path) st) st


/-! ### Derived definitions used by the verification -/

/-- A projection of the state that is insensitive to the five value
fields `Lx`, `WC`, `WD`, `AC`, `AD` the call may write; the pattern
projections `Lp`, `Li`, `Lnz` are the motivating instances. -/
def PatProj {β : Type} (g : UpState → β) : Prop :=
  ∀ (st : UpState) (lx wc wd : Nat → ℚ) (ac ad : Nat → ℚ),
    g { st with Lx := lx, WC := wc, WD := wd, AC := ac, AD := ad } = g st

/-- A projection insensitive to the fields `Lx`, `WC`, `WD` written by
the sweep bodies (the alpha vectors are untouched there). -/
def SweepProj {β : Type} (g : UpState → β) : Prop :=
  ∀ (st : UpState) (lx wc wd : Nat → ℚ),
    g { st with Lx := lx, WC := wc, WD := wd } = g st

/-- One `k`-step of the alpha/gamma recurrence exactly as the
specification words it, on scalars: the update half (`aC`, multiply
`dj`, record gamma, divide by the previous alpha) followed by the
downdate half.  Returns `(dj, aC, GammaC k, aD, GammaD k)`. -/
def agSpecK (alC zC alD zD dj : ℚ) : ℚ × ℚ × ℚ × ℚ × ℚ :=
  let aC := alC + zC * zC / dj
  let dj1 := dj * aC
  let gC := -zC / dj1
  let dj2 := dj1 / alC
  let aD := alD - zD * zD / dj2
  let dj3 := dj2 * aD
  let gD := zD / dj3
  let dj4 := dj3 / alD
  (dj4, aC, gC, aD, gD)

/-- The value of `dj` after the first `n` steps (`k = 0 .. n-1`, in
increasing order) of the recurrence as the specification states it. -/
def agSpecDj (zc zd alC alD : Nat → ℚ) : Nat → ℚ → ℚ
  | 0, dj => dj
  | n + 1, dj => (agSpecK (alC n) (zc n) (alD n) (zd n)
      (agSpecDj zc zd alC alD n dj)).1

/-- The full scalar tuple produced by step `k` of the recurrence as the
specification states it, starting from `dj0`. -/
def agSpecAt (zc zd alC alD : Nat → ℚ) (dj0 : ℚ) (k : Nat) : ℚ × ℚ × ℚ × ℚ × ℚ :=
  agSpecK (alC k) (zc k) (alD k) (zd k) (agSpecDj zc zd alC alD k dj0)

/-- The first `n` iterations of the `ALPHA_GAMMA` k-loop of the source,
from arbitrary initial alpha and gamma arrays. -/
def agCoreN (c : Ctx) (zc zd : Nat → ℚ) (dj0 : ℚ) (ac0 gc0 ad0 gd0 : Nat → ℚ)
    (n : Nat) : AGSt :=
  (List.range n).foldl (agStep c zc zd) ⟨dj0, ac0, gc0, ad0, gd0⟩

/-- A concrete packed 5-by-2 update matrix C: column 0 holds rows 0 and
2, column 1 holds row 1. -/
def exC : SpMat :=
  ⟨fun c => [0, 2, 3].getD c 3, fun p => [0, 2, 1].getD p 9,
   fun p => [5, 7, 11].getD p 0, fun _ => 0, true⟩

/-- A concrete D matrix with the same pattern as `exC`. -/
def exD : SpMat :=
  ⟨fun c => [0, 2, 3].getD c 3, fun p => [0, 2, 1].getD p 9,
   fun p => [13, 17, 19].getD p 0, fun _ => 0, true⟩

/-- The same values as `exD` under a scrambled pattern (the scatter
stage must not care). -/
def exD2 : SpMat :=
  ⟨fun _ => 0, fun _ => 0, fun p => [13, 17, 19].getD p 0, fun _ => 7, false⟩

/-- Leaf path descriptors for the two columns of `exC`. -/
def exPaths : Nat → PathT :=
  fun t => if t = 0 then ⟨0, 4, 0, 1, 0⟩ else ⟨0, 4, 1, 1, 1⟩

/-- A mask suppressing row 2 under maskmark 3. -/
def exMask : Option (Nat → ℤ) := some (fun i => if i = 2 then 5 else 0)

/-- Modelled from the spec: the non-positive-pivot event of one walk
step.  The sources under `src/` contain only `void` kernels; the spec
states the core reports a non-zero indicator when any `D (j,j)` became
non-positive during the update.  A step flags when a diagonal value
stored by this step (the head column and any fused columns) is
non-positive. -/
def stepFlag (c : Ctx) (e j : Nat) (st : UpState) : Bool :=
  let st2 := columnStep c e j st
  let diag : Nat → Bool := fun t => decide (st2.Lx (st.Lp t) ≤ 0)
  match stepKind st.Lp st.Li st.Lnz e j with
  | Kind.single => diag j
  | Kind.dual => diag j || diag (st.Li (st.Lp j + 1))
  | Kind.quad =>
      diag j || diag (st.Li (st.Lp j + 1)) || diag (st.Li (st.Lp j + 2)) ||
        diag (st.Li (st.Lp j + 3))

/-- Modelled from the spec: whether some step of the walk over the given
column list raises the non-positive-pivot event, threading the sweep
state. -/
def flagsAny (c : Ctx) (e : Nat) : List Nat → UpState → Bool
  | [], _ => false
  | x :: xs, st => stepFlag c e x st || flagsAny c e xs (columnStep c e x st)

/-- Modelled from the spec: one step of the instrumented walk, carrying
the exit indicator alongside the sweep state. -/
def statusStep (c : Ctx) (e : Nat) (s : UpState × Bool) (j : Nat) : UpState × Bool :=
  (columnStep c e j s.1, s.2 || stepFlag c e j s.1)

/-- Modelled from the spec: the kernel run together with its exit
indicator (`false` models the zero return of a successful call). -/
def numkrStatus (c : Ctx) (j e : Nat) (st : UpState) : UpState × Bool :=
  (visitChain st.Lp st.Li st.Lnz e (e + 1 - j) j).foldl (statusStep c e) (st, false)

/-- The canonical per-row, per-k memory operation of the off-diagonal
sweep: `wc -= z*lx ; lx -= g*wc ; wd -= z*lx ; lx -= g*wd` at row `i`
(`= Li p`) and column `k` of W, with `lx` kept in `Lx p`. -/
def rowK (c : Ctx) (g0 : ZG) (i p k : Nat) (st : UpState) : UpState :=
  let A := wcIdx c i k
  let wc := st.WC A - g0.zc k * st.Lx p
  let lx1 := st.Lx p - g0.gc k * wc
  let wd := st.WD A - g0.zd k * lx1
  let lx2 := lx1 - g0.gd k * wd
  { st with WC := upd st.WC A wc, WD := upd st.WD A wd, Lx := upd st.Lx p lx2 }

/-- The canonical per-row operation: the full k-loop of `rowK`. -/
def rowOp (c : Ctx) (g0 : ZG) (i p : Nat) (st : UpState) : UpState :=
  (List.range c.rank).foldl (fun s k => rowK c g0 i p k s) st

/-- The reference off-diagonal sweep: one `rowOp` per position `p`, at
row `Li p`. -/
def rowSweep (c : Ctx) (g0 : ZG) (Li : Nat → Nat) (ps : List Nat) (st : UpState) :
    UpState :=
  ps.foldl (fun s p => rowOp c g0 (Li p) p s) st


/-- Register embedding of the one-row cleanup body: the `Lx [p0]`
register written back. -/
def emb1 (p0 : Nat) (s : ℚ × UpState) : UpState :=
  { s.2 with Lx := upd s.2.Lx p0 s.1 }

/-- Register embedding of the two-row cleanup body. -/
def emb2 (p0 : Nat) (s : ℚ × ℚ × UpState) : UpState :=
  { s.2.2 with Lx := upd (upd s.2.2.Lx p0 s.1) (p0 + 1) s.2.1 }

/-- Register embedding of the three-row cleanup body. -/
def emb3 (p0 : Nat) (s : ℚ × ℚ × ℚ × UpState) : UpState :=
  { s.2.2.2 with
    Lx := upd (upd (upd s.2.2.2.Lx p0 s.1) (p0 + 1) s.2.1) (p0 + 2) s.2.2.1 }

/-- Register embedding of the four-row main-loop body. -/
def emb4 (p0 : Nat) (s : ℚ × ℚ × ℚ × ℚ × UpState) : UpState :=
  { s.2.2.2.2 with
    Lx := upd (upd (upd (upd s.2.2.2.2.Lx p0 s.1) (p0 + 1) s.2.1)
                (p0 + 2) s.2.2.1) (p0 + 3) s.2.2.2.1 }

/-- The k-step of `case1Body`, with the row index a parameter. -/
def case1F (c : Ctx) (g0 : ZG) (i : Nat) (s : ℚ × UpState) (k : Nat) :
    ℚ × UpState :=
  let lx := s.1
  let t := s.2
  let t :=
    { t with WC := upd t.WC (wcIdx c i k) (t.WC (wcIdx c i k) - g0.zc k * lx) }
  let lx := lx - g0.gc k * t.WC (wcIdx c i k)
  let t :=
    { t with WD := upd t.WD (wcIdx c i k) (t.WD (wcIdx c i k) - g0.zd k * lx) }
  let lx := lx - g0.gd k * t.WD (wcIdx c i k)
  (lx, t)

/-- The k-step of `case2Body`, with the row indices parameters. -/
def case2F (c : Ctx) (g0 : ZG) (i0 i1 : Nat) (s : ℚ × ℚ × UpState) (k : Nat) :
    ℚ × ℚ × UpState :=
  let lx0 := s.1
  let lx1 := s.2.1
  let t := s.2.2
  let t :=
    { t with WC := upd t.WC (wcIdx c i0 k) (t.WC (wcIdx c i0 k) - g0.zc k * lx0) }
  let t :=
    { t with WC := upd t.WC (wcIdx c i1 k) (t.WC (wcIdx c i1 k) - g0.zc k * lx1) }
  let lx0 := lx0 - g0.gc k * t.WC (wcIdx c i0 k)
  let lx1 := lx1 - g0.gc k * t.WC (wcIdx c i1 k)
  let t :=
    { t with WD := upd t.WD (wcIdx c i0 k) (t.WD (wcIdx c i0 k) - g0.zd k * lx0) }
  let t :=
    { t with WD := upd t.WD (wcIdx c i1 k) (t.WD (wcIdx c i1 k) - g0.zd k * lx1) }
  let lx0 := lx0 - g0.gd k * t.WD (wcIdx c i0 k)
  let lx1 := lx1 - g0.gd k * t.WD (wcIdx c i1 k)
  (lx0, lx1, t)

/-- The k-step of `case3Body`, with the row indices parameters. -/
def case3F (c : Ctx) (g0 : ZG) (i0 i1 i2 : Nat) (s : ℚ × ℚ × ℚ × UpState)
    (k : Nat) : ℚ × ℚ × ℚ × UpState :=
  let lx0 := s.1
  let lx1 := s.2.1
  let lx2 := s.2.2.1
  let t := s.2.2.2
  let t :=
    { t with WC := upd t.WC (wcIdx c i0 k) (t.WC (wcIdx c i0 k) - g0.zc k * lx0) }
  let t :=
    { t with WC := upd t.WC (wcIdx c i1 k) (t.WC (wcIdx c i1 k) - g0.zc k * lx1) }
  let t :=
    { t with WC := upd t.WC (wcIdx c i2 k) (t.WC (wcIdx c i2 k) - g0.zc k * lx2) }
  let lx0 := lx0 - g0.gc k * t.WC (wcIdx c i0 k)
  let lx1 := lx1 - g0.gc k * t.WC (wcIdx c i1 k)
  let lx2 := lx2 - g0.gc k * t.WC (wcIdx c i2 k)
  let t :=
    { t with WD := upd t.WD (wcIdx c i0 k) (t.WD (wcIdx c i0 k) - g0.zd k * lx0) }
  let t :=
    { t with WD := upd t.WD (wcIdx c i1 k) (t.WD (wcIdx c i1 k) - g0.zd k * lx1) }
  let t :=
    { t with WD := upd t.WD (wcIdx c i2 k) (t.WD (wcIdx c i2 k) - g0.zd k * lx2) }
  let lx0 := lx0 - g0.gd k * t.WD (wcIdx c i0 k)
  let lx1 := lx1 - g0.gd k * t.WD (wcIdx c i1 k)
  let lx2 := lx2 - g0.gd k * t.WD (wcIdx c i2 k)
  (lx0, lx1, lx2, t)

/-- The k-step of `case4Body`, with the row indices parameters. -/
def case4F (c : Ctx) (g0 : ZG) (i0 i1 i2 i3 : Nat)
    (s : ℚ × ℚ × ℚ × ℚ × UpState) (k : Nat) : ℚ × ℚ × ℚ × ℚ × UpState :=
  let lx0 := s.1
  let lx1 := s.2.1
  let lx2 := s.2.2.1
  let lx3 := s.2.2.2.1
  let t := s.2.2.2.2
  let t :=
    { t with WC := upd t.WC (wcIdx c i0 k) (t.WC (wcIdx c i0 k) - g0.zc k * lx0) }
  let t :=
    { t with WC := upd t.WC (wcIdx c i1 k) (t.WC (wcIdx c i1 k) - g0.zc k * lx1) }
  let t :=
    { t with WC := upd t.WC (wcIdx c i2 k) (t.WC (wcIdx c i2 k) - g0.zc k * lx2) }
  let t :=
    { t with WC := upd t.WC (wcIdx c i3 k) (t.WC (wcIdx c i3 k) - g0.zc k * lx3) }
  let lx0 := lx0 - g0.gc k * t.WC (wcIdx c i0 k)
  let lx1 := lx1 - g0.gc k * t.WC (wcIdx c i1 k)
  let lx2 := lx2 - g0.gc k * t.WC (wcIdx c i2 k)
  let lx3 := lx3 - g0.gc k * t.WC (wcIdx c i3 k)
  let t :=
    { t with WD := upd t.WD (wcIdx c i0 k) (t.WD (wcIdx c i0 k) - g0.zd k * lx0) }
  let t :=
    { t with WD := upd t.WD (wcIdx c i1 k) (t.WD (wcIdx c i1 k) - g0.zd k * lx1) }
  let t :=
    { t with WD := upd t.WD (wcIdx c i2 k) (t.WD (wcIdx c i2 k) - g0.zd k * lx2) }
  let t :=
    { t with WD := upd t.WD (wcIdx c i3 k) (t.WD (wcIdx c i3 k) - g0.zd k * lx3) }
  let lx0 := lx0 - g0.gd k * t.WD (wcIdx c i0 k)
  let lx1 := lx1 - g0.gd k * t.WD (wcIdx c i1 k)
  let lx2 := lx2 - g0.gd k * t.WD (wcIdx c i2 k)
  let lx3 := lx3 - g0.gd k * t.WD (wcIdx c i3 k)
  (lx0, lx1, lx2, lx3, t)


/-- The k-step of `simpleRowBody`, with the row index a parameter: the
SIMPLE per-row chain with live reads of W row `j`. -/
def simpleF (c : Ctx) (i j : Nat) (gc gd : Nat → ℚ) (s : ℚ × UpState)
    (k : Nat) : ℚ × UpState :=
  let lx := s.1
  let t := s.2
  let t :=
    { t with
      WC := upd t.WC (wcIdx c i k)
        (t.WC (wcIdx c i k) - t.WC (wcIdx c j k) * lx) }
  let lx := lx - gc k * t.WC (wcIdx c i k)
  let t :=
    { t with
      WD := upd t.WD (wcIdx c i k)
        (t.WD (wcIdx c i k) - t.WD (wcIdx c j k) * lx) }
  let lx := lx - gd k * t.WD (wcIdx c i k)
  (lx, t)

/-! ### Concrete data for the witnesses -/

/-- Column pointers of a five-column chain factor (column j holds rows
j..4), the quad-fusion shape. -/
def exLp : Nat → Nat := fun j => [0, 5, 9, 12, 14].getD j 15

/-- Row indices of the five-column chain factor. -/
def exLi : Nat → Nat := fun p => [0, 1, 2, 3, 4, 1, 2, 3, 4, 2, 3, 4, 3, 4, 4].getD p 99

/-- Nonzero counts of the five-column chain factor. -/
def exLnz : Nat → Nat := fun j => [5, 4, 3, 2, 1].getD j 0

/-- A concrete state over the five-column chain, with unit values. -/
def exSt : UpState :=
  ⟨exLp, exLi, exLnz, fun _ => 1, fun _ => 0, fun _ => 0, fun _ => 1, fun _ => 1⟩


/-- Cell `a` of W avoids the slice cells of row `i`:
`a ≠ woff + wdim * i + k` for every `k < rank`. -/
def avoids (c : Ctx) (a i : Nat) : Prop := ∀ k, k < c.rank → a ≠ wcIdx c i k


/-- The columns whose W rows the step at `j` captures and clears: the
head column plus the fused columns of a dual or quad step. -/
def sweptCols (Lp Li Lnz : Nat → Nat) (e j : Nat) : List Nat :=
  match stepKind Lp Li Lnz e j with
  | Kind.single => [j]
  | Kind.dual => [j, Li (Lp j + 1)]
  | Kind.quad => [j, Li (Lp j + 1), Li (Lp j + 1 + 1), Li (Lp j + 1 + 2)]


/-- All columns swept over a list of visited head columns. -/
def sweptAll (Lp Li Lnz : Nat → Nat) (e : Nat) : List Nat → List Nat
  | [] => []
  | j :: rest => sweptCols Lp Li Lnz e j ++ sweptAll Lp Li Lnz e rest

/-- Well-formedness of a visit chain: each visited head column has its
diagonal row first and strictly ascending row indices, and every
off-diagonal row is either one of the columns fused at this step or a
column swept later in the chain. -/
def chainOK (Lp Li Lnz : Nat → Nat) (e : Nat) : List Nat → Prop
  | [] => True
  | j :: rest =>
      Li (Lp j) = j ∧
      (∀ t, t < Lnz j → ∀ s, s < t → Li (Lp j + s) < Li (Lp j + t)) ∧
      (∀ p, p < Lp j + Lnz j → Lp j < p →
        Li p ∈ sweptCols Lp Li Lnz e j ∨ Li p ∈ sweptAll Lp Li Lnz e rest) ∧
      chainOK Lp Li Lnz e rest

instance chainOKDec (Lp Li Lnz : Nat → Nat) (e : Nat) :
    (l : List Nat) → Decidable (chainOK Lp Li Lnz e l)
  | [] => isTrue trivial
  | j :: rest => by
      have hrec := chainOKDec Lp Li Lnz e rest
      unfold chainOK
      infer_instance


/-- Column pointers of a two-column factor: column 0 holds rows 0 and 1,
column 1 holds row 1. -/
def cexLp : Nat → Nat := fun j => [0, 2].getD j 3

/-- Row indices of the two-column factor. -/
def cexLi : Nat → Nat := fun p => [0, 1, 1].getD p 9

/-- Nonzero counts of the two-column factor. -/
def cexLnz : Nat → Nat := fun j => [2, 1].getD j 0

/-- A state over the two-column factor with unit values and zero W. -/
def cexSt : UpState :=
  ⟨cexLp, cexLi, cexLnz, fun _ => 1, fun _ => 0, fun _ => 0, fun _ => 1,
   fun _ => 1⟩

/-- A packed 2-by-1 update matrix C whose single column holds row 0. -/
def cexC : SpMat :=
  ⟨fun c => [0, 1].getD c 1, fun p => [0].getD p 9, fun p => [5].getD p 0,
   fun _ => 0, true⟩

/-- A D matrix with the same pattern as `cexC`. -/
def cexD : SpMat :=
  ⟨fun c => [0, 1].getD c 1, fun p => [0].getD p 9, fun p => [13].getD p 0,
   fun _ => 0, true⟩

/-- One leaf descriptor for the single column of `cexC` and one interior
descriptor walking only column 1 (the same record serves both roles). -/
def cexPaths : Nat → PathT := fun _ => ⟨1, 1, 0, 1, 0⟩

/-- Leaf descriptors for the two columns of `exC` followed by a single
interior descriptor covering both W columns over the whole chain. -/
def exPaths3 : Nat → PathT :=
  fun t =>
    if t = 0 then ⟨0, 4, 0, 1, 0⟩
    else if t = 1 then ⟨0, 4, 1, 1, 1⟩
    else ⟨0, 4, 0, 2, 0⟩

/-- The visit chain of an interior path descriptor: the columns the
kernel walks from `start` while `≤ last`, with the fuel that suffices
on well-formed factors. -/
def pathChain (Lp Li Lnz : Nat → Nat) (P : PathT) : List Nat :=
  visitChain Lp Li Lnz P.last (P.last + 1 - P.start) P.start

/-- Row `i` is slice-covered for path `t` by one of the descriptors in
`ts`: some descriptor in `ts` sweeps column `i` on its own walk and its
W slice `[wfirst, wfirst + rank)` contains the slice of path `t`. -/
def sliceCovered (Lp Li Lnz : Nat → Nat) (Paths : Nat → PathT)
    (t : Nat) (ts : List Nat) (i : Nat) : Prop :=
  ∃ u, u ∈ ts ∧
    i ∈ sweptAll Lp Li Lnz (Paths u).last (pathChain Lp Li Lnz (Paths u)) ∧
    (Paths u).wfirst ≤ (Paths t).wfirst ∧
    (Paths t).wfirst + (Paths t).rank ≤ (Paths u).wfirst + (Paths u).rank

instance sliceCoveredDec (Lp Li Lnz : Nat → Nat) (Paths : Nat → PathT)
    (t : Nat) (ts : List Nat) :
    DecidablePred (sliceCovered Lp Li Lnz Paths t ts) := fun i => by
  unfold sliceCovered
  infer_instance

/-- Row `i` escapes path `t` to the descriptors in `ts`: it lies beyond
the path's last column and a later descriptor with a covering W slice
sweeps it. -/
def escTo (Lp Li Lnz : Nat → Nat) (Paths : Nat → PathT)
    (t : Nat) (ts : List Nat) (i : Nat) : Prop :=
  (Paths t).last < i ∧ sliceCovered Lp Li Lnz Paths t ts i

instance escToDec (Lp Li Lnz : Nat → Nat) (Paths : Nat → PathT)
    (t : Nat) (ts : List Nat) :
    DecidablePred (escTo Lp Li Lnz Paths t ts) := fun i => by
  unfold escTo
  infer_instance

/-- Well-formedness of a visit chain relative to an escape predicate
`E` on rows: each visited head column has its diagonal row first and
strictly ascending row indices, the columns swept at a step lie inside
the path and strictly precede the columns swept later in the chain, and
every off-diagonal row of a visited column is either one of the columns
fused at this step, a column swept later in the chain, or an escape
row. -/
def chainOKE (Lp Li Lnz : Nat → Nat) (e : Nat) (E : Nat → Prop) :
    List Nat → Prop
  | [] => True
  | j :: rest =>
      Li (Lp j) = j ∧
      (∀ t, t < Lnz j → ∀ s, s < t → Li (Lp j + s) < Li (Lp j + t)) ∧
      (∀ y, y ∈ sweptCols Lp Li Lnz e j → y ≤ e) ∧
      (∀ y, y ∈ sweptCols Lp Li Lnz e j →
        ∀ z, z ∈ sweptAll Lp Li Lnz e rest → y < z) ∧
      (∀ p, p < Lp j + Lnz j → Lp j < p →
        Li p ∈ sweptCols Lp Li Lnz e j ∨ Li p ∈ sweptAll Lp Li Lnz e rest ∨
          E (Li p)) ∧
      chainOKE Lp Li Lnz e E rest

instance chainOKEDec (Lp Li Lnz : Nat → Nat) (e : Nat) (E : Nat → Prop)
    [DecidablePred E] : (l : List Nat) → Decidable (chainOKE Lp Li Lnz e E l)
  | [] => isTrue trivial
  | j :: rest => by
      have hrec := chainOKEDec Lp Li Lnz e E rest
      unfold chainOKE
      infer_instance

instance exAndLtDec (n : Nat) (P : Nat → Prop) [DecidablePred P] :
    Decidable (∃ k, k < n ∧ P k) :=
  decidable_of_iff (∃ k, k ∈ List.range n ∧ P k)
    (by simp only [List.mem_range])

/-- Cell `a` of W lies in the region some descriptor in `ts` clears:
a row its walk sweeps, at a W column inside its slice. -/
def coveredBy (wdim : Nat) (Lp Li Lnz : Nat → Nat) (Paths : Nat → PathT)
    (ts : List Nat) (a : Nat) : Prop :=
  ∃ t, t ∈ ts ∧
    ∃ i, i ∈ sweptAll Lp Li Lnz (Paths t).last (pathChain Lp Li Lnz (Paths t)) ∧
      ∃ k, k < (Paths t).rank ∧ a = (Paths t).wfirst + wdim * i + k

instance coveredByDec (wdim : Nat) (Lp Li Lnz : Nat → Nat)
    (Paths : Nat → PathT) (ts : List Nat) (a : Nat) :
    Decidable (coveredBy wdim Lp Li Lnz Paths ts a) := by
  unfold coveredBy
  infer_instance

/-- Well-formedness of a sequence of interior path descriptors: each
descriptor's walk is a well-formed chain whose escape rows lie beyond
its last column and are slice-covered by a later descriptor in the
sequence. -/
def pathsOK (Lp Li Lnz : Nat → Nat) (Paths : Nat → PathT) : List Nat → Prop
  | [] => True
  | t :: rest =>
      chainOKE Lp Li Lnz (Paths t).last (escTo Lp Li Lnz Paths t rest)
        (pathChain Lp Li Lnz (Paths t)) ∧
      pathsOK Lp Li Lnz Paths rest

instance pathsOKDec (Lp Li Lnz : Nat → Nat) (Paths : Nat → PathT) :
    (ts : List Nat) → Decidable (pathsOK Lp Li Lnz Paths ts)
  | [] => isTrue trivial
  | t :: rest => by
      have hrec := pathsOKDec Lp Li Lnz Paths rest
      unfold pathsOK
      infer_instance

/-! ### Generic fold and frame lemmas -/

theorem foldl_proj {σ α β : Type} (f : σ → α → σ) (g : σ → β)
    (h : ∀ s a, g (f s a) = g s) (l : List α) (s : σ) :
    g (List.foldl f s l) = g s := by
  induction l generalizing s with
  | nil => rfl
  | cons a t ih => rw [List.foldl_cons, ih, h]

theorem PatProj.toSweep {β : Type} {g : UpState → β} (hg : PatProj g) :
    SweepProj g :=
  fun st lx wc wd => hg st lx wc wd st.AC st.AD

theorem patProj_Lp : PatProj (fun st => st.Lp) := fun _ _ _ _ _ _ => rfl

theorem patProj_Li : PatProj (fun st => st.Li) := fun _ _ _ _ _ _ => rfl

theorem patProj_Lnz : PatProj (fun st => st.Lnz) := fun _ _ _ _ _ _ => rfl

theorem zeroWRow_proj {β : Type} {g : UpState → β} (hg : SweepProj g)
    (c : Ctx) (j : Nat) (st : UpState) : g (zeroWRow c j st) = g st := by
  unfold zeroWRow
  refine foldl_proj _ g (fun s k => ?_) _ _
  exact hg _ _ _ _

theorem agAt_proj {β : Type} {g : UpState → β} (hg : PatProj g)
    (c : Ctx) (p : Nat) (zc zd : Nat → ℚ) (st : UpState) :
    g (alphaGammaAt c p zc zd st).1 = g st :=
  hg st _ st.WC st.WD _ _

theorem case1Body_proj {β : Type} {g : UpState → β} (hg : SweepProj g)
    (c : Ctx) (g0 : ZG) (p0 : Nat) (st : UpState) :
    g (case1Body c g0 p0 st) = g st := by
  unfold case1Body
  refine Eq.trans (hg _ _ _ _) ?_
  refine foldl_proj _ (fun s : ℚ × UpState => g s.2) (fun s k => ?_) _ _
  exact (hg _ _ _ _).trans (hg _ _ _ _)

theorem case2Body_proj {β : Type} {g : UpState → β} (hg : SweepProj g)
    (c : Ctx) (g0 : ZG) (p0 : Nat) (st : UpState) :
    g (case2Body c g0 p0 st) = g st := by
  unfold case2Body
  refine Eq.trans (hg _ _ _ _) ?_
  refine foldl_proj _ (fun s : ℚ × ℚ × UpState => g s.2.2) (fun s k => ?_) _ _
  exact ((hg _ _ _ _).trans (hg _ _ _ _)).trans ((hg _ _ _ _).trans (hg _ _ _ _))

theorem case3Body_proj {β : Type} {g : UpState → β} (hg : SweepProj g)
    (c : Ctx) (g0 : ZG) (p0 : Nat) (st : UpState) :
    g (case3Body c g0 p0 st) = g st := by
  unfold case3Body
  refine Eq.trans (hg _ _ _ _) ?_
  refine foldl_proj _ (fun s : ℚ × ℚ × ℚ × UpState => g s.2.2.2) (fun s k => ?_) _ _
  exact (((hg _ _ _ _).trans (hg _ _ _ _)).trans
    ((hg _ _ _ _).trans (hg _ _ _ _))).trans ((hg _ _ _ _).trans (hg _ _ _ _))

theorem case4Body_proj {β : Type} {g : UpState → β} (hg : SweepProj g)
    (c : Ctx) (g0 : ZG) (p0 : Nat) (st : UpState) :
    g (case4Body c g0 p0 st) = g st := by
  unfold case4Body
  refine Eq.trans (hg _ _ _ _) ?_
  refine foldl_proj _ (fun s : ℚ × ℚ × ℚ × ℚ × UpState => g s.2.2.2.2) (fun s k => ?_) _ _
  exact ((((hg _ _ _ _).trans (hg _ _ _ _)).trans ((hg _ _ _ _).trans (hg _ _ _ _))).trans
    (((hg _ _ _ _).trans (hg _ _ _ _)).trans ((hg _ _ _ _).trans (hg _ _ _ _))))

theorem dualCleanupBody_proj {β : Type} {g : UpState → β} (hg : SweepProj g)
    (c : Ctx) (g0 g1 : ZG) (p0 p1 : Nat) (st : UpState) :
    g (dualCleanupBody c g0 g1 p0 p1 st) = g st := by
  unfold dualCleanupBody
  refine Eq.trans (hg _ _ _ _) ?_
  refine foldl_proj _ (fun s : ℚ × ℚ × UpState => g s.2.2) (fun s k => ?_) _ _
  exact ((hg _ _ _ _).trans (hg _ _ _ _)).trans ((hg _ _ _ _).trans (hg _ _ _ _))

theorem dual2Body_proj {β : Type} {g : UpState → β} (hg : SweepProj g)
    (c : Ctx) (g0 g1 : ZG) (p0 p1 : Nat) (st : UpState) :
    g (dual2Body c g0 g1 p0 p1 st) = g st := by
  unfold dual2Body
  refine Eq.trans (hg _ _ _ _) ?_
  refine foldl_proj _ (fun s : ℚ × ℚ × ℚ × ℚ × UpState => g s.2.2.2.2) (fun s k => ?_) _ _
  exact (hg _ _ _ _).trans (hg _ _ _ _)

theorem quadMainBody_proj {β : Type} {g : UpState → β} (hg : SweepProj g)
    (c : Ctx) (g0 g1 g2 g3 : ZG) (p0 p1 p2 p3 : Nat) (st : UpState) :
    g (quadMainBody c g0 g1 g2 g3 p0 p1 p2 p3 st) = g st := by
  unfold quadMainBody
  refine Eq.trans (hg _ _ _ _) ?_
  refine foldl_proj _ (fun s : ℚ × ℚ × ℚ × ℚ × UpState => g s.2.2.2.2) (fun s k => ?_) _ _
  exact ((((hg _ _ _ _).trans (hg _ _ _ _)).trans ((hg _ _ _ _).trans (hg _ _ _ _))).trans
    (((hg _ _ _ _).trans (hg _ _ _ _)).trans ((hg _ _ _ _).trans (hg _ _ _ _))))

theorem singleLoop_proj {β : Type} {g : UpState → β} (hg : SweepProj g)
    (c : Ctx) (g0 : ZG) (pend : Nat) :
    ∀ p0 st, g (singleLoop c g0 pend p0 st) = g st := by
  have H : ∀ n p0 st, pend - p0 ≤ n → g (singleLoop c g0 pend p0 st) = g st := by
    intro n
    induction n with
    | zero =>
      intro p0 st h
      rw [singleLoop, dif_neg (by omega)]
    | succ n ih =>
      intro p0 st h
      rw [singleLoop]
      by_cases hc : p0 < pend
      · rw [dif_pos hc, ih _ _ (by omega), case4Body_proj hg]
      · rw [dif_neg hc]
  exact fun p0 st => H (pend - p0) p0 st le_rfl

theorem singleCase_proj {β : Type} {g : UpState → β} (hg : SweepProj g)
    (c : Ctx) (g0 : ZG) (lnz pend p0 : Nat) (st : UpState) :
    g (singleCase c g0 lnz pend p0 st) = g st := by
  unfold singleCase
  rcases h : (lnz - 1) % 4 with _ | _ | _ | _ | m <;>
    simp only [singleLoop_proj hg, case1Body_proj hg, case2Body_proj hg, case3Body_proj hg]

theorem dualLoop_proj {β : Type} {g : UpState → β} (hg : SweepProj g)
    (c : Ctx) (g0 g1 : ZG) (pend : Nat) :
    ∀ p0 p1 st, g (dualLoop c g0 g1 pend p0 p1 st) = g st := by
  have H : ∀ n p0 p1 st, pend - p0 ≤ n → g (dualLoop c g0 g1 pend p0 p1 st) = g st := by
    intro n
    induction n with
    | zero =>
      intro p0 p1 st h
      rw [dualLoop, dif_neg (by omega)]
    | succ n ih =>
      intro p0 p1 st h
      rw [dualLoop]
      by_cases hc : p0 < pend
      · rw [dif_pos hc, ih _ _ _ (by omega), dual2Body_proj hg]
      · rw [dif_neg hc]
  exact fun p0 p1 st => H (pend - p0) p0 p1 st le_rfl

theorem dualCase_proj {β : Type} {g : UpState → β} (hg : SweepProj g)
    (c : Ctx) (g0 g1 : ZG) (lnz pend p0 p1 : Nat) (st : UpState) :
    g (dualCase c g0 g1 lnz pend p0 p1 st) = g st := by
  unfold dualCase
  by_cases h : (lnz - 2) % 2 = 1 <;>
    simp only [h, reduceIte, dualLoop_proj hg, dualCleanupBody_proj hg]

theorem quadLoop_proj {β : Type} {g : UpState → β} (hg : SweepProj g)
    (c : Ctx) (g0 g1 g2 g3 : ZG) (pend : Nat) :
    ∀ p0 p1 p2 p3 st, g (quadLoop c g0 g1 g2 g3 pend p0 p1 p2 p3 st) = g st := by
  have H : ∀ n p0 p1 p2 p3 st, pend - p0 ≤ n →
      g (quadLoop c g0 g1 g2 g3 pend p0 p1 p2 p3 st) = g st := by
    intro n
    induction n with
    | zero =>
      intro p0 p1 p2 p3 st h
      rw [quadLoop, dif_neg (by omega)]
    | succ n ih =>
      intro p0 p1 p2 p3 st h
      rw [quadLoop]
      by_cases hc : p0 < pend
      · rw [dif_pos hc, ih _ _ _ _ _ (by omega), quadMainBody_proj hg]
      · rw [dif_neg hc]
  exact fun p0 p1 p2 p3 st => H (pend - p0) p0 p1 p2 p3 st le_rfl

theorem columnStep_proj {β : Type} {g : UpState → β} (hg : PatProj g)
    (c : Ctx) (e j : Nat) (st : UpState) :
    g (columnStep c e j st) = g st := by
  have h5 : ∀ (t : UpState) (lx wc wd ac ad : Nat → ℚ),
      g { t with Lx := lx, WC := wc, WD := wd, AC := ac, AD := ad } = g t := hg
  unfold columnStep
  dsimp only
  repeat' split
  all_goals
    simp only [quadLoop_proj hg.toSweep, dualCase_proj hg.toSweep,
      singleCase_proj hg.toSweep, agAt_proj hg, zeroWRow_proj hg.toSweep, h5]

theorem kernelLoop_proj {β : Type} {g : UpState → β} (hg : PatProj g)
    (c : Ctx) (e : Nat) :
    ∀ fuel j st, g (kernelLoop c e fuel j st) = g st := by
  intro fuel
  induction fuel with
  | zero => intro j st; rfl
  | succ n ih =>
    intro j st
    rw [kernelLoop]
    by_cases h : j ≤ e
    · rw [if_pos h, ih, columnStep_proj hg]
    · rw [if_neg h]

theorem numkr_proj {β : Type} {g : UpState → β} (hg : PatProj g)
    (c : Ctx) (j e : Nat) (st : UpState) : g (numkr c j e st) = g st :=
  kernelLoop_proj hg c e _ j st

theorem scatterColLoop_proj {β : Type} {g : UpState → β} (hg : PatProj g)
    (wdim : Nat) (Cm Dm : SpMat) (path : Nat) (mask : Option (Nat → ℤ))
    (maskmark : ℤ) (pend : Nat) :
    ∀ p st, g (scatterColLoop wdim Cm Dm path mask maskmark pend p st) = g st := by
  have H : ∀ n p st, pend - p ≤ n →
      g (scatterColLoop wdim Cm Dm path mask maskmark pend p st) = g st := by
    intro n
    induction n with
    | zero =>
      intro p st h
      rw [scatterColLoop, dif_neg (by omega)]
    | succ n ih =>
      intro p st h
      rw [scatterColLoop]
      by_cases hc : p < pend
      · rw [dif_pos hc, ih _ _ (by omega)]
        split
        · exact hg.toSweep _ _ _ _
        · rfl
      · rw [dif_neg hc]
  exact fun p st => H (pend - p) p st le_rfl

theorem scatterPath_proj {β : Type} {g : UpState → β} (hg : PatProj g)
    (wdim : Nat) (Cm Dm : SpMat) (Paths : Nat → PathT) (mask : Option (Nat → ℤ))
    (maskmark : ℤ) (path : Nat) (st : UpState) :
    g (scatterPath wdim Cm Dm Paths mask maskmark path st) = g st := by
  unfold scatterPath
  exact (hg _ _ _ _ _ _).trans (scatterColLoop_proj hg wdim Cm Dm path mask maskmark _ _ st)

theorem scatterStage_proj {β : Type} {g : UpState → β} (hg : PatProj g)
    (wdim : Nat) (Cm Dm : SpMat) (Paths : Nat → PathT) (rank : Nat)
    (mask : Option (Nat → ℤ)) (maskmark : ℤ) (st : UpState) :
    g (scatterStage wdim Cm Dm Paths rank mask maskmark st) = g st := by
  unfold scatterStage
  exact foldl_proj _ g
    (fun s path => scatterPath_proj hg wdim Cm Dm Paths mask maskmark path s) _ _

theorem dispatchPath_proj {β : Type} {g : UpState → β} (hg : PatProj g)
    (wdim : Nat) (db : ℚ) (P : PathT) (st : UpState) :
    g (dispatchPath wdim db P st) = g st := by
  unfold dispatchPath
  split
  · exact numkr_proj hg _ _ _ _
  · split
    · exact numkr_proj hg _ _ _ _
    · rfl

theorem updown2r_proj {β : Type} {g : UpState → β} (hg : PatProj g)
    (wdim : Nat) (Cm Dm : SpMat) (rank : Nat) (Paths : Nat → PathT)
    (npaths : Nat) (mask : Option (Nat → ℤ)) (maskmark : ℤ) (db : ℚ)
    (st : UpState) :
    g (updown2r wdim Cm Dm rank Paths npaths mask maskmark db st) = g st := by
  unfold updown2r
  exact (foldl_proj _ g (fun s path => dispatchPath_proj hg wdim db (Paths path) s) _ _).trans
    (scatterStage_proj hg wdim Cm Dm Paths rank mask maskmark st)

/-- C2: for every call to the numeric update/downdate core (any C, D,
rank, path plan, mask, maskmark and dbound), the factor arrays `Lp`,
`Li` and `Lnz` are unchanged on return; every store of the call goes to
`Lx`, the workspaces or the alpha vectors. -/
theorem updown2r_pattern_preserved (wdim : Nat) (Cm Dm : SpMat) (rank : Nat)
    (Paths : Nat → PathT) (npaths : Nat) (mask : Option (Nat → ℤ))
    (maskmark : ℤ) (db : ℚ) (st : UpState) :
    (updown2r wdim Cm Dm rank Paths npaths mask maskmark db st).Lp = st.Lp ∧
    (updown2r wdim Cm Dm rank Paths npaths mask maskmark db st).Li = st.Li ∧
    (updown2r wdim Cm Dm rank Paths npaths mask maskmark db st).Lnz = st.Lnz :=
  ⟨updown2r_proj patProj_Lp wdim Cm Dm rank Paths npaths mask maskmark db st,
   updown2r_proj patProj_Li wdim Cm Dm rank Paths npaths mask maskmark db st,
   updown2r_proj patProj_Lnz wdim Cm Dm rank Paths npaths mask maskmark db st⟩

end Updown

namespace Updown

/-! ### C6: fusion dispatch conditions -/

/-- C6: with `j1 = Li[Lp[j]+1]`, `j2`, `j3` the second and third
off-diagonal rows, the dual or quad codepath is taken exactly when
`j1 <= end` and `Lnz[j1] = Lnz[j] - 1`; the quad codepath exactly when
additionally `j2 <= end`, `j3 <= end`, `Lnz[j2] = Lnz[j] - 2` and
`Lnz[j3] = Lnz[j] - 3`; otherwise (in particular whenever the column
has no off-diagonal entry) the single-column codepath is taken. -/
theorem stepKind_characterization (Lp Li Lnz : Nat → Nat) (e j : Nat) :
    (Lnz j ≤ 1 → stepKind Lp Li Lnz e j = Kind.single) ∧
    (1 < Lnz j →
      ((stepKind Lp Li Lnz e j = Kind.dual ∨ stepKind Lp Li Lnz e j = Kind.quad) ↔
        (Li (Lp j + 1) ≤ e ∧ (Lnz (Li (Lp j + 1)) : ℤ) = (Lnz j : ℤ) - 1))) ∧
    (3 < Lnz j →
      (stepKind Lp Li Lnz e j = Kind.quad ↔
        (Li (Lp j + 1) ≤ e ∧ (Lnz (Li (Lp j + 1)) : ℤ) = (Lnz j : ℤ) - 1 ∧
         Li (Lp j + 2) ≤ e ∧ Li (Lp j + 3) ≤ e ∧
         (Lnz (Li (Lp j + 2)) : ℤ) = (Lnz j : ℤ) - 2 ∧
         (Lnz (Li (Lp j + 3)) : ℤ) = (Lnz j : ℤ) - 3))) := by
  unfold stepKind
  dsimp only
  refine ⟨fun h => ?_, fun h => ?_, fun h => ?_⟩
  · rw [if_neg (show ¬ Lnz j > 1 by omega),
      if_neg (fun hc => (show ¬ (e + 1 ≤ e) by omega) hc.1)]
  · rw [if_pos (show Lnz j > 1 by omega)]
    by_cases hc1 : Li (Lp j + 1) ≤ e ∧ Lnz j = Lnz (Li (Lp j + 1)) + 1
    · rw [if_pos hc1]
      constructor
      · intro _
        exact ⟨hc1.1, by omega⟩
      · intro _
        repeat' split
        all_goals first
          | exact Or.inr rfl
          | exact Or.inl rfl
    · rw [if_neg hc1]
      constructor
      · rintro (hs | hs) <;> exact absurd hs (by simp)
      · rintro ⟨ha, hb⟩
        exact absurd ⟨ha, by omega⟩ hc1
  · rw [if_pos (show Lnz j > 1 by omega), if_pos (show Lnz j > 2 by omega),
      if_pos (show Lnz j > 3 by omega)]
    by_cases hc1 : Li (Lp j + 1) ≤ e ∧ Lnz j = Lnz (Li (Lp j + 1)) + 1
    · rw [if_pos hc1]
      by_cases hc2 : Li (Lp j + 2) ≤ e ∧ Li (Lp j + 3) ≤ e ∧
          Lnz j = Lnz (Li (Lp j + 2)) + 2 ∧ Lnz j = Lnz (Li (Lp j + 3)) + 3
      · rw [if_pos hc2]
        exact ⟨fun _ => ⟨hc1.1, by omega, hc2.1, hc2.2.1, by omega, by omega⟩,
          fun _ => rfl⟩
      · rw [if_neg hc2]
        constructor
        · intro hs
          exact absurd hs (by simp)
        · rintro ⟨_, _, h3, h4, h5, h6⟩
          exact absurd ⟨h3, h4, by omega, by omega⟩ hc2
    · rw [if_neg hc1]
      constructor
      · intro hs
        exact absurd hs (by simp)
      · rintro ⟨ha, hb, _⟩
        exact absurd ⟨ha, by omega⟩ hc1

/-- Witness for C6 on the concrete five-column chain: at its root column
the counts match for four columns and the quad codepath is selected. -/
theorem stepKind_characterization_witness :
    3 < exLnz 0 ∧ stepKind exLp exLi exLnz 4 0 = Kind.quad :=
  ⟨by decide,
   ((stepKind_characterization exLp exLi exLnz 4 0).2.2 (by decide)).mpr (by decide)⟩

/-! ### C4: the dbound clamp -/

/-- C4: the write-back of each diagonal visit.  When `dbound > 0` the
recurrence result is written back as `max (dj, dbound)`, hence every
updated diagonal entry is at least `dbound`; when `dbound <= 0` no clamp
is applied and the raw recurrence result is stored.  (The clamp function
itself is modelled from the spec, `CHOLMOD(dbound)` not being part of
the sources under `src/`.) -/
theorem dbound_clamp_spec (c : Ctx) (p : Nat) (zc zd : Nat → ℚ) (st : UpState) :
    (0 < c.db →
      (alphaGammaAt c p zc zd st).1.Lx p =
        max (alphaGammaCore c (st.Lx p) zc zd st.AC st.AD).dj c.db ∧
      c.db ≤ (alphaGammaAt c p zc zd st).1.Lx p) ∧
    (c.db ≤ 0 →
      (alphaGammaAt c p zc zd st).1.Lx p =
        (alphaGammaCore c (st.Lx p) zc zd st.AC st.AD).dj) := by
  unfold alphaGammaAt dboundSpec
  dsimp only
  rw [upd_same]
  constructor
  · intro h
    rw [if_pos h]
    exact ⟨rfl, le_max_right _ _⟩
  · intro h
    rw [if_neg (not_lt.mpr h)]

/-- Witness for C4: with `dbound = 1` and a diagonal entry driven to
`1/2` by a downdate, the stored diagonal is clamped up to `dbound`. -/
theorem dbound_clamp_spec_witness :
    0 < (1 : ℚ) ∧
      (alphaGammaAt ⟨1, 1, 0, 1⟩ 0 (fun _ => 0) (fun _ => 0) exSt).1.Lx 0 =
        max (alphaGammaCore ⟨1, 1, 0, 1⟩ (exSt.Lx 0) (fun _ => 0) (fun _ => 0)
          exSt.AC exSt.AD).dj 1 ∧
      (1 : ℚ) ≤ (alphaGammaAt ⟨1, 1, 0, 1⟩ 0 (fun _ => 0) (fun _ => 0) exSt).1.Lx 0 :=
  ⟨by norm_num,
   (dbound_clamp_spec ⟨1, 1, 0, 1⟩ 0 (fun _ => 0) (fun _ => 0) exSt).1 (by norm_num)⟩

end Updown

namespace Updown

/-! ### Field-level frame lemmas used for rewriting -/

@[simp] theorem agAt_Lp (c : Ctx) (p : Nat) (zc zd : Nat → ℚ) (st : UpState) :
    (alphaGammaAt c p zc zd st).1.Lp = st.Lp := rfl

@[simp] theorem agAt_Li (c : Ctx) (p : Nat) (zc zd : Nat → ℚ) (st : UpState) :
    (alphaGammaAt c p zc zd st).1.Li = st.Li := rfl

@[simp] theorem agAt_Lnz (c : Ctx) (p : Nat) (zc zd : Nat → ℚ) (st : UpState) :
    (alphaGammaAt c p zc zd st).1.Lnz = st.Lnz := rfl

@[simp] theorem agAt_WC (c : Ctx) (p : Nat) (zc zd : Nat → ℚ) (st : UpState) :
    (alphaGammaAt c p zc zd st).1.WC = st.WC := rfl

@[simp] theorem agAt_WD (c : Ctx) (p : Nat) (zc zd : Nat → ℚ) (st : UpState) :
    (alphaGammaAt c p zc zd st).1.WD = st.WD := rfl

@[simp] theorem zeroWRow_Lp (c : Ctx) (j : Nat) (st : UpState) :
    (zeroWRow c j st).Lp = st.Lp := zeroWRow_proj patProj_Lp.toSweep c j st

@[simp] theorem zeroWRow_Li (c : Ctx) (j : Nat) (st : UpState) :
    (zeroWRow c j st).Li = st.Li := zeroWRow_proj patProj_Li.toSweep c j st

@[simp] theorem zeroWRow_Lnz (c : Ctx) (j : Nat) (st : UpState) :
    (zeroWRow c j st).Lnz = st.Lnz := zeroWRow_proj patProj_Lnz.toSweep c j st

@[simp] theorem zeroWRow_Lx (c : Ctx) (j : Nat) (st : UpState) :
    (zeroWRow c j st).Lx = st.Lx := by
  unfold zeroWRow
  refine foldl_proj _ (fun s : UpState => s.Lx) (fun s k => ?_) _ _
  rfl

@[simp] theorem zeroWRow_AC (c : Ctx) (j : Nat) (st : UpState) :
    (zeroWRow c j st).AC = st.AC := by
  unfold zeroWRow
  refine foldl_proj _ (fun s : UpState => s.AC) (fun s k => ?_) _ _
  rfl

@[simp] theorem zeroWRow_AD (c : Ctx) (j : Nat) (st : UpState) :
    (zeroWRow c j st).AD = st.AD := by
  unfold zeroWRow
  refine foldl_proj _ (fun s : UpState => s.AD) (fun s k => ?_) _ _
  rfl

end Updown
namespace Updown

theorem acIdx_injEq (c : Ctx) {k l : Nat} : acIdx c k = acIdx c l ↔ k = l := by
  unfold acIdx
  omega

theorem agCoreN_succ (c : Ctx) (zc zd : Nat → ℚ) (dj0 : ℚ)
    (ac0 gc0 ad0 gd0 : Nat → ℚ) (n : Nat) :
    agCoreN c zc zd dj0 ac0 gc0 ad0 gd0 (n + 1) =
      agStep c zc zd (agCoreN c zc zd dj0 ac0 gc0 ad0 gd0 n) n := by
  unfold agCoreN
  rw [List.range_succ, List.foldl_append]
  rfl

theorem agCoreN_char (c : Ctx) (zc zd : Nat → ℚ) (dj0 : ℚ)
    (ac0 gc0 ad0 gd0 : Nat → ℚ) :
    ∀ n : Nat,
      ((agCoreN c zc zd dj0 ac0 gc0 ad0 gd0 n).dj =
        agSpecDj zc zd (fun k => ac0 (acIdx c k)) (fun k => ad0 (acIdx c k)) n dj0) ∧
      (∀ k, k < n →
        (agCoreN c zc zd dj0 ac0 gc0 ad0 gd0 n).ac (acIdx c k) =
          (agSpecAt zc zd (fun k => ac0 (acIdx c k)) (fun k => ad0 (acIdx c k)) dj0 k).2.1 ∧
        (agCoreN c zc zd dj0 ac0 gc0 ad0 gd0 n).gc k =
          (agSpecAt zc zd (fun k => ac0 (acIdx c k)) (fun k => ad0 (acIdx c k)) dj0 k).2.2.1 ∧
        (agCoreN c zc zd dj0 ac0 gc0 ad0 gd0 n).ad (acIdx c k) =
          (agSpecAt zc zd (fun k => ac0 (acIdx c k)) (fun k => ad0 (acIdx c k)) dj0 k).2.2.2.1 ∧
        (agCoreN c zc zd dj0 ac0 gc0 ad0 gd0 n).gd k =
          (agSpecAt zc zd (fun k => ac0 (acIdx c k)) (fun k => ad0 (acIdx c k)) dj0 k).2.2.2.2) ∧
      (∀ i, (∀ k, k < n → i ≠ acIdx c k) →
        (agCoreN c zc zd dj0 ac0 gc0 ad0 gd0 n).ac i = ac0 i ∧
        (agCoreN c zc zd dj0 ac0 gc0 ad0 gd0 n).ad i = ad0 i) ∧
      (∀ k, n ≤ k →
        (agCoreN c zc zd dj0 ac0 gc0 ad0 gd0 n).gc k = gc0 k ∧
        (agCoreN c zc zd dj0 ac0 gc0 ad0 gd0 n).gd k = gd0 k) := by
  intro n
  induction n with
  | zero =>
    exact ⟨rfl, fun k hk => absurd hk (by omega), fun i _ => ⟨rfl, rfl⟩,
      fun k _ => ⟨rfl, rfl⟩⟩
  | succ n ih =>
    obtain ⟨hdj, hwr, hun, hgtail⟩ := ih
    have hacn : (agCoreN c zc zd dj0 ac0 gc0 ad0 gd0 n).ac (acIdx c n) = ac0 (acIdx c n) :=
      (hun (acIdx c n) (fun k hk => by rw [Ne, acIdx_injEq]; omega)).1
    have hadn : (agCoreN c zc zd dj0 ac0 gc0 ad0 gd0 n).ad (acIdx c n) = ad0 (acIdx c n) :=
      (hun (acIdx c n) (fun k hk => by rw [Ne, acIdx_injEq]; omega)).2
    rw [agCoreN_succ]
    refine ⟨?_, ?_, ?_, ?_⟩
    · simp only [agSpecDj, agSpecK, agStep]
      rw [hacn, hadn, hdj]
    · intro k hk
      by_cases hk' : k < n
      · have hne : acIdx c k ≠ acIdx c n := by rw [Ne, acIdx_injEq]; omega
        have hne' : k ≠ n := by omega
        simp only [agStep]
        rw [upd_other _ _ hne, upd_other _ _ hne', upd_other _ _ hne, upd_other _ _ hne']
        exact hwr k hk'
      · have hkn : k = n := by omega
        subst hkn
        simp only [agStep, agSpecAt, agSpecK]
        rw [upd_same, upd_same, upd_same, upd_same, hacn, hadn, hdj]
        exact ⟨rfl, rfl, rfl, rfl⟩
    · intro i hi
      have hne : i ≠ acIdx c n := hi n (by omega)
      simp only [agStep]
      rw [upd_other _ _ hne, upd_other _ _ hne]
      exact hun i (fun k hk => hi k (by omega))
    · intro k hk
      have hne : k ≠ n := by omega
      simp only [agStep]
      rw [upd_other _ _ hne, upd_other _ _ hne]
      exact hgtail k (by omega)

end Updown
namespace Updown

theorem stepKind_single_iff (Lp Li Lnz : Nat → Nat) (e j : Nat) :
    stepKind Lp Li Lnz e j = Kind.single ↔
      ¬((if Lnz j > 1 then Li (Lp j + 1) else e + 1) ≤ e ∧
        Lnz j = Lnz (if Lnz j > 1 then Li (Lp j + 1) else e + 1) + 1) := by
  unfold stepKind
  dsimp only
  by_cases h : ((if Lnz j > 1 then Li (Lp j + 1) else e + 1) ≤ e ∧
      Lnz j = Lnz (if Lnz j > 1 then Li (Lp j + 1) else e + 1) + 1)
  · rw [if_pos h]
    refine iff_of_false ?_ (not_not_intro h)
    repeat' split
    all_goals simp
  · rw [if_neg h]
    simp [h]

theorem case1Body_Lx_ne (c : Ctx) (g0 : ZG) (p0 : Nat) (st : UpState) (q : Nat)
    (h : q ≠ p0) : (case1Body c g0 p0 st).Lx q = st.Lx q := by
  unfold case1Body
  refine Eq.trans (upd_other _ _ h) ?_
  refine foldl_proj _ (fun s : ℚ × UpState => s.2.Lx q) (fun s k => ?_) _ _
  rfl

theorem case2Body_Lx_ne (c : Ctx) (g0 : ZG) (p0 : Nat) (st : UpState) (q : Nat)
    (h0 : q ≠ p0) (h1 : q ≠ p0 + 1) : (case2Body c g0 p0 st).Lx q = st.Lx q := by
  unfold case2Body
  refine Eq.trans (upd_other _ _ h1) ?_
  refine Eq.trans (upd_other _ _ h0) ?_
  refine foldl_proj _ (fun s : ℚ × ℚ × UpState => s.2.2.Lx q) (fun s k => ?_) _ _
  rfl

theorem case3Body_Lx_ne (c : Ctx) (g0 : ZG) (p0 : Nat) (st : UpState) (q : Nat)
    (h0 : q ≠ p0) (h1 : q ≠ p0 + 1) (h2 : q ≠ p0 + 2) :
    (case3Body c g0 p0 st).Lx q = st.Lx q := by
  unfold case3Body
  refine Eq.trans (upd_other _ _ h2) ?_
  refine Eq.trans (upd_other _ _ h1) ?_
  refine Eq.trans (upd_other _ _ h0) ?_
  refine foldl_proj _ (fun s : ℚ × ℚ × ℚ × UpState => s.2.2.2.Lx q) (fun s k => ?_) _ _
  rfl

theorem case4Body_Lx_ne (c : Ctx) (g0 : ZG) (p0 : Nat) (st : UpState) (q : Nat)
    (h0 : q ≠ p0) (h1 : q ≠ p0 + 1) (h2 : q ≠ p0 + 2) (h3 : q ≠ p0 + 3) :
    (case4Body c g0 p0 st).Lx q = st.Lx q := by
  unfold case4Body
  refine Eq.trans (upd_other _ _ h3) ?_
  refine Eq.trans (upd_other _ _ h2) ?_
  refine Eq.trans (upd_other _ _ h1) ?_
  refine Eq.trans (upd_other _ _ h0) ?_
  refine foldl_proj _ (fun s : ℚ × ℚ × ℚ × ℚ × UpState => s.2.2.2.2.Lx q) (fun s k => ?_) _ _
  rfl

theorem singleLoop_Lx_lt (c : Ctx) (g0 : ZG) (pend : Nat) :
    ∀ p0 st q, q < p0 → (singleLoop c g0 pend p0 st).Lx q = st.Lx q := by
  have H : ∀ n p0 st q, pend - p0 ≤ n → q < p0 →
      (singleLoop c g0 pend p0 st).Lx q = st.Lx q := by
    intro n
    induction n with
    | zero =>
      intro p0 st q h hq
      rw [singleLoop, dif_neg (by omega)]
    | succ n ih =>
      intro p0 st q h hq
      rw [singleLoop]
      by_cases hc : p0 < pend
      · rw [dif_pos hc, ih _ _ _ (by omega) (by omega),
          case4Body_Lx_ne _ _ _ _ _ (by omega) (by omega) (by omega) (by omega)]
      · rw [dif_neg hc]
  exact fun p0 st q hq => H (pend - p0) p0 st q le_rfl hq

theorem singleCase_Lx_lt (c : Ctx) (g0 : ZG) (lnz pend p0 : Nat) (st : UpState)
    (q : Nat) (h : q < p0) : (singleCase c g0 lnz pend p0 st).Lx q = st.Lx q := by
  unfold singleCase
  by_cases h1 : (lnz - 1) % 4 = 1
  · rw [h1]
    exact (singleLoop_Lx_lt c g0 pend _ _ q (by omega)).trans
      (case1Body_Lx_ne c g0 p0 st q (by omega))
  by_cases h2 : (lnz - 1) % 4 = 2
  · rw [h2]
    exact (singleLoop_Lx_lt c g0 pend _ _ q (by omega)).trans
      (case2Body_Lx_ne c g0 p0 st q (by omega) (by omega))
  by_cases h3 : (lnz - 1) % 4 = 3
  · rw [h3]
    exact (singleLoop_Lx_lt c g0 pend _ _ q (by omega)).trans
      (case3Body_Lx_ne c g0 p0 st q (by omega) (by omega) (by omega))
  · have h0 : (lnz - 1) % 4 = 0 := by omega
    rw [h0]
    exact singleLoop_Lx_lt c g0 pend _ _ q (by omega)

/-- C1: at every diagonal visit, the kernel updates the diagonal by the
alpha/gamma recurrence exactly as the claim words it.  First part: the
`ALPHA_GAMMA` k-loop computes, for `k = 0 .. RANK-1` in order and with
the update half before the downdate half inside each `k`, precisely the
scalar recurrence `aC = AlphaC[k] + zC[k]^2/dj ; dj *= aC ; AlphaC[k] =
aC ; GammaC[k] = -zC[k]/dj ; dj /= (old AlphaC[k])` followed by the
analogous downdate half.  Second part: at a single-codepath diagonal
visit of column j the kernel stores into `Lx [Lp [j]]` the (possibly
clamped) recurrence result computed from the W rows of j captured
before the sweep. -/
theorem alphaGamma_recurrence_spec :
    (∀ (c : Ctx) (dj0 : ℚ) (zc zd ac ad : Nat → ℚ),
      (alphaGammaCore c dj0 zc zd ac ad).dj =
        agSpecDj zc zd (fun k => ac (acIdx c k)) (fun k => ad (acIdx c k)) c.rank dj0 ∧
      ∀ k, k < c.rank →
        (alphaGammaCore c dj0 zc zd ac ad).ac (acIdx c k) =
          (agSpecAt zc zd (fun k => ac (acIdx c k)) (fun k => ad (acIdx c k)) dj0 k).2.1 ∧
        (alphaGammaCore c dj0 zc zd ac ad).gc k =
          (agSpecAt zc zd (fun k => ac (acIdx c k)) (fun k => ad (acIdx c k)) dj0 k).2.2.1 ∧
        (alphaGammaCore c dj0 zc zd ac ad).ad (acIdx c k) =
          (agSpecAt zc zd (fun k => ac (acIdx c k)) (fun k => ad (acIdx c k)) dj0 k).2.2.2.1 ∧
        (alphaGammaCore c dj0 zc zd ac ad).gd k =
          (agSpecAt zc zd (fun k => ac (acIdx c k)) (fun k => ad (acIdx c k)) dj0 k).2.2.2.2) ∧
    (∀ (c : Ctx) (e j : Nat) (st : UpState),
      stepKind st.Lp st.Li st.Lnz e j = Kind.single →
      (columnStep c e j st).Lx (st.Lp j) =
        (if 0 < c.db then
          dboundSpec c.db
            (agSpecDj (zRowC c st j) (zRowD c st j) (fun k => st.AC (acIdx c k))
              (fun k => st.AD (acIdx c k)) c.rank (st.Lx (st.Lp j)))
        else
          agSpecDj (zRowC c st j) (zRowD c st j) (fun k => st.AC (acIdx c k))
            (fun k => st.AD (acIdx c k)) c.rank (st.Lx (st.Lp j)))) := by
  constructor
  · intro c dj0 zc zd ac ad
    have h := agCoreN_char c zc zd dj0 ac (fun _ => 0) ad (fun _ => 0) c.rank
    exact ⟨h.1, fun k hk => h.2.1 k hk⟩
  · intro c e j st hkind
    unfold columnStep
    dsimp only
    simp only [agAt_Li, agAt_Lnz, agAt_Lp, zeroWRow_Li, zeroWRow_Lnz, zeroWRow_Lp]
    rw [if_neg ((stepKind_single_iff st.Lp st.Li st.Lnz e j).mp hkind)]
    rw [singleCase_Lx_lt _ _ _ _ _ _ _ (by omega)]
    unfold alphaGammaAt
    dsimp only
    rw [upd_same]
    simp only [zeroWRow_Lx, zeroWRow_AC, zeroWRow_AD]
    have hcore := (agCoreN_char c (zRowC c st j) (zRowD c st j) (st.Lx (st.Lp j))
      st.AC (fun _ => 0) st.AD (fun _ => 0) c.rank).1
    split
    · rw [show (alphaGammaCore c (st.Lx (st.Lp j)) (zRowC c st j) (zRowD c st j)
        st.AC st.AD).dj = _ from hcore]
    · rw [show (alphaGammaCore c (st.Lx (st.Lp j)) (zRowC c st j) (zRowD c st j)
        st.AC st.AD).dj = _ from hcore]

/-- Witness for C1 at a concrete single-codepath column (the tip of the
five-column chain). -/
theorem alphaGamma_recurrence_spec_witness :
    stepKind exSt.Lp exSt.Li exSt.Lnz 4 4 = Kind.single ∧
    (columnStep ⟨1, 1, 0, 0⟩ 4 4 exSt).Lx (exSt.Lp 4) =
      (if 0 < (⟨1, 1, 0, 0⟩ : Ctx).db then
        dboundSpec (⟨1, 1, 0, 0⟩ : Ctx).db
          (agSpecDj (zRowC ⟨1, 1, 0, 0⟩ exSt 4) (zRowD ⟨1, 1, 0, 0⟩ exSt 4)
            (fun k => exSt.AC (acIdx ⟨1, 1, 0, 0⟩ k))
            (fun k => exSt.AD (acIdx ⟨1, 1, 0, 0⟩ k)) 1 (exSt.Lx (exSt.Lp 4)))
      else
        agSpecDj (zRowC ⟨1, 1, 0, 0⟩ exSt 4) (zRowD ⟨1, 1, 0, 0⟩ exSt 4)
          (fun k => exSt.AC (acIdx ⟨1, 1, 0, 0⟩ k))
          (fun k => exSt.AD (acIdx ⟨1, 1, 0, 0⟩ k)) 1 (exSt.Lx (exSt.Lp 4))) :=
  ⟨by decide, alphaGamma_recurrence_spec.2 ⟨1, 1, 0, 0⟩ 4 4 exSt (by decide)⟩

end Updown
namespace Updown

@[simp] theorem columnStep_Lp (c : Ctx) (e j : Nat) (st : UpState) :
    (columnStep c e j st).Lp = st.Lp := columnStep_proj patProj_Lp c e j st

@[simp] theorem columnStep_Li (c : Ctx) (e j : Nat) (st : UpState) :
    (columnStep c e j st).Li = st.Li := columnStep_proj patProj_Li c e j st

@[simp] theorem columnStep_Lnz (c : Ctx) (e j : Nat) (st : UpState) :
    (columnStep c e j st).Lnz = st.Lnz := columnStep_proj patProj_Lnz c e j st

theorem nextCol_gt (Lp Li Lnz : Nat → Nat) (e j : Nat)
    (H : ∀ t, t < Lnz j → 0 < t → j < Li (Lp j + t)) (hj : j ≤ e) :
    j < nextCol Lp Li Lnz e j := by
  unfold nextCol
  dsimp only
  rcases hsk : stepKind Lp Li Lnz e j with _ | _ | _
  all_goals dsimp only
  · split
    · exact H 1 (by omega) (by omega)
    · omega
  · split
    · exact H 2 (by omega) (by omega)
    · omega
  · split
    · exact H 4 (by omega) (by omega)
    · omega

theorem visitChain_congr_fuel (Lp Li Lnz : Nat → Nat) (e : Nat)
    (H : ∀ j, j ≤ e → ∀ t, t < Lnz j → 0 < t → j < Li (Lp j + t)) :
    ∀ fuel fuel' j, e + 1 - j ≤ fuel → e + 1 - j ≤ fuel' →
      visitChain Lp Li Lnz e fuel j = visitChain Lp Li Lnz e fuel' j := by
  intro fuel
  induction fuel with
  | zero =>
    intro fuel' j h h'
    have hj : ¬ j ≤ e := by omega
    cases fuel' with
    | zero => rfl
    | succ m => rw [visitChain, visitChain, if_neg hj]
  | succ n ih =>
    intro fuel' j h h'
    by_cases hj : j ≤ e
    · cases fuel' with
      | zero => omega
      | succ m =>
        rw [visitChain, visitChain, if_pos hj, if_pos hj]
        have hgt := nextCol_gt Lp Li Lnz e j (H j hj) hj
        rw [ih m (nextCol Lp Li Lnz e j) (by omega) (by omega)]
    · cases fuel' with
      | zero => rw [visitChain, visitChain, if_neg hj]
      | succ m => rw [visitChain, visitChain, if_neg hj, if_neg hj]

theorem visitChain_bounds (Lp Li Lnz : Nat → Nat) (e : Nat)
    (H : ∀ j, j ≤ e → ∀ t, t < Lnz j → 0 < t → j < Li (Lp j + t)) :
    ∀ fuel j, List.Chain' (· < ·) (visitChain Lp Li Lnz e fuel j) ∧
      (∀ x ∈ visitChain Lp Li Lnz e fuel j, j ≤ x ∧ x ≤ e) := by
  intro fuel
  induction fuel with
  | zero =>
    intro j
    exact ⟨List.chain'_nil, by intro x hx; cases hx⟩
  | succ n ih =>
    intro j
    by_cases hj : j ≤ e
    · rw [visitChain, if_pos hj]
      have hgt := nextCol_gt Lp Li Lnz e j (H j hj) hj
      obtain ⟨hch, hbd⟩ := ih (nextCol Lp Li Lnz e j)
      constructor
      · refine List.chain'_cons'.mpr ⟨?_, hch⟩
        intro b hb
        have hmem := List.mem_of_mem_head? hb
        have := (hbd b hmem).1
        omega
      · intro x hx
        rcases List.mem_cons.mp hx with rfl | hx'
        · exact ⟨le_rfl, hj⟩
        · have := hbd x hx'
          omega
    · rw [visitChain, if_neg hj]
      exact ⟨List.chain'_nil, by intro x hx; cases hx⟩

/-- C8: under the invariant that every off-diagonal row index of a path
column is strictly greater than the column index, the column walk of
the kernel terminates: its visited sequence is fuel-independent once
`e + 1 - start` steps are available (so the walk completes within that
many steps), is strictly increasing, and stays inside `[start, e]`. -/
theorem walk_termination (Lp Li Lnz : Nat → Nat) (e start : Nat)
    (H : ∀ j, j ≤ e → ∀ t, t < Lnz j → 0 < t → j < Li (Lp j + t)) :
    (∀ fuel, e + 1 - start ≤ fuel →
      visitChain Lp Li Lnz e fuel start = visitChain Lp Li Lnz e (e + 1 - start) start) ∧
    List.Chain' (· < ·) (visitChain Lp Li Lnz e (e + 1 - start) start) ∧
    (∀ x ∈ visitChain Lp Li Lnz e (e + 1 - start) start, start ≤ x ∧ x ≤ e) := by
  refine ⟨fun fuel hf => visitChain_congr_fuel Lp Li Lnz e H fuel (e + 1 - start) start hf le_rfl,
    (visitChain_bounds Lp Li Lnz e H (e + 1 - start) start).1,
    (visitChain_bounds Lp Li Lnz e H (e + 1 - start) start).2⟩

/-- Witness for C8 on the five-column chain: its rows are strictly
increasing within every column, and the walk from column 0 visits a
strictly increasing sequence. -/
theorem walk_termination_witness :
    (∀ j, j ≤ 4 → ∀ t, t < exLnz j → 0 < t → j < exLi (exLp j + t)) ∧
    List.Chain' (· < ·) (visitChain exLp exLi exLnz 4 (4 + 1 - 0) 0) :=
  ⟨by decide, (walk_termination exLp exLi exLnz 4 0 (by decide)).2.1⟩

theorem kernelLoop_eq_foldl (c : Ctx) (e : Nat) :
    ∀ fuel j st, kernelLoop c e fuel j st =
      (visitChain st.Lp st.Li st.Lnz e fuel j).foldl
        (fun s x => columnStep c e x s) st := by
  intro fuel
  induction fuel with
  | zero => intro j st; rfl
  | succ n ih =>
    intro j st
    rw [kernelLoop, visitChain]
    by_cases hj : j ≤ e
    · rw [if_pos hj, if_pos hj, List.foldl_cons, ih]
      simp only [columnStep_Lp, columnStep_Li, columnStep_Lnz]
    · rw [if_neg hj, if_neg hj]
      rfl

/-- C5: the core never aborts: the kernel's walk is exactly the fold of
the per-column sweep over the pattern-determined visit chain, so no
numeric event (in particular a non-positive pivot) can raise, stop or
shorten the sweep.  The exit indicator, modelled from the spec as a
boolean accumulated alongside the very same sweep, leaves the computed
factor untouched (the instrumented run returns the plain kernel result)
and is `false` exactly when no visited diagonal went non-positive. -/
theorem core_completes_with_status :
    (∀ (c : Ctx) (e fuel j : Nat) (st : UpState),
      kernelLoop c e fuel j st =
        (visitChain st.Lp st.Li st.Lnz e fuel j).foldl
          (fun s x => columnStep c e x s) st) ∧
    (∀ (c : Ctx) (j e : Nat) (st : UpState),
      (numkrStatus c j e st).1 = numkr c j e st) ∧
    (∀ (c : Ctx) (j e : Nat) (st : UpState),
      (numkrStatus c j e st).2 =
        flagsAny c e (visitChain st.Lp st.Li st.Lnz e (e + 1 - j) j) st) := by
  have hpair : ∀ (c : Ctx) (e : Nat) (l : List Nat) (st : UpState) (b : Bool),
      (l.foldl (statusStep c e) (st, b)).1 =
        l.foldl (fun s x => columnStep c e x s) st ∧
      (l.foldl (statusStep c e) (st, b)).2 = (b || flagsAny c e l st) := by
    intro c e l
    induction l with
    | nil =>
      intro st b
      exact ⟨rfl, by simp [flagsAny]⟩
    | cons x xs ih =>
      intro st b
      rw [List.foldl_cons, flagsAny]
      refine ⟨(ih _ _).1, ?_⟩
      rw [(ih _ _).2]
      unfold statusStep
      dsimp only
      rw [Bool.or_assoc]
  refine ⟨kernelLoop_eq_foldl, fun c j e st => ?_, fun c j e st => ?_⟩
  · rw [numkrStatus, (hpair c e _ st false).1, numkr, kernelLoop_eq_foldl]
  · rw [numkrStatus, (hpair c e _ st false).2, Bool.false_or]

end Updown
namespace Updown

theorem wcol_inj {wdim i i2 a b : Nat} (ha : a < wdim) (hb : b < wdim)
    (h : wdim * i + a = wdim * i2 + b) : a = b ∧ i = i2 := by
  have h1 : (wdim * i + a) % wdim = a := by
    rw [Nat.add_comm, Nat.add_mul_mod_self_left]
    exact Nat.mod_eq_of_lt ha
  have h2 : (wdim * i2 + b) % wdim = b := by
    rw [Nat.add_comm, Nat.add_mul_mod_self_left]
    exact Nat.mod_eq_of_lt hb
  have hab : a = b := by rw [← h1, h, h2]
  refine ⟨hab, ?_⟩
  subst hab
  have hmul : wdim * i = wdim * i2 := by omega
  exact Nat.eq_of_mul_eq_mul_left (by omega) hmul

theorem scatterColLoop_untouched (wdim : Nat) (Cm Dm : SpMat) (path : Nat)
    (mask : Option (Nat → ℤ)) (maskmark : ℤ) (qend idx : Nat) :
    ∀ n q st, qend - q ≤ n →
      (∀ p, q ≤ p → p < qend → maskPass mask maskmark (Cm.i p) = true →
        idx ≠ wdim * Cm.i p + path) →
      (scatterColLoop wdim Cm Dm path mask maskmark qend q st).WC idx = st.WC idx ∧
      (scatterColLoop wdim Cm Dm path mask maskmark qend q st).WD idx = st.WD idx := by
  intro n
  induction n with
  | zero =>
    intro q st h hw
    rw [scatterColLoop, dif_neg (by omega)]
    exact ⟨rfl, rfl⟩
  | succ n ih =>
    intro q st h hw
    rw [scatterColLoop]
    by_cases hc : q < qend
    · rw [dif_pos hc]
      dsimp only
      split
      · rename_i hm
        obtain ⟨h1, h2⟩ := ih (q + 1) _ (by omega)
          (fun p hp1 hp2 hmp => hw p (by omega) hp2 hmp)
        rw [h1, h2]
        exact ⟨upd_other _ _ (hw q le_rfl hc hm), upd_other _ _ (hw q le_rfl hc hm)⟩
      · exact ih (q + 1) st (by omega) (fun p hp1 hp2 hmp => hw p (by omega) hp2 hmp)
    · rw [dif_neg hc]
      exact ⟨rfl, rfl⟩

theorem scatterColLoop_hit (wdim : Nat) (Cm Dm : SpMat) (path : Nat)
    (mask : Option (Nat → ℤ)) (maskmark : ℤ) (qend pstar : Nat)
    (hw : 0 < wdim)
    (hm : maskPass mask maskmark (Cm.i pstar) = true)
    (hlast : ∀ p, p < qend → pstar < p → Cm.i p ≠ Cm.i pstar) :
    ∀ n q st, qend - q ≤ n → q ≤ pstar → pstar < qend →
      (scatterColLoop wdim Cm Dm path mask maskmark qend q st).WC
          (wdim * Cm.i pstar + path) = Cm.x pstar ∧
      (scatterColLoop wdim Cm Dm path mask maskmark qend q st).WD
          (wdim * Cm.i pstar + path) = Dm.x pstar := by
  intro n
  induction n with
  | zero =>
    intro q st h h1 h2
    omega
  | succ n ih =>
    intro q st h h1 h2
    have hc : q < qend := by omega
    rw [scatterColLoop, dif_pos hc]
    dsimp only
    by_cases hqp : q = pstar
    · subst hqp
      rw [if_pos hm]
      obtain ⟨u1, u2⟩ := scatterColLoop_untouched wdim Cm Dm path mask maskmark qend
        (wdim * Cm.i q + path) n (q + 1)
        { st with
          WC := upd st.WC (wdim * Cm.i q + path) (Cm.x q),
          WD := upd st.WD (wdim * Cm.i q + path) (Dm.x q) } (by omega)
        (fun p hp1 hp2 hmp he =>
          hlast p hp2 (by omega)
            (Nat.eq_of_mul_eq_mul_left hw (by omega)).symm)
      rw [u1, u2]
      exact ⟨upd_same _ _ _, upd_same _ _ _⟩
    · split <;> exact ih (q + 1) _ (by omega) (by omega) h2

theorem scatterColLoop_sweep {β : Type} {g : UpState → β} (hg : SweepProj g)
    (wdim : Nat) (Cm Dm : SpMat) (path : Nat) (mask : Option (Nat → ℤ))
    (maskmark : ℤ) (qend : Nat) :
    ∀ p st, g (scatterColLoop wdim Cm Dm path mask maskmark qend p st) = g st := by
  have H : ∀ n p st, qend - p ≤ n →
      g (scatterColLoop wdim Cm Dm path mask maskmark qend p st) = g st := by
    intro n
    induction n with
    | zero =>
      intro p st h
      rw [scatterColLoop, dif_neg (by omega)]
    | succ n ih =>
      intro p st h
      rw [scatterColLoop]
      by_cases hc : p < qend
      · rw [dif_pos hc, ih _ _ (by omega)]
        split
        · exact hg _ _ _ _
        · rfl
      · rw [dif_neg hc]
  exact fun p st => H (qend - p) p st le_rfl

theorem sweepProj_AC : SweepProj (fun st => st.AC) := fun _ _ _ _ => rfl

theorem sweepProj_AD : SweepProj (fun st => st.AD) := fun _ _ _ _ => rfl

theorem scatterColLoop_AC (wdim : Nat) (Cm Dm : SpMat) (path : Nat)
    (mask : Option (Nat → ℤ)) (maskmark : ℤ) (qend p : Nat) (st : UpState) :
    (scatterColLoop wdim Cm Dm path mask maskmark qend p st).AC = st.AC :=
  scatterColLoop_sweep sweepProj_AC wdim Cm Dm path mask maskmark qend p st

theorem scatterColLoop_AD (wdim : Nat) (Cm Dm : SpMat) (path : Nat)
    (mask : Option (Nat → ℤ)) (maskmark : ℤ) (qend p : Nat) (st : UpState) :
    (scatterColLoop wdim Cm Dm path mask maskmark qend p st).AD = st.AD :=
  scatterColLoop_sweep sweepProj_AD wdim Cm Dm path mask maskmark qend p st

theorem scatterColLoop_Dx_only (wdim : Nat) (Cm Dm Dm2 : SpMat) (path : Nat)
    (mask : Option (Nat → ℤ)) (maskmark : ℤ) (qend : Nat)
    (hD : Dm.x = Dm2.x) :
    ∀ p st, scatterColLoop wdim Cm Dm path mask maskmark qend p st =
      scatterColLoop wdim Cm Dm2 path mask maskmark qend p st := by
  have H : ∀ n p st, qend - p ≤ n →
      scatterColLoop wdim Cm Dm path mask maskmark qend p st =
        scatterColLoop wdim Cm Dm2 path mask maskmark qend p st := by
    intro n
    induction n with
    | zero =>
      intro p st h
      conv_lhs => rw [scatterColLoop]
      conv_rhs => rw [scatterColLoop]
      rw [dif_neg (show ¬ p < qend by omega), dif_neg (show ¬ p < qend by omega)]
    | succ n ih =>
      intro p st h
      conv_lhs => rw [scatterColLoop]
      conv_rhs => rw [scatterColLoop]
      by_cases hc : p < qend
      · rw [dif_pos hc, dif_pos hc]
        dsimp only
        rw [hD, ih _ _ (by omega)]
      · rw [dif_neg hc, dif_neg hc]
  exact fun p st => H (qend - p) p st le_rfl

theorem scatterStage_succ (wdim : Nat) (Cm Dm : SpMat) (Paths : Nat → PathT)
    (n : Nat) (mask : Option (Nat → ℤ)) (maskmark : ℤ) (st : UpState) :
    scatterStage wdim Cm Dm Paths (n + 1) mask maskmark st =
      scatterPath wdim Cm Dm Paths mask maskmark n
        (scatterStage wdim Cm Dm Paths n mask maskmark st) := by
  unfold scatterStage
  rw [List.range_succ, List.foldl_append]
  rfl

theorem scatterStage_alpha (wdim : Nat) (Cm Dm : SpMat) (Paths : Nat → PathT)
    (mask : Option (Nat → ℤ)) (maskmark : ℤ) :
    ∀ rank st path, path < rank →
      (scatterStage wdim Cm Dm Paths rank mask maskmark st).AC path = 1 ∧
      (scatterStage wdim Cm Dm Paths rank mask maskmark st).AD path = 1 := by
  intro rank
  induction rank with
  | zero =>
    intro st path h
    omega
  | succ n ih =>
    intro st path h
    rw [scatterStage_succ]
    unfold scatterPath
    by_cases hp : path = n
    · subst hp
      exact ⟨upd_same _ _ _, upd_same _ _ _⟩
    · dsimp only
      rw [upd_other _ _ hp, upd_other _ _ hp, scatterColLoop_AC, scatterColLoop_AD]
      exact ih st path (by omega)

theorem scatterStage_w_hit (wdim : Nat) (Cm Dm : SpMat) (Paths : Nat → PathT)
    (mask : Option (Nat → ℤ)) (maskmark : ℤ) (hw : 0 < wdim) :
    ∀ rank st path, path < rank → rank ≤ wdim →
    ∀ pstar, Cm.p (Paths path).ccol ≤ pstar → pstar < colEnd Cm (Paths path).ccol →
      maskPass mask maskmark (Cm.i pstar) = true →
      (∀ p, p < colEnd Cm (Paths path).ccol → pstar < p → Cm.i p ≠ Cm.i pstar) →
      (scatterStage wdim Cm Dm Paths rank mask maskmark st).WC
          (wdim * Cm.i pstar + path) = Cm.x pstar ∧
      (scatterStage wdim Cm Dm Paths rank mask maskmark st).WD
          (wdim * Cm.i pstar + path) = Dm.x pstar := by
  intro rank
  induction rank with
  | zero =>
    intro st path h
    omega
  | succ n ih =>
    intro st path h hr pstar hq1 hq2 hmp hlast
    rw [scatterStage_succ]
    unfold scatterPath
    dsimp only
    by_cases hp : path = n
    · subst hp
      exact scatterColLoop_hit wdim Cm Dm path mask maskmark _ pstar hw hmp hlast
        _ _ _ le_rfl hq1 hq2
    · obtain ⟨u1, u2⟩ := scatterColLoop_untouched wdim Cm Dm n mask maskmark
        (colEnd Cm (Paths n).ccol) (wdim * Cm.i pstar + path) _ (Cm.p (Paths n).ccol)
        (scatterStage wdim Cm Dm Paths n mask maskmark st) le_rfl
        (fun p hp1 hp2 hmp2 he =>
          hp (wcol_inj (by omega) (by omega) he).1)
      rw [u1, u2]
      exact ih st path (by omega) (by omega) pstar hq1 hq2 hmp hlast

theorem scatterStage_untouched (wdim : Nat) (Cm Dm : SpMat) (Paths : Nat → PathT)
    (mask : Option (Nat → ℤ)) (maskmark : ℤ) :
    ∀ rank st idx,
      (∀ path2, path2 < rank → ∀ p, p < colEnd Cm (Paths path2).ccol →
        Cm.p (Paths path2).ccol ≤ p → maskPass mask maskmark (Cm.i p) = true →
        idx ≠ wdim * Cm.i p + path2) →
      (scatterStage wdim Cm Dm Paths rank mask maskmark st).WC idx = st.WC idx ∧
      (scatterStage wdim Cm Dm Paths rank mask maskmark st).WD idx = st.WD idx := by
  intro rank
  induction rank with
  | zero =>
    intro st idx h
    exact ⟨rfl, rfl⟩
  | succ n ih =>
    intro st idx h
    rw [scatterStage_succ]
    unfold scatterPath
    dsimp only
    obtain ⟨u1, u2⟩ := scatterColLoop_untouched wdim Cm Dm n mask maskmark
      (colEnd Cm (Paths n).ccol) idx _ (Cm.p (Paths n).ccol)
      (scatterStage wdim Cm Dm Paths n mask maskmark st) le_rfl
      (fun p hp1 hp2 hmp => h n (by omega) p hp2 hp1 hmp)
    rw [u1, u2]
    exact ih st idx (fun path2 hp2 => h path2 (by omega))

end Updown

namespace Updown

theorem scatterStage_Dx_only (wdim : Nat) (Cm Dm Dm2 : SpMat) (Paths : Nat → PathT)
    (mask : Option (Nat → ℤ)) (maskmark : ℤ) (hD : Dm.x = Dm2.x) :
    ∀ rank st, scatterStage wdim Cm Dm Paths rank mask maskmark st =
      scatterStage wdim Cm Dm2 Paths rank mask maskmark st := by
  intro rank
  induction rank with
  | zero => intro st; rfl
  | succ n ih =>
    intro st
    rw [scatterStage_succ, scatterStage_succ, ih]
    unfold scatterPath
    dsimp only
    rw [scatterColLoop_Dx_only wdim Cm Dm Dm2 n mask maskmark _ hD]

/-- C7: for each leaf path descriptor `path` in `[0, rank)` the scatter
stage stores `Cx [p]` into `W [wdim * Ci [p] + path]` for exactly the
positions `p` of column `Path [path].ccol` of C whose row passes the
mask test (`mask == NULL` or `mask [i] < maskmark`); every other entry
of W (and of WD) is left unchanged - in particular the rows with
`mask [i] >= maskmark`; and afterwards `AlphaC [path] = AlphaD [path] =
1`. -/
theorem scatter_stage_spec (wdim rank : Nat) (Cm Dm : SpMat) (Paths : Nat → PathT)
    (mask : Option (Nat → ℤ)) (maskmark : ℤ) (st : UpState)
    (hw : 0 < wdim) (hr : rank ≤ wdim) :
    (∀ path, path < rank →
      (scatterStage wdim Cm Dm Paths rank mask maskmark st).AC path = 1 ∧
      (scatterStage wdim Cm Dm Paths rank mask maskmark st).AD path = 1) ∧
    (∀ path, path < rank → ∀ pstar,
      Cm.p (Paths path).ccol ≤ pstar → pstar < colEnd Cm (Paths path).ccol →
      maskPass mask maskmark (Cm.i pstar) = true →
      (∀ p, p < colEnd Cm (Paths path).ccol → pstar < p → Cm.i p ≠ Cm.i pstar) →
      (scatterStage wdim Cm Dm Paths rank mask maskmark st).WC
        (wdim * Cm.i pstar + path) = Cm.x pstar) ∧
    (∀ idx,
      (∀ path2, path2 < rank → ∀ p, p < colEnd Cm (Paths path2).ccol →
        Cm.p (Paths path2).ccol ≤ p → maskPass mask maskmark (Cm.i p) = true →
        idx ≠ wdim * Cm.i p + path2) →
      (scatterStage wdim Cm Dm Paths rank mask maskmark st).WC idx = st.WC idx ∧
      (scatterStage wdim Cm Dm Paths rank mask maskmark st).WD idx = st.WD idx) := by
  refine ⟨fun path hp => scatterStage_alpha wdim Cm Dm Paths mask maskmark rank st path hp,
    fun path hp pstar h1 h2 h3 h4 => ?_,
    fun idx hidx => scatterStage_untouched wdim Cm Dm Paths mask maskmark rank st idx hidx⟩
  exact (scatterStage_w_hit wdim Cm Dm Paths mask maskmark hw rank st path hp hr
    pstar h1 h2 h3 h4).1

/-- Witness for C7 at the concrete two-column scatter: row 0 of column 0
passes the mask and lands in `W (2*0 + 0)`. -/
theorem scatter_stage_spec_witness :
    0 < 2 ∧
    (scatterStage 2 exC exD exPaths 2 exMask 3 exSt).WC (2 * exC.i 0 + 0) = exC.x 0 :=
  ⟨by norm_num,
   (scatter_stage_spec 2 2 exC exD exPaths exMask 3 exSt (by norm_num) le_rfl).2.1 0
     (by norm_num) 0 (by decide) (by decide) (by decide) (by decide)⟩

/-- C10: the scatter stage reads nothing of D's pattern: the whole call
result is unchanged under any replacement of D's `p`, `i`, `nz` and
`packed` fields that keeps `Dx`; and each scattered D value is stored
at the row taken from C's pattern, `WD [wdim * Ci [p] + path] = Dx [p]`,
under the same mask decision as the C entry. -/
theorem scatter_ignores_D_pattern :
    (∀ (wdim : Nat) (Cm Dm Dm2 : SpMat) (rank : Nat) (Paths : Nat → PathT)
      (npaths : Nat) (mask : Option (Nat → ℤ)) (maskmark : ℤ) (db : ℚ)
      (st : UpState), Dm.x = Dm2.x →
      updown2r wdim Cm Dm rank Paths npaths mask maskmark db st =
        updown2r wdim Cm Dm2 rank Paths npaths mask maskmark db st) ∧
    (∀ (wdim rank : Nat) (Cm Dm : SpMat) (Paths : Nat → PathT)
      (mask : Option (Nat → ℤ)) (maskmark : ℤ) (st : UpState),
      0 < wdim → rank ≤ wdim →
      ∀ path, path < rank → ∀ pstar,
        Cm.p (Paths path).ccol ≤ pstar → pstar < colEnd Cm (Paths path).ccol →
        maskPass mask maskmark (Cm.i pstar) = true →
        (∀ p, p < colEnd Cm (Paths path).ccol → pstar < p → Cm.i p ≠ Cm.i pstar) →
        (scatterStage wdim Cm Dm Paths rank mask maskmark st).WD
          (wdim * Cm.i pstar + path) = Dm.x pstar) := by
  constructor
  · intro wdim Cm Dm Dm2 rank Paths npaths mask maskmark db st hD
    unfold updown2r
    rw [scatterStage_Dx_only wdim Cm Dm Dm2 Paths mask maskmark hD]
  · intro wdim rank Cm Dm Paths mask maskmark st hw hr path hp pstar h1 h2 h3 h4
    exact (scatterStage_w_hit wdim Cm Dm Paths mask maskmark hw rank st path hp hr
      pstar h1 h2 h3 h4).2

/-- Witness for C10: scrambling the pattern of `exD` while keeping its
values leaves the whole call unchanged. -/
theorem scatter_ignores_D_pattern_witness :
    exD.x = exD2.x ∧
    updown2r 2 exC exD 2 exPaths 2 exMask 3 0 exSt =
      updown2r 2 exC exD2 2 exPaths 2 exMask 3 0 exSt :=
  ⟨rfl, scatter_ignores_D_pattern.1 2 exC exD exD2 2 exPaths 2 exMask 3 0 exSt rfl⟩

end Updown

namespace Updown


theorem upd_eq_self {α : Type} (f : Nat → α) (i : Nat) : upd f i (f i) = f := by
  funext x
  by_cases h : x = i <;> simp [upd, h]

theorem upd_upd_same {α : Type} (f : Nat → α) (i : Nat) (v w : α) :
    upd (upd f i v) i w = upd f i w := by
  funext x
  by_cases h : x = i <;> simp [upd, h]

theorem upd_comm {α : Type} (f : Nat → α) {i j : Nat} (h : i ≠ j) (v w : α) :
    upd (upd f i v) j w = upd (upd f j w) i v := by
  funext x
  by_cases hi : x = i <;> by_cases hj : x = j
  · exact absurd (hi.symm.trans hj) h
  · subst hi
    simp [upd, hj, h, Ne.symm h]
  · subst hj
    simp [upd, hi, h, Ne.symm h]
  · simp [upd, hi, hj]

theorem upd_collapse2 {α : Type} (f : Nat → α) {p0 p1 : Nat} (h : p0 ≠ p1)
    (v0 v1 a b : α) :
    upd (upd (upd (upd f p0 v0) p1 v1) p0 a) p1 b = upd (upd f p0 a) p1 b := by
  funext x
  by_cases h1 : x = p1
  · subst h1
    simp [upd, Ne.symm h]
  · by_cases h0 : x = p0
    · subst h0
      simp [upd, h1]
    · simp [upd, h0, h1]

theorem upd_collapse3 {α : Type} (f : Nat → α) {p0 p1 p2 : Nat}
    (h01 : p0 ≠ p1) (h02 : p0 ≠ p2) (h12 : p1 ≠ p2)
    (v0 v1 v2 a b d : α) :
    upd (upd (upd (upd (upd (upd f p0 v0) p1 v1) p2 v2) p0 a) p1 b) p2 d =
      upd (upd (upd f p0 a) p1 b) p2 d := by
  funext x
  by_cases h0 : x = p0 <;> by_cases h1 : x = p1 <;> by_cases h2 : x = p2 <;>
    simp_all [upd]

theorem upd_collapse4 {α : Type} (f : Nat → α) {p0 p1 p2 p3 : Nat}
    (h01 : p0 ≠ p1) (h02 : p0 ≠ p2) (h03 : p0 ≠ p3)
    (h12 : p1 ≠ p2) (h13 : p1 ≠ p3) (h23 : p2 ≠ p3)
    (v0 v1 v2 v3 a b d e : α) :
    upd (upd (upd (upd (upd (upd (upd (upd f p0 v0) p1 v1) p2 v2) p3 v3)
        p0 a) p1 b) p2 d) p3 e =
      upd (upd (upd (upd f p0 a) p1 b) p2 d) p3 e := by
  funext x
  by_cases h0 : x = p0 <;> by_cases h1 : x = p1 <;> by_cases h2 : x = p2 <;>
    by_cases h3 : x = p3 <;> simp_all [upd]

theorem wcIdx_ne_row (c : Ctx) {i0 i1 : Nat} (h : i0 ≠ i1)
    {k k' : Nat} (hk : k < c.wdim) (hk' : k' < c.wdim) :
    wcIdx c i0 k ≠ wcIdx c i1 k' := by
  intro he
  unfold wcIdx at he
  exact h (wcol_inj hk hk' (by omega)).2

theorem wcIdx_ne_row_same (c : Ctx) {i0 i1 : Nat} (h : i0 ≠ i1)
    (hw : 0 < c.wdim) (k : Nat) : wcIdx c i0 k ≠ wcIdx c i1 k := by
  intro he
  unfold wcIdx at he
  exact h (Nat.eq_of_mul_eq_mul_left hw (by omega))

@[simp] theorem rowK_Li (c : Ctx) (g0 : ZG) (i p k : Nat) (st : UpState) :
    (rowK c g0 i p k st).Li = st.Li := rfl

@[simp] theorem rowK_Lp (c : Ctx) (g0 : ZG) (i p k : Nat) (st : UpState) :
    (rowK c g0 i p k st).Lp = st.Lp := rfl

@[simp] theorem rowK_Lnz (c : Ctx) (g0 : ZG) (i p k : Nat) (st : UpState) :
    (rowK c g0 i p k st).Lnz = st.Lnz := rfl

@[simp] theorem rowK_AC (c : Ctx) (g0 : ZG) (i p k : Nat) (st : UpState) :
    (rowK c g0 i p k st).AC = st.AC := rfl

@[simp] theorem rowK_AD (c : Ctx) (g0 : ZG) (i p k : Nat) (st : UpState) :
    (rowK c g0 i p k st).AD = st.AD := rfl

theorem regfold_emb {β σ : Type} (emb : β → σ) (G : σ → Nat → σ)
    (F : β → Nat → β) (hF : ∀ (s : β) (k : Nat), G (emb s) k = emb (F s k)) :
    ∀ (ks : List Nat) (s : β), ks.foldl G (emb s) = emb (ks.foldl F s) := by
  intro ks
  induction ks with
  | nil => intro s; rfl
  | cons k ks ih =>
    intro s
    rw [List.foldl_cons, List.foldl_cons, hF s k, ih (F s k)]

theorem foldl_hoist {σ : Type} (A B : Nat → σ → σ) :
    ∀ (l : List Nat) (k : Nat) (s : σ),
      (∀ k', k' ∈ l → ∀ t, A k (B k' t) = B k' (A k t)) →
      l.foldl (fun t k' => B k' t) (A k s) =
        A k (l.foldl (fun t k' => B k' t) s) := by
  intro l
  induction l with
  | nil => intro k s _; rfl
  | cons k' l ih =>
    intro k s h
    rw [List.foldl_cons, List.foldl_cons, ← h k' (by simp) s,
      ih k (B k' s) (fun k2 h2 t => h k2 (by simp [h2]) t)]

theorem foldl_split {σ : Type} (F G : Nat → σ → σ) :
    ∀ (l : List Nat) (s : σ),
      (∀ k, k ∈ l → ∀ k', k' ∈ l → ∀ t, G k' (F k t) = F k (G k' t)) →
      l.foldl (fun t k => G k (F k t)) s =
        l.foldl (fun t k => G k t) (l.foldl (fun t k => F k t) s) := by
  intro l
  induction l with
  | nil => intro s _; rfl
  | cons k l ih =>
    intro s h
    rw [List.foldl_cons, List.foldl_cons, List.foldl_cons]
    rw [ih (G k (F k s)) (fun a ha b hb t => h a (by simp [ha]) b (by simp [hb]) t)]
    congr 1
    exact foldl_hoist G F l k (F k s)
      (fun k' hk' t => h k' (by simp [hk']) k (by simp) t)

theorem foldl_congr_of_inv {σ : Type} (P : σ → Prop) (G G' : σ → Nat → σ) :
    ∀ (l : List Nat) (s : σ),
      (∀ (t : σ) (k : Nat), k ∈ l → P t → G t k = G' t k) →
      (∀ (t : σ) (k : Nat), k ∈ l → P t → P (G t k)) → P s →
      l.foldl G s = l.foldl G' s := by
  intro l
  induction l with
  | nil => intro s _ _ _; rfl
  | cons k l ih =>
    intro s h hP hs
    rw [List.foldl_cons, List.foldl_cons, ← h s k (by simp) hs]
    exact ih (G s k) (fun t k2 h2 ht => h t k2 (by simp [h2]) ht)
      (fun t k2 h2 ht => hP t k2 (by simp [h2]) ht)
      (hP s k (by simp) hs)

theorem rowK_comm (c : Ctx) (g0 g1 : ZG) {i i' p p' : Nat} (hi : i ≠ i')
    (hp : p ≠ p') {k k' : Nat} (hk : k < c.wdim) (hk' : k' < c.wdim)
    (st : UpState) :
    rowK c g1 i' p' k' (rowK c g0 i p k st) =
      rowK c g0 i p k (rowK c g1 i' p' k' st) := by
  have hA : wcIdx c i' k' ≠ wcIdx c i k := wcIdx_ne_row c (Ne.symm hi) hk' hk
  have hA' : wcIdx c i k ≠ wcIdx c i' k' := wcIdx_ne_row c hi hk hk'
  unfold rowK
  dsimp only
  simp only [upd_other _ _ hA, upd_other _ _ hA', upd_other _ _ hp,
    upd_other _ _ (Ne.symm hp)]
  rw [upd_comm st.WC hA', upd_comm st.WD hA', upd_comm st.Lx hp]

theorem case1F_collapse (c : Ctx) (g0 : ZG) (i p0 : Nat) (s : ℚ × UpState)
    (k : Nat) :
    rowK c g0 i p0 k (emb1 p0 s) = emb1 p0 (case1F c g0 i s k) := by
  unfold rowK emb1 case1F
  dsimp only
  simp only [upd_same, upd_upd_same]

theorem case2F_collapse (c : Ctx) (g0 : ZG) {i0 i1 : Nat} (hi : i0 ≠ i1)
    (h0 : 0 < c.wdim) (p0 : Nat) (s : ℚ × ℚ × UpState) (k : Nat) :
    rowK c g0 i1 (p0 + 1) k (rowK c g0 i0 p0 k (emb2 p0 s)) =
      emb2 p0 (case2F c g0 i0 i1 s k) := by
  have hp : p0 ≠ p0 + 1 := by omega
  have hA : wcIdx c i0 k ≠ wcIdx c i1 k := wcIdx_ne_row_same c hi h0 k
  unfold rowK emb2 case2F
  dsimp only
  simp only [upd_same, upd_upd_same, upd_other _ _ hA, upd_other _ _ (Ne.symm hA),
    upd_other _ _ hp, upd_other _ _ (Ne.symm hp), upd_collapse2 _ hp]

theorem case3F_collapse (c : Ctx) (g0 : ZG) {i0 i1 i2 : Nat}
    (h01 : i0 ≠ i1) (h02 : i0 ≠ i2) (h12 : i1 ≠ i2)
    (h0 : 0 < c.wdim) (p0 : Nat) (s : ℚ × ℚ × ℚ × UpState) (k : Nat) :
    rowK c g0 i2 (p0 + 2) k (rowK c g0 i1 (p0 + 1) k
        (rowK c g0 i0 p0 k (emb3 p0 s))) =
      emb3 p0 (case3F c g0 i0 i1 i2 s k) := by
  have hp01 : p0 ≠ p0 + 1 := by omega
  have hp02 : p0 ≠ p0 + 2 := by omega
  have hp12 : p0 + 1 ≠ p0 + 2 := by omega
  have hA01 : wcIdx c i0 k ≠ wcIdx c i1 k := wcIdx_ne_row_same c h01 h0 k
  have hA02 : wcIdx c i0 k ≠ wcIdx c i2 k := wcIdx_ne_row_same c h02 h0 k
  have hA12 : wcIdx c i1 k ≠ wcIdx c i2 k := wcIdx_ne_row_same c h12 h0 k
  unfold rowK emb3 case3F
  dsimp only
  simp only [upd_same, upd_upd_same,
    upd_other _ _ hA01, upd_other _ _ (Ne.symm hA01),
    upd_other _ _ hA02, upd_other _ _ (Ne.symm hA02),
    upd_other _ _ hA12, upd_other _ _ (Ne.symm hA12),
    upd_other _ _ hp01, upd_other _ _ (Ne.symm hp01),
    upd_other _ _ hp02, upd_other _ _ (Ne.symm hp02),
    upd_other _ _ hp12, upd_other _ _ (Ne.symm hp12),
    upd_collapse3 _ hp01 hp02 hp12]

theorem case4F_collapse (c : Ctx) (g0 : ZG) {i0 i1 i2 i3 : Nat}
    (h01 : i0 ≠ i1) (h02 : i0 ≠ i2) (h03 : i0 ≠ i3)
    (h12 : i1 ≠ i2) (h13 : i1 ≠ i3) (h23 : i2 ≠ i3)
    (h0 : 0 < c.wdim) (p0 : Nat) (s : ℚ × ℚ × ℚ × ℚ × UpState) (k : Nat) :
    rowK c g0 i3 (p0 + 3) k (rowK c g0 i2 (p0 + 2) k (rowK c g0 i1 (p0 + 1) k
        (rowK c g0 i0 p0 k (emb4 p0 s)))) =
      emb4 p0 (case4F c g0 i0 i1 i2 i3 s k) := by
  have hp01 : p0 ≠ p0 + 1 := by omega
  have hp02 : p0 ≠ p0 + 2 := by omega
  have hp03 : p0 ≠ p0 + 3 := by omega
  have hp12 : p0 + 1 ≠ p0 + 2 := by omega
  have hp13 : p0 + 1 ≠ p0 + 3 := by omega
  have hp23 : p0 + 2 ≠ p0 + 3 := by omega
  have hA01 : wcIdx c i0 k ≠ wcIdx c i1 k := wcIdx_ne_row_same c h01 h0 k
  have hA02 : wcIdx c i0 k ≠ wcIdx c i2 k := wcIdx_ne_row_same c h02 h0 k
  have hA03 : wcIdx c i0 k ≠ wcIdx c i3 k := wcIdx_ne_row_same c h03 h0 k
  have hA12 : wcIdx c i1 k ≠ wcIdx c i2 k := wcIdx_ne_row_same c h12 h0 k
  have hA13 : wcIdx c i1 k ≠ wcIdx c i3 k := wcIdx_ne_row_same c h13 h0 k
  have hA23 : wcIdx c i2 k ≠ wcIdx c i3 k := wcIdx_ne_row_same c h23 h0 k
  unfold rowK emb4 case4F
  dsimp only
  simp only [upd_same, upd_upd_same,
    upd_other _ _ hA01, upd_other _ _ (Ne.symm hA01),
    upd_other _ _ hA02, upd_other _ _ (Ne.symm hA02),
    upd_other _ _ hA03, upd_other _ _ (Ne.symm hA03),
    upd_other _ _ hA12, upd_other _ _ (Ne.symm hA12),
    upd_other _ _ hA13, upd_other _ _ (Ne.symm hA13),
    upd_other _ _ hA23, upd_other _ _ (Ne.symm hA23),
    upd_other _ _ hp01, upd_other _ _ (Ne.symm hp01),
    upd_other _ _ hp02, upd_other _ _ (Ne.symm hp02),
    upd_other _ _ hp03, upd_other _ _ (Ne.symm hp03),
    upd_other _ _ hp12, upd_other _ _ (Ne.symm hp12),
    upd_other _ _ hp13, upd_other _ _ (Ne.symm hp13),
    upd_other _ _ hp23, upd_other _ _ (Ne.symm hp23),
    upd_collapse4 _ hp01 hp02 hp03 hp12 hp13 hp23]


theorem case1Body_eq (c : Ctx) (g0 : ZG) (p0 : Nat) (st : UpState) :
    case1Body c g0 p0 st = rowOp c g0 (st.Li p0) p0 st := by
  have e0 : case1Body c g0 p0 st =
      emb1 p0 ((List.range c.rank).foldl (case1F c g0 (st.Li p0))
        (st.Lx p0, st)) := rfl
  rw [e0, ← regfold_emb (emb1 p0)
    (fun t k => rowK c g0 (st.Li p0) p0 k t)
    (case1F c g0 (st.Li p0))
    (fun s k => case1F_collapse c g0 (st.Li p0) p0 s k)
    (List.range c.rank) (st.Lx p0, st)]
  have e1 : emb1 p0 (st.Lx p0, st) = st := by
    unfold emb1
    dsimp only
    rw [upd_eq_self]
  rw [e1]
  rfl

theorem case2Body_eq (c : Ctx) (g0 : ZG) (p0 : Nat) (st : UpState)
    (h0 : 0 < c.wdim) (hr : c.rank ≤ c.wdim)
    (hi : st.Li p0 ≠ st.Li (p0 + 1)) :
    case2Body c g0 p0 st =
      rowOp c g0 (st.Li (p0 + 1)) (p0 + 1) (rowOp c g0 (st.Li p0) p0 st) := by
  have e0 : case2Body c g0 p0 st =
      emb2 p0 ((List.range c.rank).foldl
        (case2F c g0 (st.Li p0) (st.Li (p0 + 1)))
        (st.Lx p0, st.Lx (p0 + 1), st)) := rfl
  rw [e0, ← regfold_emb (emb2 p0)
    (fun t k => rowK c g0 (st.Li (p0 + 1)) (p0 + 1) k (rowK c g0 (st.Li p0) p0 k t))
    (case2F c g0 (st.Li p0) (st.Li (p0 + 1)))
    (fun s k => case2F_collapse c g0 hi h0 p0 s k)
    (List.range c.rank) (st.Lx p0, st.Lx (p0 + 1), st)]
  have e1 : emb2 p0 (st.Lx p0, st.Lx (p0 + 1), st) = st := by
    unfold emb2
    dsimp only
    rw [upd_eq_self, upd_eq_self]
  rw [e1]
  rw [foldl_split (fun k t => rowK c g0 (st.Li p0) p0 k t)
    (fun k t => rowK c g0 (st.Li (p0 + 1)) (p0 + 1) k t)
    (List.range c.rank) st
    (fun k hk k' hk' t => rowK_comm c g0 g0 hi (by omega)
      (Nat.lt_of_lt_of_le (List.mem_range.mp hk) hr)
      (Nat.lt_of_lt_of_le (List.mem_range.mp hk') hr) t)]
  rfl

theorem case3Body_eq (c : Ctx) (g0 : ZG) (p0 : Nat) (st : UpState)
    (h0 : 0 < c.wdim) (hr : c.rank ≤ c.wdim)
    (h01 : st.Li p0 ≠ st.Li (p0 + 1)) (h02 : st.Li p0 ≠ st.Li (p0 + 2))
    (h12 : st.Li (p0 + 1) ≠ st.Li (p0 + 2)) :
    case3Body c g0 p0 st =
      rowOp c g0 (st.Li (p0 + 2)) (p0 + 2)
        (rowOp c g0 (st.Li (p0 + 1)) (p0 + 1)
          (rowOp c g0 (st.Li p0) p0 st)) := by
  have e0 : case3Body c g0 p0 st =
      emb3 p0 ((List.range c.rank).foldl
        (case3F c g0 (st.Li p0) (st.Li (p0 + 1)) (st.Li (p0 + 2)))
        (st.Lx p0, st.Lx (p0 + 1), st.Lx (p0 + 2), st)) := rfl
  rw [e0, ← regfold_emb (emb3 p0)
    (fun t k => rowK c g0 (st.Li (p0 + 2)) (p0 + 2) k
      (rowK c g0 (st.Li (p0 + 1)) (p0 + 1) k (rowK c g0 (st.Li p0) p0 k t)))
    (case3F c g0 (st.Li p0) (st.Li (p0 + 1)) (st.Li (p0 + 2)))
    (fun s k => case3F_collapse c g0 h01 h02 h12 h0 p0 s k)
    (List.range c.rank) (st.Lx p0, st.Lx (p0 + 1), st.Lx (p0 + 2), st)]
  have e1 : emb3 p0 (st.Lx p0, st.Lx (p0 + 1), st.Lx (p0 + 2), st) = st := by
    unfold emb3
    dsimp only
    rw [upd_eq_self, upd_eq_self, upd_eq_self]
  rw [e1]
  rw [foldl_split
    (fun k t => rowK c g0 (st.Li (p0 + 1)) (p0 + 1) k (rowK c g0 (st.Li p0) p0 k t))
    (fun k t => rowK c g0 (st.Li (p0 + 2)) (p0 + 2) k t)
    (List.range c.rank) st
    (fun k hk k' hk' t =>
      (rowK_comm c g0 g0 h12 (by omega)
        (Nat.lt_of_lt_of_le (List.mem_range.mp hk) hr)
        (Nat.lt_of_lt_of_le (List.mem_range.mp hk') hr)
        (rowK c g0 (st.Li p0) p0 k t)).trans
      (congrArg (rowK c g0 (st.Li (p0 + 1)) (p0 + 1) k)
        (rowK_comm c g0 g0 h02 (by omega)
          (Nat.lt_of_lt_of_le (List.mem_range.mp hk) hr)
          (Nat.lt_of_lt_of_le (List.mem_range.mp hk') hr) t)))]
  rw [foldl_split (fun k t => rowK c g0 (st.Li p0) p0 k t)
    (fun k t => rowK c g0 (st.Li (p0 + 1)) (p0 + 1) k t)
    (List.range c.rank) st
    (fun k hk k' hk' t => rowK_comm c g0 g0 h01 (by omega)
      (Nat.lt_of_lt_of_le (List.mem_range.mp hk) hr)
      (Nat.lt_of_lt_of_le (List.mem_range.mp hk') hr) t)]
  rfl

theorem case4Body_eq (c : Ctx) (g0 : ZG) (p0 : Nat) (st : UpState)
    (h0 : 0 < c.wdim) (hr : c.rank ≤ c.wdim)
    (h01 : st.Li p0 ≠ st.Li (p0 + 1)) (h02 : st.Li p0 ≠ st.Li (p0 + 2))
    (h03 : st.Li p0 ≠ st.Li (p0 + 3)) (h12 : st.Li (p0 + 1) ≠ st.Li (p0 + 2))
    (h13 : st.Li (p0 + 1) ≠ st.Li (p0 + 3))
    (h23 : st.Li (p0 + 2) ≠ st.Li (p0 + 3)) :
    case4Body c g0 p0 st =
      rowOp c g0 (st.Li (p0 + 3)) (p0 + 3)
        (rowOp c g0 (st.Li (p0 + 2)) (p0 + 2)
          (rowOp c g0 (st.Li (p0 + 1)) (p0 + 1)
            (rowOp c g0 (st.Li p0) p0 st))) := by
  have e0 : case4Body c g0 p0 st =
      emb4 p0 ((List.range c.rank).foldl
        (case4F c g0 (st.Li p0) (st.Li (p0 + 1)) (st.Li (p0 + 2)) (st.Li (p0 + 3)))
        (st.Lx p0, st.Lx (p0 + 1), st.Lx (p0 + 2), st.Lx (p0 + 3), st)) := rfl
  rw [e0, ← regfold_emb (emb4 p0)
    (fun t k => rowK c g0 (st.Li (p0 + 3)) (p0 + 3) k
      (rowK c g0 (st.Li (p0 + 2)) (p0 + 2) k
        (rowK c g0 (st.Li (p0 + 1)) (p0 + 1) k (rowK c g0 (st.Li p0) p0 k t))))
    (case4F c g0 (st.Li p0) (st.Li (p0 + 1)) (st.Li (p0 + 2)) (st.Li (p0 + 3)))
    (fun s k => case4F_collapse c g0 h01 h02 h03 h12 h13 h23 h0 p0 s k)
    (List.range c.rank)
    (st.Lx p0, st.Lx (p0 + 1), st.Lx (p0 + 2), st.Lx (p0 + 3), st)]
  have e1 : emb4 p0 (st.Lx p0, st.Lx (p0 + 1), st.Lx (p0 + 2), st.Lx (p0 + 3), st) =
      st := by
    unfold emb4
    dsimp only
    rw [upd_eq_self, upd_eq_self, upd_eq_self, upd_eq_self]
  rw [e1]
  rw [foldl_split
    (fun k t => rowK c g0 (st.Li (p0 + 2)) (p0 + 2) k
      (rowK c g0 (st.Li (p0 + 1)) (p0 + 1) k (rowK c g0 (st.Li p0) p0 k t)))
    (fun k t => rowK c g0 (st.Li (p0 + 3)) (p0 + 3) k t)
    (List.range c.rank) st
    (fun k hk k' hk' t =>
      (rowK_comm c g0 g0 h23 (by omega)
        (Nat.lt_of_lt_of_le (List.mem_range.mp hk) hr)
        (Nat.lt_of_lt_of_le (List.mem_range.mp hk') hr)
        (rowK c g0 (st.Li (p0 + 1)) (p0 + 1) k (rowK c g0 (st.Li p0) p0 k t))).trans
      ((congrArg (rowK c g0 (st.Li (p0 + 2)) (p0 + 2) k)
        ((rowK_comm c g0 g0 h13 (by omega)
          (Nat.lt_of_lt_of_le (List.mem_range.mp hk) hr)
          (Nat.lt_of_lt_of_le (List.mem_range.mp hk') hr)
          (rowK c g0 (st.Li p0) p0 k t)).trans
        (congrArg (rowK c g0 (st.Li (p0 + 1)) (p0 + 1) k)
          (rowK_comm c g0 g0 h03 (by omega)
            (Nat.lt_of_lt_of_le (List.mem_range.mp hk) hr)
            (Nat.lt_of_lt_of_le (List.mem_range.mp hk') hr) t))))))]
  rw [foldl_split
    (fun k t => rowK c g0 (st.Li (p0 + 1)) (p0 + 1) k (rowK c g0 (st.Li p0) p0 k t))
    (fun k t => rowK c g0 (st.Li (p0 + 2)) (p0 + 2) k t)
    (List.range c.rank) st
    (fun k hk k' hk' t =>
      (rowK_comm c g0 g0 h12 (by omega)
        (Nat.lt_of_lt_of_le (List.mem_range.mp hk) hr)
        (Nat.lt_of_lt_of_le (List.mem_range.mp hk') hr)
        (rowK c g0 (st.Li p0) p0 k t)).trans
      (congrArg (rowK c g0 (st.Li (p0 + 1)) (p0 + 1) k)
        (rowK_comm c g0 g0 h02 (by omega)
          (Nat.lt_of_lt_of_le (List.mem_range.mp hk) hr)
          (Nat.lt_of_lt_of_le (List.mem_range.mp hk') hr) t)))]
  rw [foldl_split (fun k t => rowK c g0 (st.Li p0) p0 k t)
    (fun k t => rowK c g0 (st.Li (p0 + 1)) (p0 + 1) k t)
    (List.range c.rank) st
    (fun k hk k' hk' t => rowK_comm c g0 g0 h01 (by omega)
      (Nat.lt_of_lt_of_le (List.mem_range.mp hk) hr)
      (Nat.lt_of_lt_of_le (List.mem_range.mp hk') hr) t)]
  rfl


theorem rowOp_Li (c : Ctx) (g0 : ZG) (i p : Nat) (st : UpState) :
    (rowOp c g0 i p st).Li = st.Li := by
  unfold rowOp
  generalize List.range c.rank = l
  induction l generalizing st with
  | nil => rfl
  | cons k l ih =>
    rw [List.foldl_cons]
    exact ih (rowK c g0 i p k st)

theorem rowSweep_Li (c : Ctx) (g0 : ZG) (Li0 : Nat → Nat) :
    ∀ (ps : List Nat) (st : UpState), (rowSweep c g0 Li0 ps st).Li = st.Li := by
  intro ps
  induction ps with
  | nil => intro st; rfl
  | cons p ps ih =>
    intro st
    show (rowSweep c g0 Li0 ps (rowOp c g0 (Li0 p) p st)).Li = st.Li
    rw [ih (rowOp c g0 (Li0 p) p st), rowOp_Li]

theorem range'_cons4 (p0 m : Nat) :
    List.range' p0 (m + 4) =
      p0 :: (p0 + 1) :: (p0 + 2) :: (p0 + 3) :: List.range' (p0 + 4) m := by
  rw [show m + 4 = (m + 3) + 1 from rfl, List.range'_succ,
    show m + 3 = (m + 2) + 1 from rfl, List.range'_succ,
    show m + 2 = (m + 1) + 1 from rfl, List.range'_succ, List.range'_succ]

theorem singleLoop_eq_rowSweep (c : Ctx) (g0 : ZG) (h0 : 0 < c.wdim)
    (hr : c.rank ≤ c.wdim) :
    ∀ (n pend p0 : Nat) (st : UpState), pend - p0 ≤ 4 * n → 4 ∣ (pend - p0) →
      (∀ p q, p0 ≤ p → p < pend → p0 ≤ q → q < pend → p ≠ q →
        st.Li p ≠ st.Li q) →
      singleLoop c g0 pend p0 st =
        rowSweep c g0 st.Li (List.range' p0 (pend - p0)) st := by
  intro n
  induction n with
  | zero =>
    intro pend p0 st hle _ _
    rw [singleLoop, dif_neg (by omega)]
    rw [show pend - p0 = 0 from by omega]
    rfl
  | succ n ih =>
    intro pend p0 st hle hdvd hinj
    by_cases hlt : p0 < pend
    · have h4 : 4 ≤ pend - p0 := Nat.le_of_dvd (by omega) hdvd
      rw [singleLoop, dif_pos hlt]
      rw [case4Body_eq c g0 p0 st h0 hr
        (hinj p0 (p0 + 1) (by omega) (by omega) (by omega) (by omega) (by omega))
        (hinj p0 (p0 + 2) (by omega) (by omega) (by omega) (by omega) (by omega))
        (hinj p0 (p0 + 3) (by omega) (by omega) (by omega) (by omega) (by omega))
        (hinj (p0 + 1) (p0 + 2) (by omega) (by omega) (by omega) (by omega) (by omega))
        (hinj (p0 + 1) (p0 + 3) (by omega) (by omega) (by omega) (by omega) (by omega))
        (hinj (p0 + 2) (p0 + 3) (by omega) (by omega) (by omega) (by omega) (by omega))]
      set st4 := rowOp c g0 (st.Li (p0 + 3)) (p0 + 3)
        (rowOp c g0 (st.Li (p0 + 2)) (p0 + 2)
          (rowOp c g0 (st.Li (p0 + 1)) (p0 + 1)
            (rowOp c g0 (st.Li p0) p0 st))) with hst4
      have hLi4 : st4.Li = st.Li := by
        rw [hst4, rowOp_Li, rowOp_Li, rowOp_Li, rowOp_Li]
      have e2 := ih pend (p0 + 4) st4 (by omega)
        (by
          rw [show pend - (p0 + 4) = (pend - p0) - 4 from by omega]
          exact Nat.dvd_sub' hdvd (dvd_refl 4))
        (by
          intro p q hp hp' hq hq' hne
          rw [hLi4]
          exact hinj p q (by omega) hp' (by omega) hq' hne)
      rw [e2, hLi4]
      rw [show pend - p0 = (pend - (p0 + 4)) + 4 from by omega, range'_cons4]
      rfl
    · rw [singleLoop, dif_neg hlt]
      rw [show pend - p0 = 0 from by omega]
      rfl

theorem singleCase_eq_rowSweep (c : Ctx) (g0 : ZG) (h0 : 0 < c.wdim)
    (hr : c.rank ≤ c.wdim) (lnz pend p0 : Nat) (st : UpState)
    (hcount : pend - p0 = lnz - 1)
    (hinj : ∀ p q, p0 ≤ p → p < pend → p0 ≤ q → q < pend → p ≠ q →
      st.Li p ≠ st.Li q) :
    singleCase c g0 lnz pend p0 st =
      rowSweep c g0 st.Li (List.range' p0 (pend - p0)) st := by
  have hmod : (lnz - 1) % 4 = 0 ∨ (lnz - 1) % 4 = 1 ∨ (lnz - 1) % 4 = 2 ∨
      (lnz - 1) % 4 = 3 := by omega
  rcases hmod with hc | hc | hc | hc
  · unfold singleCase
    rw [hc]
    exact singleLoop_eq_rowSweep c g0 h0 hr pend pend p0 st (by omega)
      (by omega) hinj
  · unfold singleCase
    rw [hc]
    have hlen : 1 ≤ pend - p0 := by omega
    rw [case1Body_eq c g0 p0 st]
    have hLi1 : (rowOp c g0 (st.Li p0) p0 st).Li = st.Li := rowOp_Li c g0 _ p0 st
    rw [singleLoop_eq_rowSweep c g0 h0 hr pend pend (p0 + 1)
      (rowOp c g0 (st.Li p0) p0 st) (by omega) (by omega)
      (by
        intro p q hp hp' hq hq' hne
        rw [hLi1]
        exact hinj p q (by omega) hp' (by omega) hq' hne)]
    rw [hLi1]
    rw [show pend - p0 = (pend - (p0 + 1)) + 1 from by omega, List.range'_succ]
    rfl
  · unfold singleCase
    rw [hc]
    have hlen : 2 ≤ pend - p0 := by omega
    rw [case2Body_eq c g0 p0 st h0 hr
      (hinj p0 (p0 + 1) (by omega) (by omega) (by omega) (by omega) (by omega))]
    set st2 := rowOp c g0 (st.Li (p0 + 1)) (p0 + 1)
      (rowOp c g0 (st.Li p0) p0 st) with hst2
    have hLi2 : st2.Li = st.Li := by
      rw [hst2, rowOp_Li, rowOp_Li]
    rw [singleLoop_eq_rowSweep c g0 h0 hr pend pend (p0 + 2) st2 (by omega)
      (by omega)
      (by
        intro p q hp hp' hq hq' hne
        rw [hLi2]
        exact hinj p q (by omega) hp' (by omega) hq' hne)]
    rw [hLi2]
    rw [show pend - p0 = ((pend - (p0 + 2)) + 1) + 1 from by omega,
      List.range'_succ, List.range'_succ]
    rfl
  · unfold singleCase
    rw [hc]
    have hlen : 3 ≤ pend - p0 := by omega
    rw [case3Body_eq c g0 p0 st h0 hr
      (hinj p0 (p0 + 1) (by omega) (by omega) (by omega) (by omega) (by omega))
      (hinj p0 (p0 + 2) (by omega) (by omega) (by omega) (by omega) (by omega))
      (hinj (p0 + 1) (p0 + 2) (by omega) (by omega) (by omega) (by omega) (by omega))]
    set st3 := rowOp c g0 (st.Li (p0 + 2)) (p0 + 2)
      (rowOp c g0 (st.Li (p0 + 1)) (p0 + 1)
        (rowOp c g0 (st.Li p0) p0 st)) with hst3
    have hLi3 : st3.Li = st.Li := by
      rw [hst3, rowOp_Li, rowOp_Li, rowOp_Li]
    rw [singleLoop_eq_rowSweep c g0 h0 hr pend pend (p0 + 3) st3 (by omega)
      (by omega)
      (by
        intro p q hp hp' hq hq' hne
        rw [hLi3]
        exact hinj p q (by omega) hp' (by omega) hq' hne)]
    rw [hLi3]
    rw [show pend - p0 = (((pend - (p0 + 3)) + 1) + 1) + 1 from by omega,
      List.range'_succ, List.range'_succ, List.range'_succ]
    rfl

theorem simpleRowBody_eq (c : Ctx) (j : Nat) (zc gc zd gd : Nat → ℚ) (p : Nat)
    (st : UpState) (h0 : 0 < c.wdim) (hr : c.rank ≤ c.wdim) (hij : st.Li p ≠ j)
    (hz : ∀ k, k < c.rank →
      st.WC (wcIdx c j k) = zc k ∧ st.WD (wcIdx c j k) = zd k) :
    simpleRowBody c j gc gd p st = rowOp c ⟨zc, gc, zd, gd⟩ (st.Li p) p st := by
  have e0 : simpleRowBody c j gc gd p st =
      emb1 p ((List.range c.rank).foldl (simpleF c (st.Li p) j gc gd)
        (st.Lx p, st)) := rfl
  rw [e0]
  rw [foldl_congr_of_inv
    (fun s : ℚ × UpState => ∀ k, k < c.rank →
      s.2.WC (wcIdx c j k) = zc k ∧ s.2.WD (wcIdx c j k) = zd k)
    (simpleF c (st.Li p) j gc gd) (case1F c ⟨zc, gc, zd, gd⟩ (st.Li p))
    (List.range c.rank) (st.Lx p, st)
    (by
      intro s k hk hP
      have hkr := List.mem_range.mp hk
      unfold simpleF case1F
      dsimp only
      rw [(hP k hkr).1, (hP k hkr).2])
    (by
      intro s k hk hP
      have hkr := List.mem_range.mp hk
      intro k' hk'
      have hne : wcIdx c j k' ≠ wcIdx c (st.Li p) k :=
        wcIdx_ne_row c (Ne.symm hij) (Nat.lt_of_lt_of_le hk' hr)
          (Nat.lt_of_lt_of_le hkr hr)
      unfold simpleF
      dsimp only
      rw [upd_other _ _ hne, upd_other _ _ hne]
      exact hP k' hk')
    hz]
  rw [← regfold_emb (emb1 p) (fun t k => rowK c ⟨zc, gc, zd, gd⟩ (st.Li p) p k t)
    (case1F c ⟨zc, gc, zd, gd⟩ (st.Li p))
    (fun s k => case1F_collapse c ⟨zc, gc, zd, gd⟩ (st.Li p) p s k)
    (List.range c.rank) (st.Lx p, st)]
  have e1 : emb1 p (st.Lx p, st) = st := by
    unfold emb1
    dsimp only
    rw [upd_eq_self]
  rw [e1]
  rfl

theorem rowOp_row_preserved (c : Ctx) (g0 : ZG) {i j : Nat} (hij : i ≠ j)
    (hr : c.rank ≤ c.wdim) (p : Nat) :
    ∀ (l : List Nat), (∀ k, k ∈ l → k < c.rank) →
      ∀ (st : UpState) (k' : Nat), k' < c.rank →
      (l.foldl (fun s k => rowK c g0 i p k s) st).WC (wcIdx c j k') =
          st.WC (wcIdx c j k') ∧
        (l.foldl (fun s k => rowK c g0 i p k s) st).WD (wcIdx c j k') =
          st.WD (wcIdx c j k') := by
  intro l
  induction l with
  | nil => intro _ st k' _; exact ⟨rfl, rfl⟩
  | cons k l ih =>
    intro hmem st k' hk'
    rw [List.foldl_cons]
    have h2 := ih (fun k2 h2 => hmem k2 (by simp [h2])) (rowK c g0 i p k st) k' hk'
    have hne : wcIdx c j k' ≠ wcIdx c i k :=
      wcIdx_ne_row c (Ne.symm hij) (Nat.lt_of_lt_of_le hk' hr)
        (Nat.lt_of_lt_of_le (hmem k (by simp)) hr)
    refine ⟨h2.1.trans ?_, h2.2.trans ?_⟩
    · show (rowK c g0 i p k st).WC (wcIdx c j k') = st.WC (wcIdx c j k')
      unfold rowK
      dsimp only
      rw [upd_other _ _ hne]
    · show (rowK c g0 i p k st).WD (wcIdx c j k') = st.WD (wcIdx c j k')
      unfold rowK
      dsimp only
      rw [upd_other _ _ hne]

theorem rowOp_rowj (c : Ctx) (g0 : ZG) {i j : Nat} (hij : i ≠ j)
    (hr : c.rank ≤ c.wdim) (p : Nat) (st : UpState) {k' : Nat}
    (hk' : k' < c.rank) :
    (rowOp c g0 i p st).WC (wcIdx c j k') = st.WC (wcIdx c j k') ∧
      (rowOp c g0 i p st).WD (wcIdx c j k') = st.WD (wcIdx c j k') :=
  rowOp_row_preserved c g0 hij hr p (List.range c.rank)
    (fun k hk => List.mem_range.mp hk) st k' hk'

theorem simpleRowLoop_eq (c : Ctx) (j : Nat) (zc gc zd gd : Nat → ℚ)
    (h0 : 0 < c.wdim) (hr : c.rank ≤ c.wdim) :
    ∀ (n pend p : Nat) (st : UpState), pend - p ≤ n →
      (∀ q, p ≤ q → q < pend → st.Li q ≠ j) →
      (∀ k, k < c.rank →
        st.WC (wcIdx c j k) = zc k ∧ st.WD (wcIdx c j k) = zd k) →
      simpleRowLoop c j gc gd pend p st =
        rowSweep c ⟨zc, gc, zd, gd⟩ st.Li (List.range' p (pend - p)) st := by
  intro n
  induction n with
  | zero =>
    intro pend p st hle _ _
    rw [simpleRowLoop, dif_neg (by omega)]
    rw [show pend - p = 0 from by omega]
    rfl
  | succ n ih =>
    intro pend p st hle hnotj hz
    by_cases hlt : p < pend
    · rw [simpleRowLoop, dif_pos hlt]
      rw [simpleRowBody_eq c j zc gc zd gd p st h0 hr (hnotj p (le_refl p) hlt) hz]
      have hLi : (rowOp c ⟨zc, gc, zd, gd⟩ (st.Li p) p st).Li = st.Li :=
        rowOp_Li c ⟨zc, gc, zd, gd⟩ (st.Li p) p st
      rw [ih pend (p + 1) (rowOp c ⟨zc, gc, zd, gd⟩ (st.Li p) p st) (by omega)
        (by
          intro q hq hq'
          rw [hLi]
          exact hnotj q (by omega) hq')
        (by
          intro k hk
          have h2 := rowOp_rowj c ⟨zc, gc, zd, gd⟩
            (hnotj p (le_refl p) hlt) hr p st hk
          exact ⟨h2.1.trans (hz k hk).1, h2.2.trans (hz k hk).2⟩)]
      rw [hLi]
      rw [show pend - p = (pend - (p + 1)) + 1 from by omega, List.range'_succ]
      rfl
    · rw [simpleRowLoop, dif_neg hlt]
      rw [show pend - p = 0 from by omega]
      rfl


theorem rowK_Z_comm (c : Ctx) (g0 : ZG) {i j : Nat} (hij : i ≠ j) {k k' : Nat}
    (hkw : k < c.wdim) (hk'w : k' < c.wdim) (p : Nat) (t : UpState) :
    rowK c g0 i p k
        { t with WC := upd t.WC (wcIdx c j k') 0,
                 WD := upd t.WD (wcIdx c j k') 0 } =
      { rowK c g0 i p k t with
        WC := upd (rowK c g0 i p k t).WC (wcIdx c j k') 0,
        WD := upd (rowK c g0 i p k t).WD (wcIdx c j k') 0 } := by
  have hne : wcIdx c i k ≠ wcIdx c j k' := wcIdx_ne_row c hij hkw hk'w
  unfold rowK
  dsimp only
  rw [upd_other _ _ hne, upd_other _ _ hne]
  rw [upd_comm t.WC (Ne.symm hne), upd_comm t.WD (Ne.symm hne)]

theorem rowK_zeroWRow (c : Ctx) (g0 : ZG) {i j : Nat} (hij : i ≠ j)
    (hr : c.rank ≤ c.wdim) {k : Nat} (hk : k < c.rank) (p : Nat)
    (st : UpState) :
    zeroWRow c j (rowK c g0 i p k st) = rowK c g0 i p k (zeroWRow c j st) :=
  foldl_hoist (fun _ => rowK c g0 i p k)
    (fun k2 t =>
      { t with WC := upd t.WC (wcIdx c j k2) 0,
               WD := upd t.WD (wcIdx c j k2) 0 })
    (List.range c.rank) 0 st
    (fun k2 hk2 t => rowK_Z_comm c g0 hij (Nat.lt_of_lt_of_le hk hr)
      (Nat.lt_of_lt_of_le (List.mem_range.mp hk2) hr) p t)

theorem rowOp_zeroWRow (c : Ctx) (g0 : ZG) {i j : Nat} (hij : i ≠ j)
    (hr : c.rank ≤ c.wdim) (p : Nat) (st : UpState) :
    rowOp c g0 i p (zeroWRow c j st) = zeroWRow c j (rowOp c g0 i p st) :=
  foldl_hoist (fun _ => zeroWRow c j) (fun k t => rowK c g0 i p k t)
    (List.range c.rank) 0 st
    (fun k hk t => rowK_zeroWRow c g0 hij hr (List.mem_range.mp hk) p t)

theorem rowSweep_zeroWRow (c : Ctx) (g0 : ZG) (Li0 : Nat → Nat) {j : Nat}
    (hr : c.rank ≤ c.wdim) (ps : List Nat)
    (hnotj : ∀ p, p ∈ ps → Li0 p ≠ j) (st : UpState) :
    rowSweep c g0 Li0 ps (zeroWRow c j st) =
      zeroWRow c j (rowSweep c g0 Li0 ps st) :=
  foldl_hoist (fun _ => zeroWRow c j) (fun p t => rowOp c g0 (Li0 p) p t)
    ps 0 st
    (fun p hp t => (rowOp_zeroWRow c g0 (hnotj p hp) hr p t).symm)

theorem zfold_set (c : Ctx) (j : Nat) (X A B : Nat → ℚ) :
    ∀ (l : List Nat) (st : UpState),
      l.foldl
          (fun s k =>
            { s with WC := upd s.WC (wcIdx c j k) 0,
                     WD := upd s.WD (wcIdx c j k) 0 })
          { st with Lx := X, AC := A, AD := B } =
        { l.foldl
            (fun s k =>
              { s with WC := upd s.WC (wcIdx c j k) 0,
                       WD := upd s.WD (wcIdx c j k) 0 })
            st with Lx := X, AC := A, AD := B } := by
  intro l
  induction l with
  | nil => intro st; rfl
  | cons k l ih =>
    intro st
    rw [List.foldl_cons, List.foldl_cons]
    exact ih
      { st with WC := upd st.WC (wcIdx c j k) 0,
                WD := upd st.WD (wcIdx c j k) 0 }

theorem zeroWRow_set (c : Ctx) (j : Nat) (X A B : Nat → ℚ) (st : UpState) :
    zeroWRow c j { st with Lx := X, AC := A, AD := B } =
      { zeroWRow c j st with Lx := X, AC := A, AD := B } :=
  zfold_set c j X A B (List.range c.rank) st

theorem agAt1_zeroWRow (c : Ctx) (p0 : Nat) (zc zd : Nat → ℚ) (j : Nat)
    (st : UpState) :
    (alphaGammaAt c p0 zc zd (zeroWRow c j st)).1 =
      zeroWRow c j (alphaGammaAt c p0 zc zd st).1 := by
  unfold alphaGammaAt
  dsimp only
  rw [zeroWRow_Lx, zeroWRow_AC, zeroWRow_AD]
  conv_rhs => rw [zeroWRow_set]

theorem agAt2_zeroWRow (c : Ctx) (p0 : Nat) (zc zd : Nat → ℚ) (j : Nat)
    (st : UpState) :
    (alphaGammaAt c p0 zc zd (zeroWRow c j st)).2 =
      (alphaGammaAt c p0 zc zd st).2 := by
  unfold alphaGammaAt
  dsimp only
  rw [zeroWRow_Lx, zeroWRow_AC, zeroWRow_AD]


/-- C9: for a column handled by the single-column codepath (the cleanup
switch on `(Lnz j - 1) % 4` followed by the four-rows-per-iteration
loop), the fused kernel's column step produces exactly the same state as
the per-row reference loop of the SIMPLE variant, provided the column's
off-diagonal row indices are distinct and distinct from `j` (CHOLMOD
columns have strictly increasing row indices) and the rank does not
exceed the W width: every off-diagonal position is read and written
once, with the identical per-row chain of operations, so the results
agree exactly. -/
theorem single_sweep_eq_simple (c : Ctx) (e j : Nat) (st : UpState)
    (h0 : 0 < c.wdim) (hr : c.rank ≤ c.wdim)
    (hk : stepKind st.Lp st.Li st.Lnz e j = Kind.single)
    (hnotj : ∀ p, p < st.Lp j + st.Lnz j → st.Lp j + 1 ≤ p → st.Li p ≠ j)
    (hinj : ∀ p, p < st.Lp j + st.Lnz j → ∀ q, q < st.Lp j + st.Lnz j →
      st.Lp j + 1 ≤ p → st.Lp j + 1 ≤ q → p ≠ q →
      st.Li p ≠ st.Li q) :
    columnStep c e j st = simpleColumnStep c j st := by
  have hsimple : simpleColumnStep c j st =
      zeroWRow c j (rowSweep c
        ⟨zRowC c st j,
         (alphaGammaAt c (st.Lp j) (zRowC c st j) (zRowD c st j) st).2.1,
         zRowD c st j,
         (alphaGammaAt c (st.Lp j) (zRowC c st j) (zRowD c st j) st).2.2⟩
        st.Li
        (List.range' (st.Lp j + 1) (st.Lp j + st.Lnz j - (st.Lp j + 1)))
        (alphaGammaAt c (st.Lp j) (zRowC c st j) (zRowD c st j) st).1) := by
    unfold simpleColumnStep
    dsimp only
    rw [simpleRowLoop_eq c j (zRowC c st j)
      (alphaGammaAt c (st.Lp j) (zRowC c st j) (zRowD c st j) st).2.1
      (zRowD c st j)
      (alphaGammaAt c (st.Lp j) (zRowC c st j) (zRowD c st j) st).2.2
      h0 hr (st.Lp j + st.Lnz j) (st.Lp j + st.Lnz j) (st.Lp j + 1)
      (alphaGammaAt c (st.Lp j) (zRowC c st j) (zRowD c st j) st).1
      (by omega)
      (by
        intro q hq hq'
        rw [agAt_Li]
        exact hnotj q hq' hq)
      (by
        intro k hk2
        constructor
        · rw [agAt_WC]
          rfl
        · rw [agAt_WD]
          rfl)]
    rw [agAt_Li]
  rw [hsimple]
  unfold columnStep
  dsimp only
  simp only [agAt_Li, agAt_Lnz, agAt_Lp, zeroWRow_Li, zeroWRow_Lnz, zeroWRow_Lp]
  rw [if_neg ((stepKind_single_iff st.Lp st.Li st.Lnz e j).mp hk)]
  rw [agAt1_zeroWRow, agAt2_zeroWRow]
  have hLiZ : (zeroWRow c j
      (alphaGammaAt c (st.Lp j) (zRowC c st j) (zRowD c st j) st).1).Li =
      st.Li := by
    rw [zeroWRow_Li, agAt_Li]
  rw [singleCase_eq_rowSweep c
    ⟨zRowC c st j,
     (alphaGammaAt c (st.Lp j) (zRowC c st j) (zRowD c st j) st).2.1,
     zRowD c st j,
     (alphaGammaAt c (st.Lp j) (zRowC c st j) (zRowD c st j) st).2.2⟩
    h0 hr (st.Lnz j) (st.Lp j + st.Lnz j) (st.Lp j + 1)
    (zeroWRow c j (alphaGammaAt c (st.Lp j) (zRowC c st j) (zRowD c st j) st).1)
    (by omega)
    (by
      intro p q hp hp' hq hq' hne
      rw [hLiZ]
      exact hinj p hp' q hq' hp hq hne)]
  rw [hLiZ]
  rw [rowSweep_zeroWRow c
    ⟨zRowC c st j,
     (alphaGammaAt c (st.Lp j) (zRowC c st j) (zRowD c st j) st).2.1,
     zRowD c st j,
     (alphaGammaAt c (st.Lp j) (zRowC c st j) (zRowD c st j) st).2.2⟩
    st.Li hr
    (List.range' (st.Lp j + 1) (st.Lp j + st.Lnz j - (st.Lp j + 1)))
    (by
      intro p hp
      have hmem := List.mem_range'_1.mp hp
      exact hnotj p (by omega) hmem.1)
    (alphaGammaAt c (st.Lp j) (zRowC c st j) (zRowD c st j) st).1]

theorem single_sweep_eq_simple_witness :
    stepKind exSt.Lp exSt.Li exSt.Lnz 0 0 = Kind.single ∧
    (∀ p, p < exSt.Lp 0 + exSt.Lnz 0 → exSt.Lp 0 + 1 ≤ p → exSt.Li p ≠ 0) ∧
    columnStep ⟨1, 1, 0, 0⟩ 0 0 exSt = simpleColumnStep ⟨1, 1, 0, 0⟩ 0 exSt :=
  ⟨by decide, by decide,
   single_sweep_eq_simple ⟨1, 1, 0, 0⟩ 0 0 exSt (by decide) (by decide)
     (by decide) (by decide)
     (fun p hp q hq h1 h2 hne =>
       (by decide : ∀ p, p < 5 → ∀ q, q < 5 → p ≠ q → exLi p ≠ exLi q)
         p hp q hq hne)⟩

end Updown

namespace Updown

theorem foldl_proj_mem {σ α β : Type} (f : σ → α → σ) (g : σ → β)
    (l : List α) (h : ∀ s x, x ∈ l → g (f s x) = g s) :
    ∀ s, g (l.foldl f s) = g s := by
  induction l with
  | nil => intro s; rfl
  | cons x l ih =>
    intro s
    rw [List.foldl_cons, ih (fun s2 x2 h2 => h s2 x2 (by simp [h2])), h s x (by simp)]

theorem case1Body_frame (c : Ctx) (g0 : ZG) (p0 : Nat) (st : UpState) (a : Nat)
    (h : avoids c a (st.Li p0)) :
    (case1Body c g0 p0 st).WC a = st.WC a ∧
      (case1Body c g0 p0 st).WD a = st.WD a := by
  unfold case1Body
  dsimp only
  constructor
  · refine foldl_proj_mem _ (fun s : ℚ × UpState => s.2.WC a) _
      (fun s k hk => ?_) _
    dsimp only
    rw [upd_other _ _ (h k (List.mem_range.mp hk))]
  · refine foldl_proj_mem _ (fun s : ℚ × UpState => s.2.WD a) _
      (fun s k hk => ?_) _
    dsimp only
    rw [upd_other _ _ (h k (List.mem_range.mp hk))]

theorem case2Body_frame (c : Ctx) (g0 : ZG) (p0 : Nat) (st : UpState) (a : Nat)
    (h0 : avoids c a (st.Li p0)) (h1 : avoids c a (st.Li (p0 + 1))) :
    (case2Body c g0 p0 st).WC a = st.WC a ∧
      (case2Body c g0 p0 st).WD a = st.WD a := by
  unfold case2Body
  dsimp only
  constructor
  · refine foldl_proj_mem _ (fun s : ℚ × ℚ × UpState => s.2.2.WC a) _
      (fun s k hk => ?_) _
    dsimp only
    rw [upd_other _ _ (h1 k (List.mem_range.mp hk)),
      upd_other _ _ (h0 k (List.mem_range.mp hk))]
  · refine foldl_proj_mem _ (fun s : ℚ × ℚ × UpState => s.2.2.WD a) _
      (fun s k hk => ?_) _
    dsimp only
    rw [upd_other _ _ (h1 k (List.mem_range.mp hk)),
      upd_other _ _ (h0 k (List.mem_range.mp hk))]

theorem case3Body_frame (c : Ctx) (g0 : ZG) (p0 : Nat) (st : UpState) (a : Nat)
    (h0 : avoids c a (st.Li p0)) (h1 : avoids c a (st.Li (p0 + 1)))
    (h2 : avoids c a (st.Li (p0 + 2))) :
    (case3Body c g0 p0 st).WC a = st.WC a ∧
      (case3Body c g0 p0 st).WD a = st.WD a := by
  unfold case3Body
  dsimp only
  constructor
  · refine foldl_proj_mem _ (fun s : ℚ × ℚ × ℚ × UpState => s.2.2.2.WC a) _
      (fun s k hk => ?_) _
    dsimp only
    rw [upd_other _ _ (h2 k (List.mem_range.mp hk)),
      upd_other _ _ (h1 k (List.mem_range.mp hk)),
      upd_other _ _ (h0 k (List.mem_range.mp hk))]
  · refine foldl_proj_mem _ (fun s : ℚ × ℚ × ℚ × UpState => s.2.2.2.WD a) _
      (fun s k hk => ?_) _
    dsimp only
    rw [upd_other _ _ (h2 k (List.mem_range.mp hk)),
      upd_other _ _ (h1 k (List.mem_range.mp hk)),
      upd_other _ _ (h0 k (List.mem_range.mp hk))]

theorem case4Body_frame (c : Ctx) (g0 : ZG) (p0 : Nat) (st : UpState) (a : Nat)
    (h0 : avoids c a (st.Li p0)) (h1 : avoids c a (st.Li (p0 + 1)))
    (h2 : avoids c a (st.Li (p0 + 2))) (h3 : avoids c a (st.Li (p0 + 3))) :
    (case4Body c g0 p0 st).WC a = st.WC a ∧
      (case4Body c g0 p0 st).WD a = st.WD a := by
  unfold case4Body
  dsimp only
  constructor
  · refine foldl_proj_mem _ (fun s : ℚ × ℚ × ℚ × ℚ × UpState => s.2.2.2.2.WC a) _
      (fun s k hk => ?_) _
    dsimp only
    rw [upd_other _ _ (h3 k (List.mem_range.mp hk)),
      upd_other _ _ (h2 k (List.mem_range.mp hk)),
      upd_other _ _ (h1 k (List.mem_range.mp hk)),
      upd_other _ _ (h0 k (List.mem_range.mp hk))]
  · refine foldl_proj_mem _ (fun s : ℚ × ℚ × ℚ × ℚ × UpState => s.2.2.2.2.WD a) _
      (fun s k hk => ?_) _
    dsimp only
    rw [upd_other _ _ (h3 k (List.mem_range.mp hk)),
      upd_other _ _ (h2 k (List.mem_range.mp hk)),
      upd_other _ _ (h1 k (List.mem_range.mp hk)),
      upd_other _ _ (h0 k (List.mem_range.mp hk))]

theorem dualCleanupBody_frame (c : Ctx) (g0 g1 : ZG) (p0 p1 : Nat)
    (st : UpState) (a : Nat) (h0 : avoids c a (st.Li p0)) :
    (dualCleanupBody c g0 g1 p0 p1 st).WC a = st.WC a ∧
      (dualCleanupBody c g0 g1 p0 p1 st).WD a = st.WD a := by
  unfold dualCleanupBody
  dsimp only
  constructor
  · refine foldl_proj_mem _ (fun s : ℚ × ℚ × UpState => s.2.2.WC a) _
      (fun s k hk => ?_) _
    dsimp only
    rw [upd_other _ _ (h0 k (List.mem_range.mp hk)),
      upd_other _ _ (h0 k (List.mem_range.mp hk))]
  · refine foldl_proj_mem _ (fun s : ℚ × ℚ × UpState => s.2.2.WD a) _
      (fun s k hk => ?_) _
    dsimp only
    rw [upd_other _ _ (h0 k (List.mem_range.mp hk)),
      upd_other _ _ (h0 k (List.mem_range.mp hk))]

theorem dual2Body_frame (c : Ctx) (g0 g1 : ZG) (p0 p1 : Nat)
    (st : UpState) (a : Nat) (h0 : avoids c a (st.Li p0))
    (h1 : avoids c a (st.Li (p0 + 1))) :
    (dual2Body c g0 g1 p0 p1 st).WC a = st.WC a ∧
      (dual2Body c g0 g1 p0 p1 st).WD a = st.WD a := by
  unfold dual2Body
  dsimp only
  constructor
  · refine foldl_proj_mem _ (fun s : ℚ × ℚ × ℚ × ℚ × UpState => s.2.2.2.2.WC a) _
      (fun s k hk => ?_) _
    dsimp only
    rw [upd_other _ _ (h1 k (List.mem_range.mp hk)),
      upd_other _ _ (h0 k (List.mem_range.mp hk))]
  · refine foldl_proj_mem _ (fun s : ℚ × ℚ × ℚ × ℚ × UpState => s.2.2.2.2.WD a) _
      (fun s k hk => ?_) _
    dsimp only
    rw [upd_other _ _ (h1 k (List.mem_range.mp hk)),
      upd_other _ _ (h0 k (List.mem_range.mp hk))]

theorem quadMainBody_frame (c : Ctx) (g0 g1 g2 g3 : ZG) (p0 p1 p2 p3 : Nat)
    (st : UpState) (a : Nat) (h0 : avoids c a (st.Li p0)) :
    (quadMainBody c g0 g1 g2 g3 p0 p1 p2 p3 st).WC a = st.WC a ∧
      (quadMainBody c g0 g1 g2 g3 p0 p1 p2 p3 st).WD a = st.WD a := by
  unfold quadMainBody
  dsimp only
  constructor
  · refine foldl_proj_mem _ (fun s : ℚ × ℚ × ℚ × ℚ × UpState => s.2.2.2.2.WC a) _
      (fun s k hk => ?_) _
    dsimp only
    rw [upd_other _ _ (h0 k (List.mem_range.mp hk)),
      upd_other _ _ (h0 k (List.mem_range.mp hk)),
      upd_other _ _ (h0 k (List.mem_range.mp hk)),
      upd_other _ _ (h0 k (List.mem_range.mp hk))]
  · refine foldl_proj_mem _ (fun s : ℚ × ℚ × ℚ × ℚ × UpState => s.2.2.2.2.WD a) _
      (fun s k hk => ?_) _
    dsimp only
    rw [upd_other _ _ (h0 k (List.mem_range.mp hk)),
      upd_other _ _ (h0 k (List.mem_range.mp hk)),
      upd_other _ _ (h0 k (List.mem_range.mp hk)),
      upd_other _ _ (h0 k (List.mem_range.mp hk))]

theorem zfold_cell (c : Ctx) (j : Nat) :
    ∀ (l : List Nat) (st : UpState) (a : Nat),
      ((∃ k, k ∈ l ∧ a = wcIdx c j k) →
        (l.foldl
          (fun s k =>
            { s with WC := upd s.WC (wcIdx c j k) 0,
                     WD := upd s.WD (wcIdx c j k) 0 }) st).WC a = 0 ∧
        (l.foldl
          (fun s k =>
            { s with WC := upd s.WC (wcIdx c j k) 0,
                     WD := upd s.WD (wcIdx c j k) 0 }) st).WD a = 0) ∧
      ((∀ k, k ∈ l → a ≠ wcIdx c j k) →
        (l.foldl
          (fun s k =>
            { s with WC := upd s.WC (wcIdx c j k) 0,
                     WD := upd s.WD (wcIdx c j k) 0 }) st).WC a = st.WC a ∧
        (l.foldl
          (fun s k =>
            { s with WC := upd s.WC (wcIdx c j k) 0,
                     WD := upd s.WD (wcIdx c j k) 0 }) st).WD a = st.WD a) := by
  intro l
  induction l with
  | nil =>
    intro st a
    refine ⟨fun h => absurd h ?_, fun _ => ⟨rfl, rfl⟩⟩
    rintro ⟨k, hk, _⟩
    exact absurd hk (List.not_mem_nil k)
  | cons k0 l ih =>
    intro st a
    rw [List.foldl_cons]
    constructor
    · rintro ⟨k, hk, ha⟩
      rcases List.mem_cons.mp hk with hk | hk
      · subst hk
        by_cases hmem : ∃ k2, k2 ∈ l ∧ a = wcIdx c j k2
        · exact (ih _ a).1 hmem
        · push_neg at hmem
          obtain ⟨u1, u2⟩ := (ih _ a).2 hmem
          rw [u1, u2]
          subst ha
          dsimp only
          rw [upd_same, upd_same]
          exact ⟨rfl, rfl⟩
      · exact (ih _ a).1 ⟨k, hk, ha⟩
    · intro hav
      obtain ⟨u1, u2⟩ := (ih _ a).2 (fun k2 hk2 => hav k2 (by simp [hk2]))
      rw [u1, u2]
      dsimp only
      rw [upd_other _ _ (hav k0 (by simp)), upd_other _ _ (hav k0 (by simp))]
      exact ⟨rfl, rfl⟩

theorem zeroWRow_cell (c : Ctx) (j : Nat) (st : UpState) (a : Nat) :
    ((∃ k, k < c.rank ∧ a = wcIdx c j k) →
      (zeroWRow c j st).WC a = 0 ∧ (zeroWRow c j st).WD a = 0) ∧
    ((∀ k, k < c.rank → a ≠ wcIdx c j k) →
      (zeroWRow c j st).WC a = st.WC a ∧ (zeroWRow c j st).WD a = st.WD a) := by
  have h := zfold_cell c j (List.range c.rank) st a
  refine ⟨fun ⟨k, hk, ha⟩ => h.1 ⟨k, List.mem_range.mpr hk, ha⟩,
    fun hav => h.2 (fun k hk => hav k (List.mem_range.mp hk))⟩


theorem case1Body_Li (c : Ctx) (g0 : ZG) (p0 : Nat) (st : UpState) :
    (case1Body c g0 p0 st).Li = st.Li :=
  case1Body_proj patProj_Li.toSweep c g0 p0 st

theorem case2Body_Li (c : Ctx) (g0 : ZG) (p0 : Nat) (st : UpState) :
    (case2Body c g0 p0 st).Li = st.Li :=
  case2Body_proj patProj_Li.toSweep c g0 p0 st

theorem case3Body_Li (c : Ctx) (g0 : ZG) (p0 : Nat) (st : UpState) :
    (case3Body c g0 p0 st).Li = st.Li :=
  case3Body_proj patProj_Li.toSweep c g0 p0 st

theorem case4Body_Li (c : Ctx) (g0 : ZG) (p0 : Nat) (st : UpState) :
    (case4Body c g0 p0 st).Li = st.Li :=
  case4Body_proj patProj_Li.toSweep c g0 p0 st

theorem dualCleanupBody_Li (c : Ctx) (g0 g1 : ZG) (p0 p1 : Nat) (st : UpState) :
    (dualCleanupBody c g0 g1 p0 p1 st).Li = st.Li :=
  dualCleanupBody_proj patProj_Li.toSweep c g0 g1 p0 p1 st

theorem dual2Body_Li (c : Ctx) (g0 g1 : ZG) (p0 p1 : Nat) (st : UpState) :
    (dual2Body c g0 g1 p0 p1 st).Li = st.Li :=
  dual2Body_proj patProj_Li.toSweep c g0 g1 p0 p1 st

theorem quadMainBody_Li (c : Ctx) (g0 g1 g2 g3 : ZG) (p0 p1 p2 p3 : Nat)
    (st : UpState) :
    (quadMainBody c g0 g1 g2 g3 p0 p1 p2 p3 st).Li = st.Li :=
  quadMainBody_proj patProj_Li.toSweep c g0 g1 g2 g3 p0 p1 p2 p3 st

theorem singleLoop_frame (c : Ctx) (g0 : ZG) (a : Nat) :
    ∀ (n pend p0 : Nat) (st : UpState), pend - p0 ≤ 4 * n → 4 ∣ (pend - p0) →
      (∀ p, p0 ≤ p → p < pend → avoids c a (st.Li p)) →
      (singleLoop c g0 pend p0 st).WC a = st.WC a ∧
        (singleLoop c g0 pend p0 st).WD a = st.WD a := by
  intro n
  induction n with
  | zero =>
    intro pend p0 st hle _ _
    rw [singleLoop, dif_neg (by omega)]
    exact ⟨rfl, rfl⟩
  | succ n ih =>
    intro pend p0 st hle hdvd hav
    by_cases hlt : p0 < pend
    · have h4 : 4 ≤ pend - p0 := Nat.le_of_dvd (by omega) hdvd
      rw [singleLoop, dif_pos hlt]
      have hLi : (case4Body c g0 p0 st).Li = st.Li := case4Body_Li c g0 p0 st
      obtain ⟨u1, u2⟩ := ih pend (p0 + 4) (case4Body c g0 p0 st) (by omega)
        (by
          rw [show pend - (p0 + 4) = (pend - p0) - 4 from by omega]
          exact Nat.dvd_sub' hdvd (dvd_refl 4))
        (by
          intro p hp hp'
          rw [hLi]
          exact hav p (by omega) hp')
      rw [u1, u2]
      exact case4Body_frame c g0 p0 st a
        (hav p0 le_rfl (by omega)) (hav (p0 + 1) (by omega) (by omega))
        (hav (p0 + 2) (by omega) (by omega)) (hav (p0 + 3) (by omega) (by omega))
    · rw [singleLoop, dif_neg hlt]
      exact ⟨rfl, rfl⟩

theorem singleCase_frame (c : Ctx) (g0 : ZG) (lnz pend p0 : Nat)
    (st : UpState) (a : Nat) (hcount : pend - p0 = lnz - 1)
    (hav : ∀ p, p0 ≤ p → p < pend → avoids c a (st.Li p)) :
    (singleCase c g0 lnz pend p0 st).WC a = st.WC a ∧
      (singleCase c g0 lnz pend p0 st).WD a = st.WD a := by
  have hmod : (lnz - 1) % 4 = 0 ∨ (lnz - 1) % 4 = 1 ∨ (lnz - 1) % 4 = 2 ∨
      (lnz - 1) % 4 = 3 := by omega
  rcases hmod with hc | hc | hc | hc
  · unfold singleCase
    rw [hc]
    exact singleLoop_frame c g0 a pend pend p0 st (by omega) (by omega) hav
  · unfold singleCase
    rw [hc]
    have hLi : (case1Body c g0 p0 st).Li = st.Li := case1Body_Li c g0 p0 st
    obtain ⟨u1, u2⟩ := singleLoop_frame c g0 a pend pend (p0 + 1)
      (case1Body c g0 p0 st) (by omega) (by omega)
      (by
        intro p hp hp'
        rw [hLi]
        exact hav p (by omega) hp')
    rw [u1, u2]
    exact case1Body_frame c g0 p0 st a (hav p0 le_rfl (by omega))
  · unfold singleCase
    rw [hc]
    have hLi : (case2Body c g0 p0 st).Li = st.Li := case2Body_Li c g0 p0 st
    obtain ⟨u1, u2⟩ := singleLoop_frame c g0 a pend pend (p0 + 2)
      (case2Body c g0 p0 st) (by omega) (by omega)
      (by
        intro p hp hp'
        rw [hLi]
        exact hav p (by omega) hp')
    rw [u1, u2]
    exact case2Body_frame c g0 p0 st a (hav p0 le_rfl (by omega))
      (hav (p0 + 1) (by omega) (by omega))
  · unfold singleCase
    rw [hc]
    have hLi : (case3Body c g0 p0 st).Li = st.Li := case3Body_Li c g0 p0 st
    obtain ⟨u1, u2⟩ := singleLoop_frame c g0 a pend pend (p0 + 3)
      (case3Body c g0 p0 st) (by omega) (by omega)
      (by
        intro p hp hp'
        rw [hLi]
        exact hav p (by omega) hp')
    rw [u1, u2]
    exact case3Body_frame c g0 p0 st a (hav p0 le_rfl (by omega))
      (hav (p0 + 1) (by omega) (by omega)) (hav (p0 + 2) (by omega) (by omega))

theorem dualLoop_frame (c : Ctx) (g0 g1 : ZG) (a : Nat) :
    ∀ (n pend p0 p1 : Nat) (st : UpState), pend - p0 ≤ 2 * n →
      2 ∣ (pend - p0) →
      (∀ p, p0 ≤ p → p < pend → avoids c a (st.Li p)) →
      (dualLoop c g0 g1 pend p0 p1 st).WC a = st.WC a ∧
        (dualLoop c g0 g1 pend p0 p1 st).WD a = st.WD a := by
  intro n
  induction n with
  | zero =>
    intro pend p0 p1 st hle _ _
    rw [dualLoop, dif_neg (by omega)]
    exact ⟨rfl, rfl⟩
  | succ n ih =>
    intro pend p0 p1 st hle hdvd hav
    by_cases hlt : p0 < pend
    · have h2 : 2 ≤ pend - p0 := Nat.le_of_dvd (by omega) hdvd
      rw [dualLoop, dif_pos hlt]
      have hLi : (dual2Body c g0 g1 p0 p1 st).Li = st.Li :=
        dual2Body_Li c g0 g1 p0 p1 st
      obtain ⟨u1, u2⟩ := ih pend (p0 + 2) (p1 + 2) (dual2Body c g0 g1 p0 p1 st)
        (by omega)
        (by
          rw [show pend - (p0 + 2) = (pend - p0) - 2 from by omega]
          exact Nat.dvd_sub' hdvd (dvd_refl 2))
        (by
          intro p hp hp'
          rw [hLi]
          exact hav p (by omega) hp')
      rw [u1, u2]
      exact dual2Body_frame c g0 g1 p0 p1 st a
        (hav p0 le_rfl (by omega)) (hav (p0 + 1) (by omega) (by omega))
    · rw [dualLoop, dif_neg hlt]
      exact ⟨rfl, rfl⟩

theorem dualCase_frame (c : Ctx) (g0 g1 : ZG) (lnz pend p0 p1 : Nat)
    (st : UpState) (a : Nat) (hcount : pend - p0 = lnz - 2)
    (hav : ∀ p, p0 ≤ p → p < pend → avoids c a (st.Li p)) :
    (dualCase c g0 g1 lnz pend p0 p1 st).WC a = st.WC a ∧
      (dualCase c g0 g1 lnz pend p0 p1 st).WD a = st.WD a := by
  unfold dualCase
  by_cases hpar : (lnz - 2) % 2 = 1
  · rw [if_pos hpar]
    have hLi : (dualCleanupBody c g0 g1 p0 p1 st).Li = st.Li :=
      dualCleanupBody_Li c g0 g1 p0 p1 st
    obtain ⟨u1, u2⟩ := dualLoop_frame c g0 g1 a pend pend (p0 + 1) (p1 + 1)
      (dualCleanupBody c g0 g1 p0 p1 st) (by omega) (by omega)
      (by
        intro p hp hp'
        rw [hLi]
        exact hav p (by omega) hp')
    rw [u1, u2]
    exact dualCleanupBody_frame c g0 g1 p0 p1 st a (hav p0 le_rfl (by omega))
  · rw [if_neg hpar]
    exact dualLoop_frame c g0 g1 a pend pend p0 p1 st (by omega) (by omega) hav

theorem quadLoop_frame (c : Ctx) (g0 g1 g2 g3 : ZG) (a : Nat) :
    ∀ (n pend p0 p1 p2 p3 : Nat) (st : UpState), pend - p0 ≤ n →
      (∀ p, p0 ≤ p → p < pend → avoids c a (st.Li p)) →
      (quadLoop c g0 g1 g2 g3 pend p0 p1 p2 p3 st).WC a = st.WC a ∧
        (quadLoop c g0 g1 g2 g3 pend p0 p1 p2 p3 st).WD a = st.WD a := by
  intro n
  induction n with
  | zero =>
    intro pend p0 p1 p2 p3 st hle _
    rw [quadLoop, dif_neg (by omega)]
    exact ⟨rfl, rfl⟩
  | succ n ih =>
    intro pend p0 p1 p2 p3 st hle hav
    by_cases hlt : p0 < pend
    · rw [quadLoop, dif_pos hlt]
      have hLi : (quadMainBody c g0 g1 g2 g3 p0 p1 p2 p3 st).Li = st.Li :=
        quadMainBody_Li c g0 g1 g2 g3 p0 p1 p2 p3 st
      obtain ⟨u1, u2⟩ := ih pend (p0 + 1) (p1 + 1) (p2 + 1) (p3 + 1)
        (quadMainBody c g0 g1 g2 g3 p0 p1 p2 p3 st) (by omega)
        (by
          intro p hp hp'
          rw [hLi]
          exact hav p (by omega) hp')
      rw [u1, u2]
      exact quadMainBody_frame c g0 g1 g2 g3 p0 p1 p2 p3 st a
        (hav p0 le_rfl (by omega))
    · rw [quadLoop, dif_neg hlt]
      exact ⟨rfl, rfl⟩


theorem zeroWRow_WC_frame (c : Ctx) (j a : Nat) (h : avoids c a j) :
    ∀ st : UpState, (zeroWRow c j st).WC a = st.WC a :=
  fun st => ((zeroWRow_cell c j st a).2 h).1

theorem zeroWRow_WD_frame (c : Ctx) (j a : Nat) (h : avoids c a j) :
    ∀ st : UpState, (zeroWRow c j st).WD a = st.WD a :=
  fun st => ((zeroWRow_cell c j st a).2 h).2

theorem columnStep_frame (c : Ctx) (e j : Nat) (st : UpState) (a : Nat)
    (hj : avoids c a j)
    (hoff : ∀ p, st.Lp j < p → p < st.Lp j + st.Lnz j → avoids c a (st.Li p)) :
    (columnStep c e j st).WC a = st.WC a ∧
      (columnStep c e j st).WD a = st.WD a := by
  unfold columnStep
  dsimp only
  simp only [agAt_Li, agAt_Lnz, agAt_Lp, zeroWRow_Li, zeroWRow_Lnz, zeroWRow_Lp]
  by_cases hd : st.Lnz j > 1 ∧ st.Li (st.Lp j + 1) ≤ e ∧
      st.Lnz j = st.Lnz (st.Li (st.Lp j + 1)) + 1
  · rw [if_pos hd.1, if_pos hd.2]
    have hav1 : avoids c a (st.Li (st.Lp j + 1)) :=
      hoff (st.Lp j + 1) (by omega) (by omega)
    by_cases hq : st.Lnz j > 2 ∧ st.Lnz j > 3 ∧
        (st.Li (st.Lp j + 1 + 1) ≤ e ∧ st.Li (st.Lp j + 1 + 2) ≤ e ∧
         st.Lnz j = st.Lnz (st.Li (st.Lp j + 1 + 1)) + 2 ∧
         st.Lnz j = st.Lnz (st.Li (st.Lp j + 1 + 2)) + 3)
    · rw [if_pos hq.1, if_pos hq.2.1, if_pos hq.2.2]
      have hav2 : avoids c a (st.Li (st.Lp j + 1 + 1)) :=
        hoff (st.Lp j + 1 + 1) (by omega) (by omega)
      have hav3 : avoids c a (st.Li (st.Lp j + 1 + 2)) :=
        hoff (st.Lp j + 1 + 2) (by omega) (by omega)
      refine ⟨Eq.trans ((quadLoop_frame c _ _ _ _ a (st.Lp j + st.Lnz j)
          _ _ _ _ _ _ (by omega)
          (by
            intro p hp hp'
            simp only [agAt_Li, zeroWRow_Li]
            exact hoff p (by omega) (by omega))).1)
          (by
            simp only [agAt_WC, zeroWRow_WC_frame c j a hj,
              zeroWRow_WC_frame c (st.Li (st.Lp j + 1)) a hav1,
              zeroWRow_WC_frame c (st.Li (st.Lp j + 1 + 1)) a hav2,
              zeroWRow_WC_frame c (st.Li (st.Lp j + 1 + 2)) a hav3]),
        Eq.trans ((quadLoop_frame c _ _ _ _ a (st.Lp j + st.Lnz j)
          _ _ _ _ _ _ (by omega)
          (by
            intro p hp hp'
            simp only [agAt_Li, zeroWRow_Li]
            exact hoff p (by omega) (by omega))).2)
          (by
            simp only [agAt_WD, zeroWRow_WD_frame c j a hj,
              zeroWRow_WD_frame c (st.Li (st.Lp j + 1)) a hav1,
              zeroWRow_WD_frame c (st.Li (st.Lp j + 1 + 1)) a hav2,
              zeroWRow_WD_frame c (st.Li (st.Lp j + 1 + 2)) a hav3])⟩
    · have ncq : ¬((if st.Lnz j > 2 then st.Li (st.Lp j + 1 + 1) else e + 1) ≤ e ∧
          (if st.Lnz j > 3 then st.Li (st.Lp j + 1 + 2) else e + 1) ≤ e ∧
          st.Lnz j =
            st.Lnz (if st.Lnz j > 2 then st.Li (st.Lp j + 1 + 1) else e + 1) + 2 ∧
          st.Lnz j =
            st.Lnz (if st.Lnz j > 3 then st.Li (st.Lp j + 1 + 2) else e + 1) + 3) := by
        by_cases h2 : st.Lnz j > 2
        · by_cases h3 : st.Lnz j > 3
          · rw [if_pos h2, if_pos h3]
            intro hC
            exact hq ⟨h2, h3, hC⟩
          · rw [if_neg h3]
            intro hC
            exact absurd hC.2.1 (by omega)
        · rw [if_neg h2]
          intro hC
          exact absurd hC.1 (by omega)
      rw [if_neg ncq]
      refine ⟨Eq.trans ((dualCase_frame c _ _ (st.Lnz j) _ _ _ _ a (by omega)
          (by
            intro p hp hp'
            simp only [agAt_Li, zeroWRow_Li]
            exact hoff p (by omega) (by omega))).1)
          (by
            simp only [agAt_WC, zeroWRow_WC_frame c j a hj,
              zeroWRow_WC_frame c (st.Li (st.Lp j + 1)) a hav1]),
        Eq.trans ((dualCase_frame c _ _ (st.Lnz j) _ _ _ _ a (by omega)
          (by
            intro p hp hp'
            simp only [agAt_Li, zeroWRow_Li]
            exact hoff p (by omega) (by omega))).2)
          (by
            simp only [agAt_WD, zeroWRow_WD_frame c j a hj,
              zeroWRow_WD_frame c (st.Li (st.Lp j + 1)) a hav1])⟩
  · have ncd : ¬((if st.Lnz j > 1 then st.Li (st.Lp j + 1) else e + 1) ≤ e ∧
        st.Lnz j =
          st.Lnz (if st.Lnz j > 1 then st.Li (st.Lp j + 1) else e + 1) + 1) := by
      by_cases h1 : st.Lnz j > 1
      · rw [if_pos h1]
        intro hC
        exact hd ⟨h1, hC⟩
      · rw [if_neg h1]
        intro hC
        exact absurd hC.1 (by omega)
    rw [if_neg ncd]
    refine ⟨Eq.trans ((singleCase_frame c _ (st.Lnz j) _ _ _ a (by omega)
        (by
          intro p hp hp'
          simp only [agAt_Li, zeroWRow_Li]
          exact hoff p (by omega) (by omega))).1)
        (by simp only [agAt_WC, zeroWRow_WC_frame c j a hj]),
      Eq.trans ((singleCase_frame c _ (st.Lnz j) _ _ _ a (by omega)
        (by
          intro p hp hp'
          simp only [agAt_Li, zeroWRow_Li]
          exact hoff p (by omega) (by omega))).2)
        (by simp only [agAt_WD, zeroWRow_WD_frame c j a hj])⟩

theorem zeroWRow_WC_zero (c : Ctx) (j a : Nat)
    (h : ∃ k, k < c.rank ∧ a = wcIdx c j k) :
    ∀ st : UpState, (zeroWRow c j st).WC a = 0 :=
  fun st => ((zeroWRow_cell c j st a).1 h).1

theorem zeroWRow_WD_zero (c : Ctx) (j a : Nat)
    (h : ∃ k, k < c.rank ∧ a = wcIdx c j k) :
    ∀ st : UpState, (zeroWRow c j st).WD a = 0 :=
  fun st => ((zeroWRow_cell c j st a).1 h).2

set_option maxHeartbeats 2000000 in
theorem columnStep_zero (c : Ctx) (e j : Nat) (st : UpState)
    (h0w : 0 < c.wdim) (hrw : c.rank ≤ c.wdim)
    (hdiag : st.Li (st.Lp j) = j)
    (hasc : ∀ t, t < st.Lnz j → ∀ s, s < t →
      st.Li (st.Lp j + s) < st.Li (st.Lp j + t)) :
    ∀ x, x ∈ sweptCols st.Lp st.Li st.Lnz e j → ∀ k, k < c.rank →
      (columnStep c e j st).WC (wcIdx c x k) = 0 ∧
        (columnStep c e j st).WD (wcIdx c x k) = 0 := by
  intro x hx k hk
  have havoid : ∀ i, x ≠ i → avoids c (wcIdx c x k) i := fun i hne k' hk' =>
    wcIdx_ne_row c hne (Nat.lt_of_lt_of_le hk hrw) (Nat.lt_of_lt_of_le hk' hrw)
  have hzx : ∃ k2, k2 < c.rank ∧ wcIdx c x k = wcIdx c x k2 := ⟨k, hk, rfl⟩
  have hup : ∀ p, st.Lp j < p → p < st.Lp j + st.Lnz j → j < st.Li p := by
    intro p hp hp'
    have h2 := hasc (p - st.Lp j) (by omega) 0 (by omega)
    rw [show st.Lp j + (p - st.Lp j) = p from by omega] at h2
    rw [show st.Lp j + 0 = st.Lp j from by omega, hdiag] at h2
    exact h2
  unfold columnStep
  dsimp only
  simp only [agAt_Li, agAt_Lnz, agAt_Lp, zeroWRow_Li, zeroWRow_Lnz, zeroWRow_Lp]
  by_cases hd : st.Lnz j > 1 ∧ st.Li (st.Lp j + 1) ≤ e ∧
      st.Lnz j = st.Lnz (st.Li (st.Lp j + 1)) + 1
  · rw [if_pos hd.1, if_pos hd.2]
    have hj1 : j < st.Li (st.Lp j + 1) := hup (st.Lp j + 1) (by omega) (by omega)
    by_cases hq : st.Lnz j > 2 ∧ st.Lnz j > 3 ∧
        (st.Li (st.Lp j + 1 + 1) ≤ e ∧ st.Li (st.Lp j + 1 + 2) ≤ e ∧
         st.Lnz j = st.Lnz (st.Li (st.Lp j + 1 + 1)) + 2 ∧
         st.Lnz j = st.Lnz (st.Li (st.Lp j + 1 + 2)) + 3)
    · rw [if_pos hq.1, if_pos hq.2.1, if_pos hq.2.2]
      have hsk : stepKind st.Lp st.Li st.Lnz e j = Kind.quad := by
        unfold stepKind
        dsimp only
        rw [if_pos hd.1, if_pos hd.2, if_pos hq.1, if_pos hq.2.1, if_pos hq.2.2]
      have h12 : st.Li (st.Lp j + 1) < st.Li (st.Lp j + 1 + 1) := by
        have h2 := hasc 2 (by omega) 1 (by omega)
        exact h2
      have h23 : st.Li (st.Lp j + 1 + 1) < st.Li (st.Lp j + 1 + 2) := by
        have h2 := hasc 3 (by omega) 2 (by omega)
        exact h2
      have hbig : ∀ p, st.Lp j + 1 + 1 + 1 + 1 ≤ p → p < st.Lp j + st.Lnz j →
          st.Li (st.Lp j + 1 + 2) < st.Li p := by
        intro p hp hp'
        have h2 := hasc (p - st.Lp j) (by omega) 3 (by omega)
        rw [show st.Lp j + (p - st.Lp j) = p from by omega] at h2
        exact h2
      rw [sweptCols, hsk] at hx
      simp only [List.mem_cons, List.not_mem_nil, or_false] at hx
      rcases hx with hxj | hxj | hxj | hxj
      · refine ⟨Eq.trans ((quadLoop_frame c _ _ _ _ _ (st.Lp j + st.Lnz j)
            _ _ _ _ _ _ (by omega)
            (by
              intro p hp hp'
              simp only [agAt_Li, zeroWRow_Li]
              exact havoid (st.Li p) (by
                have := hup p (by omega) (by omega)
                omega))).1)
            (by
              simp only [agAt_WC,
                zeroWRow_WC_frame c (st.Li (st.Lp j + 1)) _ (havoid _ (by omega)),
                zeroWRow_WC_frame c (st.Li (st.Lp j + 1 + 1)) _ (havoid _ (by omega)),
                zeroWRow_WC_frame c (st.Li (st.Lp j + 1 + 2)) _ (havoid _ (by omega)),
                zeroWRow_WC_zero c j (wcIdx c x k) ⟨k, hk, by rw [hxj]⟩]),
          Eq.trans ((quadLoop_frame c _ _ _ _ _ (st.Lp j + st.Lnz j)
            _ _ _ _ _ _ (by omega)
            (by
              intro p hp hp'
              simp only [agAt_Li, zeroWRow_Li]
              exact havoid (st.Li p) (by
                have := hup p (by omega) (by omega)
                omega))).2)
            (by
              simp only [agAt_WD,
                zeroWRow_WD_frame c (st.Li (st.Lp j + 1)) _ (havoid _ (by omega)),
                zeroWRow_WD_frame c (st.Li (st.Lp j + 1 + 1)) _ (havoid _ (by omega)),
                zeroWRow_WD_frame c (st.Li (st.Lp j + 1 + 2)) _ (havoid _ (by omega)),
                zeroWRow_WD_zero c j (wcIdx c x k) ⟨k, hk, by rw [hxj]⟩])⟩
      · refine ⟨Eq.trans ((quadLoop_frame c _ _ _ _ _ (st.Lp j + st.Lnz j)
            _ _ _ _ _ _ (by omega)
            (by
              intro p hp hp'
              simp only [agAt_Li, zeroWRow_Li]
              exact havoid (st.Li p) (by
                have := hbig p (by omega) (by omega)
                omega))).1)
            (by
              simp only [agAt_WC,
                zeroWRow_WC_frame c (st.Li (st.Lp j + 1 + 1)) _ (havoid _ (by omega)),
                zeroWRow_WC_frame c (st.Li (st.Lp j + 1 + 2)) _ (havoid _ (by omega)),
                zeroWRow_WC_zero c (st.Li (st.Lp j + 1)) (wcIdx c x k) ⟨k, hk, by rw [hxj]⟩]),
          Eq.trans ((quadLoop_frame c _ _ _ _ _ (st.Lp j + st.Lnz j)
            _ _ _ _ _ _ (by omega)
            (by
              intro p hp hp'
              simp only [agAt_Li, zeroWRow_Li]
              exact havoid (st.Li p) (by
                have := hbig p (by omega) (by omega)
                omega))).2)
            (by
              simp only [agAt_WD,
                zeroWRow_WD_frame c (st.Li (st.Lp j + 1 + 1)) _ (havoid _ (by omega)),
                zeroWRow_WD_frame c (st.Li (st.Lp j + 1 + 2)) _ (havoid _ (by omega)),
                zeroWRow_WD_zero c (st.Li (st.Lp j + 1)) (wcIdx c x k) ⟨k, hk, by rw [hxj]⟩])⟩
      · refine ⟨Eq.trans ((quadLoop_frame c _ _ _ _ _ (st.Lp j + st.Lnz j)
            _ _ _ _ _ _ (by omega)
            (by
              intro p hp hp'
              simp only [agAt_Li, zeroWRow_Li]
              exact havoid (st.Li p) (by
                have := hbig p (by omega) (by omega)
                omega))).1)
            (by
              simp only [agAt_WC,
                zeroWRow_WC_frame c (st.Li (st.Lp j + 1 + 2)) _ (havoid _ (by omega)),
                zeroWRow_WC_zero c (st.Li (st.Lp j + 1 + 1)) (wcIdx c x k) ⟨k, hk, by rw [hxj]⟩]),
          Eq.trans ((quadLoop_frame c _ _ _ _ _ (st.Lp j + st.Lnz j)
            _ _ _ _ _ _ (by omega)
            (by
              intro p hp hp'
              simp only [agAt_Li, zeroWRow_Li]
              exact havoid (st.Li p) (by
                have := hbig p (by omega) (by omega)
                omega))).2)
            (by
              simp only [agAt_WD,
                zeroWRow_WD_frame c (st.Li (st.Lp j + 1 + 2)) _ (havoid _ (by omega)),
                zeroWRow_WD_zero c (st.Li (st.Lp j + 1 + 1)) (wcIdx c x k) ⟨k, hk, by rw [hxj]⟩])⟩
      · refine ⟨Eq.trans ((quadLoop_frame c _ _ _ _ _ (st.Lp j + st.Lnz j)
            _ _ _ _ _ _ (by omega)
            (by
              intro p hp hp'
              simp only [agAt_Li, zeroWRow_Li]
              exact havoid (st.Li p) (by
                have := hbig p (by omega) (by omega)
                omega))).1)
            (by
              simp only [agAt_WC, zeroWRow_WC_zero c (st.Li (st.Lp j + 1 + 2)) (wcIdx c x k) ⟨k, hk, by rw [hxj]⟩]),
          Eq.trans ((quadLoop_frame c _ _ _ _ _ (st.Lp j + st.Lnz j)
            _ _ _ _ _ _ (by omega)
            (by
              intro p hp hp'
              simp only [agAt_Li, zeroWRow_Li]
              exact havoid (st.Li p) (by
                have := hbig p (by omega) (by omega)
                omega))).2)
            (by
              simp only [agAt_WD, zeroWRow_WD_zero c (st.Li (st.Lp j + 1 + 2)) (wcIdx c x k) ⟨k, hk, by rw [hxj]⟩])⟩
    · have ncq : ¬((if st.Lnz j > 2 then st.Li (st.Lp j + 1 + 1) else e + 1) ≤ e ∧
          (if st.Lnz j > 3 then st.Li (st.Lp j + 1 + 2) else e + 1) ≤ e ∧
          st.Lnz j =
            st.Lnz (if st.Lnz j > 2 then st.Li (st.Lp j + 1 + 1) else e + 1) + 2 ∧
          st.Lnz j =
            st.Lnz (if st.Lnz j > 3 then st.Li (st.Lp j + 1 + 2) else e + 1) + 3) := by
        by_cases h2 : st.Lnz j > 2
        · by_cases h3 : st.Lnz j > 3
          · rw [if_pos h2, if_pos h3]
            intro hC
            exact hq ⟨h2, h3, hC⟩
          · rw [if_neg h3]
            intro hC
            exact absurd hC.2.1 (by omega)
        · rw [if_neg h2]
          intro hC
          exact absurd hC.1 (by omega)
      rw [if_neg ncq]
      have hsk : stepKind st.Lp st.Li st.Lnz e j = Kind.dual := by
        unfold stepKind
        dsimp only
        rw [if_pos hd.1, if_pos hd.2, if_neg ncq]
      have hdd : ∀ p, st.Lp j + 1 + 1 ≤ p → p < st.Lp j + st.Lnz j →
          st.Li (st.Lp j + 1) < st.Li p := by
        intro p hp hp'
        have h2 := hasc (p - st.Lp j) (by omega) 1 (by omega)
        rw [show st.Lp j + (p - st.Lp j) = p from by omega] at h2
        exact h2
      rw [sweptCols, hsk] at hx
      simp only [List.mem_cons, List.not_mem_nil, or_false] at hx
      rcases hx with hxj | hxj
      · refine ⟨Eq.trans ((dualCase_frame c _ _ (st.Lnz j) _ _ _ _ _ (by omega)
            (by
              intro p hp hp'
              simp only [agAt_Li, zeroWRow_Li]
              exact havoid (st.Li p) (by
                have := hup p (by omega) (by omega)
                omega))).1)
            (by
              simp only [agAt_WC,
                zeroWRow_WC_frame c (st.Li (st.Lp j + 1)) _ (havoid _ (by omega)),
                zeroWRow_WC_zero c j (wcIdx c x k) ⟨k, hk, by rw [hxj]⟩]),
          Eq.trans ((dualCase_frame c _ _ (st.Lnz j) _ _ _ _ _ (by omega)
            (by
              intro p hp hp'
              simp only [agAt_Li, zeroWRow_Li]
              exact havoid (st.Li p) (by
                have := hup p (by omega) (by omega)
                omega))).2)
            (by
              simp only [agAt_WD,
                zeroWRow_WD_frame c (st.Li (st.Lp j + 1)) _ (havoid _ (by omega)),
                zeroWRow_WD_zero c j (wcIdx c x k) ⟨k, hk, by rw [hxj]⟩])⟩
      · refine ⟨Eq.trans ((dualCase_frame c _ _ (st.Lnz j) _ _ _ _ _ (by omega)
            (by
              intro p hp hp'
              simp only [agAt_Li, zeroWRow_Li]
              exact havoid (st.Li p) (by
                have := hdd p (by omega) (by omega)
                omega))).1)
            (by
              simp only [agAt_WC, zeroWRow_WC_zero c (st.Li (st.Lp j + 1)) (wcIdx c x k) ⟨k, hk, by rw [hxj]⟩]),
          Eq.trans ((dualCase_frame c _ _ (st.Lnz j) _ _ _ _ _ (by omega)
            (by
              intro p hp hp'
              simp only [agAt_Li, zeroWRow_Li]
              exact havoid (st.Li p) (by
                have := hdd p (by omega) (by omega)
                omega))).2)
            (by
              simp only [agAt_WD, zeroWRow_WD_zero c (st.Li (st.Lp j + 1)) (wcIdx c x k) ⟨k, hk, by rw [hxj]⟩])⟩
  · have ncd : ¬((if st.Lnz j > 1 then st.Li (st.Lp j + 1) else e + 1) ≤ e ∧
        st.Lnz j =
          st.Lnz (if st.Lnz j > 1 then st.Li (st.Lp j + 1) else e + 1) + 1) := by
      by_cases h1 : st.Lnz j > 1
      · rw [if_pos h1]
        intro hC
        exact hd ⟨h1, hC⟩
      · rw [if_neg h1]
        intro hC
        exact absurd hC.1 (by omega)
    rw [if_neg ncd]
    have hsk : stepKind st.Lp st.Li st.Lnz e j = Kind.single := by
      unfold stepKind
      dsimp only
      rw [if_neg ncd]
    rw [sweptCols, hsk] at hx
    simp only [List.mem_cons, List.not_mem_nil, or_false] at hx
    refine ⟨Eq.trans ((singleCase_frame c _ (st.Lnz j) _ _ _ _ (by omega)
        (by
          intro p hp hp'
          simp only [agAt_Li, zeroWRow_Li]
          exact havoid (st.Li p) (by
            have := hup p (by omega) (by omega)
            omega))).1)
        (by simp only [agAt_WC, zeroWRow_WC_zero c j (wcIdx c x k) ⟨k, hk, by rw [hx]⟩]),
      Eq.trans ((singleCase_frame c _ (st.Lnz j) _ _ _ _ (by omega)
        (by
          intro p hp hp'
          simp only [agAt_Li, zeroWRow_Li]
          exact havoid (st.Li p) (by
            have := hup p (by omega) (by omega)
            omega))).2)
        (by simp only [agAt_WD, zeroWRow_WD_zero c j (wcIdx c x k) ⟨k, hk, by rw [hx]⟩])⟩

theorem dispatchPath_Lp (wdim : Nat) (db : ℚ) (P : PathT) (st : UpState) :
    (dispatchPath wdim db P st).Lp = st.Lp :=
  dispatchPath_proj patProj_Lp wdim db P st

theorem dispatchPath_Li (wdim : Nat) (db : ℚ) (P : PathT) (st : UpState) :
    (dispatchPath wdim db P st).Li = st.Li :=
  dispatchPath_proj patProj_Li wdim db P st

theorem dispatchPath_Lnz (wdim : Nat) (db : ℚ) (P : PathT) (st : UpState) :
    (dispatchPath wdim db P st).Lnz = st.Lnz :=
  dispatchPath_proj patProj_Lnz wdim db P st

theorem chain_frame (c : Ctx) (e : Nat) (E : Nat → Prop) :
    ∀ (chain : List Nat) (st : UpState) (a : Nat),
      chainOKE st.Lp st.Li st.Lnz e E chain →
      (∀ i, i ∈ sweptAll st.Lp st.Li st.Lnz e chain → avoids c a i) →
      (∀ i, E i → avoids c a i) →
      (chain.foldl (fun s x => columnStep c e x s) st).WC a = st.WC a ∧
        (chain.foldl (fun s x => columnStep c e x s) st).WD a = st.WD a := by
  intro chain
  induction chain with
  | nil =>
    intro st a _ _ _
    exact ⟨rfl, rfl⟩
  | cons j rest ih =>
    intro st a hok hsw hesc
    rw [List.foldl_cons]
    have hsplit : sweptAll st.Lp st.Li st.Lnz e (j :: rest) =
        sweptCols st.Lp st.Li st.Lnz e j ++
          sweptAll st.Lp st.Li st.Lnz e rest := rfl
    have hjav : avoids c a j := by
      refine hsw j ?_
      rw [hsplit]
      refine List.mem_append.mpr (Or.inl ?_)
      unfold sweptCols
      rcases stepKind st.Lp st.Li st.Lnz e j <;> simp
    have hoffav : ∀ p, st.Lp j < p → p < st.Lp j + st.Lnz j →
        avoids c a (st.Li p) := by
      intro p hp hp'
      rcases hok.2.2.2.2.1 p hp' hp with hmem | hmem | hmem
      · refine hsw (st.Li p) ?_
        rw [hsplit]
        exact List.mem_append.mpr (Or.inl hmem)
      · refine hsw (st.Li p) ?_
        rw [hsplit]
        exact List.mem_append.mpr (Or.inr hmem)
      · exact hesc (st.Li p) hmem
    obtain ⟨u1, u2⟩ := columnStep_frame c e j st a hjav hoffav
    have hres := ih (columnStep c e j st) a
      (by
        rw [columnStep_Lp, columnStep_Li, columnStep_Lnz]
        exact hok.2.2.2.2.2)
      (by
        rw [columnStep_Lp, columnStep_Li, columnStep_Lnz]
        intro i hi
        refine hsw i ?_
        rw [hsplit]
        exact List.mem_append.mpr (Or.inr hi))
      hesc
    rw [hres.1, hres.2, u1, u2]
    exact ⟨rfl, rfl⟩

theorem chain_zero (c : Ctx) (e : Nat) (E : Nat → Prop)
    (h0w : 0 < c.wdim) (hrw : c.rank ≤ c.wdim)
    (hE : ∀ i, E i → e < i) :
    ∀ (chain : List Nat) (st : UpState),
      chainOKE st.Lp st.Li st.Lnz e E chain →
      ∀ x, x ∈ sweptAll st.Lp st.Li st.Lnz e chain → ∀ k, k < c.rank →
        (chain.foldl (fun s y => columnStep c e y s) st).WC (wcIdx c x k) = 0 ∧
          (chain.foldl (fun s y => columnStep c e y s) st).WD (wcIdx c x k) = 0 := by
  intro chain
  induction chain with
  | nil =>
    intro st _ x hx
    exact absurd hx (List.not_mem_nil x)
  | cons j rest ih =>
    intro st hok x hx k hk
    rw [List.foldl_cons]
    have hsplit : sweptAll st.Lp st.Li st.Lnz e (j :: rest) =
        sweptCols st.Lp st.Li st.Lnz e j ++
          sweptAll st.Lp st.Li st.Lnz e rest := rfl
    rw [hsplit] at hx
    rcases List.mem_append.mp hx with hx | hx
    · have hz := columnStep_zero c e j st h0w hrw hok.1 hok.2.1 x hx k hk
      have hxe : x ≤ e := hok.2.2.1 x hx
      have hfr := chain_frame c e E rest (columnStep c e j st) (wcIdx c x k)
        (by
          rw [columnStep_Lp, columnStep_Li, columnStep_Lnz]
          exact hok.2.2.2.2.2)
        (by
          rw [columnStep_Lp, columnStep_Li, columnStep_Lnz]
          intro i hi
          have hlt : x < i := hok.2.2.2.1 x hx i hi
          intro k' hk'
          exact wcIdx_ne_row c (by omega) (Nat.lt_of_lt_of_le hk hrw)
            (Nat.lt_of_lt_of_le hk' hrw))
        (by
          intro i hiE
          have hlt : e < i := hE i hiE
          intro k' hk'
          exact wcIdx_ne_row c (by omega) (Nat.lt_of_lt_of_le hk hrw)
            (Nat.lt_of_lt_of_le hk' hrw))
      rw [hfr.1, hfr.2, hz.1, hz.2]
      exact ⟨rfl, rfl⟩
    · exact ih (columnStep c e j st)
        (by
          rw [columnStep_Lp, columnStep_Li, columnStep_Lnz]
          exact hok.2.2.2.2.2)
        x
        (by
          rw [columnStep_Lp, columnStep_Li, columnStep_Lnz]
          exact hx)
        k hk

theorem interior_clean (wdim : Nat) (db : ℚ) (Paths : Nat → PathT)
    (h0w : 0 < wdim) :
    ∀ (ts : List Nat) (st : UpState),
      (∀ t, t ∈ ts → 1 ≤ (Paths t).rank ∧ (Paths t).rank ≤ wdim) →
      pathsOK st.Lp st.Li st.Lnz Paths ts →
      (∀ b, ¬ coveredBy wdim st.Lp st.Li st.Lnz Paths ts b →
        st.WC b = 0 ∧ st.WD b = 0) →
      ∀ a, (ts.foldl (fun s u => dispatchPath wdim db (Paths u) s) st).WC a = 0 ∧
        (ts.foldl (fun s u => dispatchPath wdim db (Paths u) s) st).WD a = 0 := by
  intro ts
  induction ts with
  | nil =>
    intro st _ _ hinv a
    refine hinv a ?_
    intro hcov
    obtain ⟨u, hu, _⟩ := hcov
    exact absurd hu (List.not_mem_nil u)
  | cons t rest ih =>
    intro st hpr hps hinv a
    rw [List.foldl_cons]
    have hrt := hpr t (List.mem_cons_self t rest)
    have hdisp : dispatchPath wdim db (Paths t) st =
        (pathChain st.Lp st.Li st.Lnz (Paths t)).foldl
          (fun s y => columnStep ⟨wdim, (Paths t).rank, (Paths t).wfirst, db⟩
            (Paths t).last y s) st := by
      have hnum : dispatchPath wdim db (Paths t) st =
          numkr ⟨wdim, (Paths t).rank, (Paths t).wfirst, db⟩
            (Paths t).start (Paths t).last st := by
        unfold dispatchPath
        by_cases hw1 : wdim = 1
        · rw [if_pos hw1]
          rw [show (Paths t).rank = 1 from by omega]
        · rw [if_neg hw1, if_pos ⟨hrt.1, hrt.2⟩]
      rw [hnum]
      unfold numkr pathChain
      exact kernelLoop_eq_foldl _ _ _ _ _
    have hinv2 : ∀ b, ¬ coveredBy wdim st.Lp st.Li st.Lnz Paths rest b →
        (dispatchPath wdim db (Paths t) st).WC b = 0 ∧
          (dispatchPath wdim db (Paths t) st).WD b = 0 := by
      intro b hnc
      rw [hdisp]
      by_cases hct : ∃ i, i ∈ sweptAll st.Lp st.Li st.Lnz (Paths t).last
          (pathChain st.Lp st.Li st.Lnz (Paths t)) ∧
          ∃ k, k < (Paths t).rank ∧ b = (Paths t).wfirst + wdim * i + k
      · obtain ⟨i, hi, k, hk, hb⟩ := hct
        have hz := chain_zero ⟨wdim, (Paths t).rank, (Paths t).wfirst, db⟩
          (Paths t).last (escTo st.Lp st.Li st.Lnz Paths t rest) h0w hrt.2
          (fun i2 hi2 => hi2.1)
          (pathChain st.Lp st.Li st.Lnz (Paths t)) st hps.1 i hi k hk
        rw [hb]
        exact hz
      · have h1 : ∀ i, i ∈ sweptAll st.Lp st.Li st.Lnz (Paths t).last
            (pathChain st.Lp st.Li st.Lnz (Paths t)) →
            avoids ⟨wdim, (Paths t).rank, (Paths t).wfirst, db⟩ b i := by
          intro i hi k hk hbe
          exact hct ⟨i, hi, k, hk, hbe⟩
        have h2 : ∀ i, escTo st.Lp st.Li st.Lnz Paths t rest i →
            avoids ⟨wdim, (Paths t).rank, (Paths t).wfirst, db⟩ b i := by
          intro i hiE k hk hbe
          obtain ⟨hlast, u, hu, hmem, hle1, hle2⟩ := hiE
          have hk2 : k < (Paths t).rank := hk
          refine hnc ⟨u, hu, i, hmem,
            (Paths t).wfirst + k - (Paths u).wfirst, by omega, ?_⟩
          rw [hbe]
          unfold wcIdx
          dsimp only
          omega
        have hfr := chain_frame ⟨wdim, (Paths t).rank, (Paths t).wfirst, db⟩
          (Paths t).last (escTo st.Lp st.Li st.Lnz Paths t rest)
          (pathChain st.Lp st.Li st.Lnz (Paths t)) st b hps.1 h1 h2
        rw [hfr.1, hfr.2]
        refine hinv b ?_
        intro hcov
        obtain ⟨u, hu, hrest⟩ := hcov
        rcases List.mem_cons.mp hu with huj | hu2
        · rw [huj] at hrest
          exact hct hrest
        · exact hnc ⟨u, hu2, hrest⟩
    have hres := ih (dispatchPath wdim db (Paths t) st)
      (fun u hu => hpr u (List.mem_cons_of_mem t hu))
      (by
        rw [dispatchPath_Lp, dispatchPath_Li, dispatchPath_Lnz]
        exact hps.2)
      (by
        rw [dispatchPath_Lp, dispatchPath_Li, dispatchPath_Lnz]
        exact hinv2)
      a
    exact hres

theorem scatterStage_Lp (wdim : Nat) (Cm Dm : SpMat) (Paths : Nat → PathT)
    (rank : Nat) (mask : Option (Nat → ℤ)) (maskmark : ℤ) (st : UpState) :
    (scatterStage wdim Cm Dm Paths rank mask maskmark st).Lp = st.Lp :=
  scatterStage_proj patProj_Lp wdim Cm Dm Paths rank mask maskmark st

theorem scatterStage_Li (wdim : Nat) (Cm Dm : SpMat) (Paths : Nat → PathT)
    (rank : Nat) (mask : Option (Nat → ℤ)) (maskmark : ℤ) (st : UpState) :
    (scatterStage wdim Cm Dm Paths rank mask maskmark st).Li = st.Li :=
  scatterStage_proj patProj_Li wdim Cm Dm Paths rank mask maskmark st

theorem scatterStage_Lnz (wdim : Nat) (Cm Dm : SpMat) (Paths : Nat → PathT)
    (rank : Nat) (mask : Option (Nat → ℤ)) (maskmark : ℤ) (st : UpState) :
    (scatterStage wdim Cm Dm Paths rank mask maskmark st).Lnz = st.Lnz :=
  scatterStage_proj patProj_Lnz wdim Cm Dm Paths rank mask maskmark st


/-- C3 (amended): W and WD are entirely zero when the call returns,
for a plan of `rank` leaf descriptors followed by an arbitrary sequence
of interior descriptors processed in order, each with its own W slice
`[wfirst, wfirst + rank)`, provided: each interior descriptor's rank
selects a kernel (`1 ≤ rank ≤ wdim`); along each interior walk every
visited column has its diagonal row first and strictly ascending row
indices, the columns swept at a step lie inside the path and precede
the columns swept later, and every off-diagonal row of a visited column
is fused at that step, swept later in the same walk, or lies beyond the
path's last column and is swept by a later descriptor whose W slice
contains this one (slice coverage); and every mask-passing row
scattered from C lands in a cell some interior descriptor's walk
clears (scatter coverage). -/
theorem w_cleanliness_amended (wdim rank npaths : Nat) (Cm Dm : SpMat)
    (Paths : Nat → PathT) (mask : Option (Nat → ℤ)) (maskmark : ℤ) (db : ℚ)
    (st : UpState)
    (h0w : 0 < wdim)
    (hWC : st.WC = fun _ => 0) (hWD : st.WD = fun _ => 0)
    (hpr : ∀ t, t ∈ List.range' rank (npaths - rank) →
      1 ≤ (Paths t).rank ∧ (Paths t).rank ≤ wdim)
    (hps : pathsOK st.Lp st.Li st.Lnz Paths (List.range' rank (npaths - rank)))
    (hscat : ∀ t2, t2 < rank → ∀ p, p < colEnd Cm (Paths t2).ccol →
      Cm.p (Paths t2).ccol ≤ p → maskPass mask maskmark (Cm.i p) = true →
      coveredBy wdim st.Lp st.Li st.Lnz Paths
        (List.range' rank (npaths - rank)) (wdim * Cm.i p + t2)) :
    ∀ a, (updown2r wdim Cm Dm rank Paths npaths mask maskmark db st).WC a = 0 ∧
      (updown2r wdim Cm Dm rank Paths npaths mask maskmark db st).WD a = 0 := by
  intro a
  unfold updown2r
  dsimp only
  refine interior_clean wdim db Paths h0w (List.range' rank (npaths - rank))
    (scatterStage wdim Cm Dm Paths rank mask maskmark st) hpr
    (by
      rw [scatterStage_Lp, scatterStage_Li, scatterStage_Lnz]
      exact hps)
    (by
      rw [scatterStage_Lp, scatterStage_Li, scatterStage_Lnz]
      intro b hnc
      obtain ⟨u1, u2⟩ := scatterStage_untouched wdim Cm Dm Paths mask maskmark
        rank st b
        (by
          intro path2 hp2 p hpb1 hpb2 hmp heq
          refine hnc ?_
          rw [heq]
          exact hscat path2 hp2 p hpb1 hpb2 hmp)
      rw [u1, u2, hWC, hWD]
      exact ⟨rfl, rfl⟩)
    a

theorem w_cleanliness_counterexample :
    cexSt.WC = (fun _ => 0) ∧ cexSt.WD = (fun _ => 0) ∧
    visitChain cexSt.Lp cexSt.Li cexSt.Lnz (cexPaths 1).last
      ((cexPaths 1).last + 1 - (cexPaths 1).start) (cexPaths 1).start = [1] ∧
    chainOK cexSt.Lp cexSt.Li cexSt.Lnz (cexPaths 1).last [1] ∧
    cexSt.Lnz 1 = 1 ∧
    (updown2r 1 cexC cexD 1 cexPaths 2 none 0 0 cexSt).WC 0 = 5 := by
  refine ⟨rfl, rfl, by decide, by decide, rfl, ?_⟩
  unfold updown2r
  dsimp only
  rw [show (2 : Nat) - 1 = 1 from rfl, List.range'_one, List.foldl_cons,
    List.foldl_nil]
  unfold dispatchPath
  have e0 : cexPaths 1 = ⟨1, 1, 0, 1, 0⟩ := rfl
  rw [e0]
  dsimp only
  rw [if_pos rfl]
  unfold numkr
  rw [kernelLoop_eq_foldl]
  rw [scatterStage_Lp, scatterStage_Li, scatterStage_Lnz]
  rw [show visitChain cexSt.Lp cexSt.Li cexSt.Lnz 1 (1 + 1 - 1) 1 = [1] from
    by decide]
  rw [List.foldl_cons, List.foldl_nil]
  obtain ⟨u1, u2⟩ := columnStep_frame ⟨1, 1, 0, 0⟩ 1 1
    (scatterStage 1 cexC cexD cexPaths 1 none 0 cexSt) 0
    (by
      intro k hk
      unfold wcIdx
      dsimp only
      omega)
    (by
      intro p hp hp'
      rw [scatterStage_Lp] at hp
      rw [scatterStage_Lp, scatterStage_Lnz] at hp'
      rw [show cexSt.Lp 1 = 2 from rfl] at hp hp'
      rw [show cexSt.Lnz 1 = 1 from rfl] at hp'
      exact absurd hp' (by omega))
  rw [u1]
  exact (scatterStage_w_hit 1 cexC cexD cexPaths none 0 (by decide) 1 cexSt 0
    (by decide) (by decide) 0 (by decide) (by decide) (by decide) (by decide)).1

/-- The amended C3 theorem applied to the five-column quad chain: two
leaf descriptors and one interior descriptor forming a well-formed
plan, with all hypotheses checked by evaluation, and the W and WD cells
come out zero. -/
theorem w_cleanliness_amended_witness :
    pathsOK exSt.Lp exSt.Li exSt.Lnz exPaths3 (List.range' 2 (3 - 2)) ∧
    (updown2r 2 exC exD 2 exPaths3 3 exMask 3 0 exSt).WC 0 = 0 ∧
    (updown2r 2 exC exD 2 exPaths3 3 exMask 3 0 exSt).WD 0 = 0 :=
  ⟨by decide,
   (w_cleanliness_amended 2 2 3 exC exD exPaths3 exMask 3 0 exSt
     (by decide) rfl rfl (by decide) (by decide)
     (fun t2 ht2 p hp1 hp2 hmp =>
       (by decide : ∀ p, p < 3 → ∀ t2, t2 < 2 →
         maskPass exMask 3 (exC.i p) = true →
         coveredBy 2 exSt.Lp exSt.Li exSt.Lnz exPaths3 (List.range' 2 (3 - 2))
           (2 * exC.i p + t2))
         p (Nat.lt_of_lt_of_le hp1
           ((by decide : ∀ t2, t2 < 2 → colEnd exC (exPaths3 t2).ccol ≤ 3)
             t2 ht2))
         t2 ht2 hmp) 0).1,
   (w_cleanliness_amended 2 2 3 exC exD exPaths3 exMask 3 0 exSt
     (by decide) rfl rfl (by decide) (by decide)
     (fun t2 ht2 p hp1 hp2 hmp =>
       (by decide : ∀ p, p < 3 → ∀ t2, t2 < 2 →
         maskPass exMask 3 (exC.i p) = true →
         coveredBy 2 exSt.Lp exSt.Li exSt.Lnz exPaths3 (List.range' 2 (3 - 2))
           (2 * exC.i p + t2))
         p (Nat.lt_of_lt_of_le hp1
           ((by decide : ∀ t2, t2 < 2 → colEnd exC (exPaths3 t2).ccol ≤ 3)
             t2 ht2))
         t2 ht2 hmp) 0).2⟩

end Updown
